import Mathlib

/-!
SmartCalculatorGo: the expression engine of `main.go`.

A shallow embedding of `main.go` (validation, sign resolution, shunting-yard
conversion, postfix evaluation, substitution of variables, assignment) and
theorems about it.

Conventions of the embedding

* A Go `string` is the list of its runes, `Str := List Char`; `[]rune(s)` is the
  identity. (Only valid UTF-8 text is considered.)
* A Go result `(value, error)` is an `Except String value`, the string being the
  text of the error. Where a call can also abort the process (a nil function
  call, an index out of range) the result is an `Outcome`, which has a third
  alternative `crash`.
* The floating point routines of the Go runtime and of `strconv` are not part of
  the repository. They are taken as a parameter `L : GoFloat`; every general
  theorem holds for each `L` (satisfying `GoFloat.Lawful` where stated).
  `intFragment` and `fixedFragment` are executable instances used to run the
  code on examples.
* The table `unicode.Latin` is a parameter `latin : Char → Bool` in the same way,
  with `asciiLatin` to run examples.
* The global map `VariableDictionary` is a `Dictionary`, a function from keys to
  optional values; a function of the source that reads or writes the map takes
  the dictionary as an argument and returns the one it leaves. The definitions
  under `Stateful` pass the dictionary through every statement on the path of
  the map, with `mapLookup` and `mapStore` for the read and the write.
-/

namespace SmartCalc

/-- A Go string, as the list of its runes. -/
abbrev Str := List Char

/-- Result of a Go call that returns `(value, error)` or aborts the process. -/
inductive Outcome (α : Type) where
  | ok (value : α)
  | err (msg : String)
  | crash
  deriving DecidableEq, Repr

/-! ## The floating point library, as a parameter -/

/-- The float32 values and the library calls `main.go` makes on them.

* `parse32 s` is `strconv.ParseFloat(s, 32)` followed by `float32(..)`;
* `parse64 s` is `strconv.ParseFloat(s, 64)` followed by `float32(..)`;
* `add`, `sub`, `mul`, `div` are the float32 operators `+ - * /`;
* `format x` is `strconv.FormatFloat(float64(x), 'f', -1, 64)`;
* `format3 x` is `strconv.FormatFloat(float64(x), 'f', 3, 32)`. -/
structure GoFloat where
  F : Type
  parse32 : Str → Except String F
  parse64 : Str → Except String F
  add : F → F → F
  sub : F → F → F
  mul : F → F → F
  div : F → F → F
  format : F → Str
  format3 : F → Str

deriving instance DecidableEq for Except

/-- Go's `err == nil`. -/
def isNil {α : Type} : Except String α → Bool
  | .ok _ => true
  | .error _ => false

/-! ## `strings` and `regexp` calls used by the engine -/

/-- Go's `unicode.IsSpace`. -/
def isSpace (c : Char) : Bool :=
  let n := c.toNat
  (9 ≤ n && n ≤ 13) || n = 32 || n = 133 || n = 160 || n = 5760 ||
    (8192 ≤ n && n ≤ 8202) || n = 8232 || n = 8233 || n = 8239 || n = 8287 || n = 12288

/-- Loop of `strings.Fields`: `cur` is the field being read. -/
def fieldsLoop : Str → Str → List Str
  | cur, [] => if cur = [] then [] else [cur]
  | cur, c :: cs =>
    if isSpace c then
      if cur = [] then fieldsLoop [] cs else cur :: fieldsLoop [] cs
    else fieldsLoop (cur ++ [c]) cs

/-- Go's `strings.Fields`. -/
def Fields (s : Str) : List Str := fieldsLoop [] s

/-- Loop of `strings.Split(s, " ")`: `cur` is the piece being read. -/
def splitLoop : Str → Str → List Str
  | cur, [] => [cur]
  | cur, c :: cs => if c = ' ' then cur :: splitLoop [] cs else splitLoop (cur ++ [c]) cs

/-- Go's `strings.Split(s, " ")`. -/
def splitSpace (s : Str) : List Str := splitLoop [] s

/-- The call `regexp.MustCompile("([\(\)])").ReplaceAllString(line, " $1 ")` of
`ReadCalculationInput`: every parenthesis gets a space on both sides. -/
def spaceParens : Str → Str
  | [] => []
  | c :: cs => if c = '(' ∨ c = ')' then ' ' :: c :: ' ' :: spaceParens cs else c :: spaceParens cs

/-! ## Sign resolver: `isSign`, `signAddition`, `readSignRuneList` -/

/-- The test of one rune in the loop of `isSign`. -/
def isSignRune (r : Char) : Bool :=
  r = '+' || r = '-' || r = '/' || r = '*' || (r = '(' || r = ')')

/-- Loop of `isSign`; the first argument is the variable `isSign`. -/
def isSignLoop : Bool → List Char → Bool
  | isSign, [] => isSign
  | _, r :: rs => if isSignRune r then isSignLoop true rs else false

/-- Source `isSign`. -/
def isSign (s : Str) : Bool := isSignLoop false s

/-- Source `signAddition`: the closure it returns, applied to `second`. (The
second result, the rune `'+'`, is discarded by every caller.) -/
def signAddition (first : Char) (second : Char) : Except String Str :=
  if (first = '*' ∨ second = '/') ∨ (first = '/' ∨ second = '*') then
    .error "Invalid expression"
  else if first = '-' ∧ second = '-' then .ok ['+']
  else if first = '-' ∨ second = '-' then .ok ['-']
  else .ok ['+']

/-- The `for _, currentSign := range signList[2:]` loop of `readSignRuneList`. -/
def readSignLoop : Str → List Char → Outcome Str
  | resultSign, [] => .ok resultSign
  | resultSign, currentSign :: rest =>
    match resultSign with
    | [] => .crash
    | r0 :: _ =>
      match signAddition r0 currentSign with
      | .error e => .err e
      | .ok s => readSignLoop s rest

/-- Source `readSignRuneList`. Indexing an empty slice aborts. -/
def readSignRuneList (signList : List Char) : Outcome Str :=
  match signList with
  | [] => .crash
  | [c] => .ok [c]
  | c0 :: c1 :: rest =>
    match signAddition c0 c1 with
    | .error e => .err e
    | .ok resultSign => readSignLoop resultSign rest

/-! ## Arithmetic: `getOperationOfSign` and the four operations -/

/-- Source `addition` (curried closure). -/
def addition (L : GoFloat) (first : L.F) : L.F → L.F := fun second => L.add first second

/-- Source `substraction`. -/
def substraction (L : GoFloat) (first : L.F) : L.F → L.F := fun second => L.sub first second

/-- Source `multiplication`. -/
def multiplication (L : GoFloat) (first : L.F) : L.F → L.F := fun second => L.mul first second

/-- Source `division`. -/
def division (L : GoFloat) (first : L.F) : L.F → L.F := fun second => L.div first second

/-- Source `getOperationOfSign`; `none` is the `nil` function of the default
case. (The second result, the constant 0, is discarded by the caller.) -/
def getOperationOfSign (L : GoFloat) (sign : Str) : Option (L.F → L.F → L.F) :=
  if sign = ['+'] then some (addition L)
  else if sign = ['-'] then some (substraction L)
  else if sign = ['*'] then some (multiplication L)
  else if sign = ['/'] then some (division L)
  else none

/-- Source `getOperatorPrecedence`. -/
def getOperatorPrecedence (operator : Str) : Int :=
  if operator = ['*'] then 1
  else if operator = ['/'] then 1
  else if operator = ['+'] then 0
  else if operator = ['-'] then 0
  else -1

/-! ## The stack -/

/-- Source `Stack`. `storage` lists the elements from the top of the stack down
(the Go slice read from its last element to its first). -/
structure Stack where
  storage : List Str
  deriving DecidableEq, Repr

/-- Source `Stack.Push`. -/
def Stack.Push (s : Stack) (value : Str) : Stack := ⟨value :: s.storage⟩

/-- Source `Stack.Pop`: the popped value and the stack that is left. -/
def Stack.Pop (s : Stack) : Except String (Str × Stack) :=
  match s.storage with
  | [] => .error "Stack is empty"
  | value :: rest => .ok (value, ⟨rest⟩)

/-- Source `Stack.Peek`. -/
def Stack.Peek (s : Stack) : Except String Str :=
  match s.storage with
  | [] => .error "Stack is empty"
  | value :: _ => .ok value

/-- Source `Stack.isEmpty`. -/
def Stack.isEmpty (s : Stack) : Bool :=
  if 0 < s.storage.length ∧ isNil s.Peek = true then false else true

/-! ## Validator: `isValidInput` -/

/-- The `for i, word := range wordSlice` loop of `isValidInput`; the first
argument is the pointer `lastValue` (`none` for nil). -/
def isValidLoop (L : GoFloat) : Option Str → List Str → Bool
  | _, [] => true
  | lastValue, word :: rest =>
    if word = [' '] ∨ word = [] then isValidLoop L lastValue rest
    else
      match lastValue with
      | none => isValidLoop L (some word) rest
      | some last =>
        if last = ['('] ∨ word = ['('] ∨ last = [')'] ∨ word = [')'] then
          isValidLoop L (some word) rest
        else
          let isWordNumber := isNil (L.parse32 word)
          let isLastNumber := isNil (L.parse32 last)
          let isWordSign := isSign word
          let isLastSign := isSign last
          let areBothNumbers := isWordNumber && isLastNumber
          let areBothSigns := isWordSign && isLastSign
          if areBothNumbers || areBothSigns then false
          else if !isWordNumber && !isWordSign then false
          else isValidLoop L (some word) rest

/-- Source `isValidInput`. -/
def isValidInput (L : GoFloat) (line : Str) : Bool :=
  isValidLoop L none (splitSpace line)

/-! ## Shunting-yard: `infixToPostfix` -/

/-- The `char == ")"` branch of `infixToPostfix`: pop to `result` until the top
is `"("`, fail when the stack runs empty, then pop the `"("`. -/
def popToOpen : List Str → Str → Except String (List Str × Str)
  | [], _ => .error "Invalid expression"
  | top :: rest, result =>
    if top = ['('] then .ok (rest, result)
    else popToOpen rest (result ++ [' '] ++ top)

/-- The loop of the operator branch of `infixToPostfix`: pop to `result` while the
stack is not empty and the precedence of `char` is at most that of the top. -/
def popWhilePrecedence (char : Str) : List Str → Str → List Str × Str
  | [], result => ([], result)
  | top :: rest, result =>
    if getOperatorPrecedence char ≤ getOperatorPrecedence top then
      popWhilePrecedence char rest (result ++ [' '] ++ top)
    else (top :: rest, result)

/-- The `for _, char := range operands` loop of `infixToPostfix`, on the state
`(operandStack, result)`. -/
def infixLoop : List Str → Stack → Str → Except String (Stack × Str)
  | [], operandStack, result => .ok (operandStack, result)
  | char :: rest, operandStack, result =>
    if !isSign char then infixLoop rest operandStack (result ++ [' '] ++ char)
    else if char = ['('] then infixLoop rest (operandStack.Push char) result
    else if char = [')'] then
      match popToOpen operandStack.storage result with
      | .error e => .error e
      | .ok popped => infixLoop rest ⟨popped.1⟩ popped.2
    else
      let popped := popWhilePrecedence char operandStack.storage result
      infixLoop rest (Stack.Push ⟨popped.1⟩ char) popped.2

/-- The final `for !operandStack.isEmpty()` loop of `infixToPostfix`. -/
def popAll : List Str → Str → Str
  | [], result => result
  | top :: rest, result => popAll rest (result ++ [' '] ++ top)

/-- Source `infixToPostfix`. -/
def infixToPostfix (operation : Str) : Except String Str :=
  match infixLoop (Fields operation) ⟨[]⟩ [] with
  | .error e => .error e
  | .ok (operandStack, result) =>
    if operandStack.storage.any (fun operand => operand = ['('] ∨ operand = [')']) then
      .error "Invalid expression"
    else .ok (popAll operandStack.storage result)

/-! ## Postfix evaluator: `readPosfix` -/

/-- The `for _, word := range fields` loop of `readPosfix`. -/
def readPosfixLoop (L : GoFloat) : List Str → Stack → Outcome Stack
  | [], posFixStack => .ok posFixStack
  | word :: rest, posFixStack =>
    if isSign word then
      match readSignRuneList word with
      | .err e => .err e
      | .crash => .crash
      | .ok singleSign =>
        match posFixStack.Pop with
        | .error _ => .err "invalid postfix expression"
        | .ok (secondOperand, stack1) =>
          match stack1.Pop with
          | .error _ => .err "invalid postfix expression"
          | .ok (firstOperand, stack2) =>
            let operation := getOperationOfSign L singleSign
            match L.parse64 firstOperand with
            | .error _ => .err "invalid operand"
            | .ok firstFloat =>
              match L.parse64 secondOperand with
              | .error _ => .err "invalid operand"
              | .ok secondFloat =>
                match operation with
                | none => .crash
                | some op =>
                  readPosfixLoop L rest (stack2.Push (L.format (op firstFloat secondFloat)))
    else readPosfixLoop L rest (posFixStack.Push word)

/-- Source `readPosfix`. -/
def readPosfix (L : GoFloat) (posfixOp : Str) : Outcome Str :=
  match readPosfixLoop L (Fields posfixOp) ⟨[]⟩ with
  | .err e => .err e
  | .crash => .crash
  | .ok posFixStack =>
    match posFixStack.Pop with
    | .error _ => .err "invalid postfix expression"
    | .ok (finalResult, _) => .ok finalResult

/-! ## `ReadCalculationInput` -/

/-- Source `ReadCalculationInput`. (The number returned next to an error, 0 or
-1, is dropped: no caller reads it.) -/
def ReadCalculationInput (L : GoFloat) (line : Str) : Outcome L.F :=
  let spacedParenthesis := spaceParens line
  if !isValidInput L spacedParenthesis then .err "Invalid expression"
  else
    match infixToPostfix spacedParenthesis with
    | .error e => .err e
    | .ok posfix =>
      match readPosfix L posfix with
      | .err e => .err e
      | .crash => .crash
      | .ok output =>
        match L.parse32 output with
        | .error e => .err e
        | .ok result => .ok result

/-! ## Variable store, substitution and assignment

The table `unicode.Latin` of the Go library is a parameter `latin : Char → Bool`,
the test `unicode.In(letter, unicode.Latin)`. The global `VariableDictionary` is
passed explicitly: a function that reads it takes it as an argument, a function
that writes it returns the new one. -/

/-- Source `VariableDictionary`, a Go `map[string]float32`: the value stored
under each key, `none` for an absent key. -/
abbrev Dictionary (L : GoFloat) := Str → Option L.F

/-- The map with no key: the initial value of `VariableDictionary`. -/
def emptyDictionary (L : GoFloat) : Dictionary L := fun _ => none

/-- The Go statement `VariableDictionary[key] = value`. -/
def Dictionary.set {L : GoFloat} (dict : Dictionary L) (key : Str) (value : L.F) : Dictionary L :=
  fun k => if k = key then some value else dict k

/-- Trailing part of Go's `strings.TrimSpace`: drop the white space at the end. -/
def trimRight : Str → Str
  | [] => []
  | c :: cs =>
    match trimRight cs with
    | [] => if isSpace c then [] else [c]
    | t :: ts => c :: t :: ts

/-- Go's `strings.TrimSpace`. -/
def TrimSpace (s : Str) : Str := trimRight (s.dropWhile isSpace)

/-- Loop of `strings.Split(s, "=")`: `cur` is the piece being read. -/
def splitEqualsLoop : Str → Str → List Str
  | cur, [] => [cur]
  | cur, c :: cs =>
    if c = '=' then cur :: splitEqualsLoop [] cs else splitEqualsLoop (cur ++ [c]) cs

/-- Go's `strings.Split(s, "=")`. -/
def splitEquals (s : Str) : List Str := splitEqualsLoop [] s

/-- Go's `strings.Replace(s, old, new, 1)`: the first occurrence of `old` in `s`
is replaced by `new` (an empty `old` matches at the start). -/
def replaceFirst : Str → Str → Str → Str
  | [], old, new => if old = [] then new else []
  | c :: cs, old, new =>
    if old.isPrefixOf (c :: cs) = true then new ++ (c :: cs).drop old.length
    else c :: replaceFirst cs old new

/-- Source `IsWord`. -/
def IsWord (latin : Char → Bool) : Str → Bool
  | [] => true
  | letter :: rest => if !latin letter then false else IsWord latin rest

/-- Source `isParenthesis`: the word starts or ends with a parenthesis. -/
def isParenthesis (word : Str) : Bool :=
  word.getLast? = some '(' || word.getLast? = some ')' ||
    word.head? = some '(' || word.head? = some ')'

/-- Source `IsAssignmentInput`. -/
def IsAssignmentInput (line : Str) : Bool := line.count '=' = 1

/-- The `for _, word := range splitString` loop of `parseVariablesInString`; the
last argument is the variable `newString`. -/
def parseVariablesLoop (L : GoFloat) (latin : Char → Bool) (dict : Dictionary L) :
    List Str → Str → Except String Str
  | [], newString => .ok newString
  | word :: rest, newString =>
    if isNil (L.parse32 word) then parseVariablesLoop L latin dict rest newString
    else if IsWord latin word then
      match dict word with
      | some value =>
        parseVariablesLoop L latin dict rest (replaceFirst newString word (L.format3 value))
      | none => .error ("Unknown variable: " ++ String.mk word)
    else if !isSign word && !isParenthesis word then
      .error ("Invalid Identifier: " ++ String.mk word)
    else parseVariablesLoop L latin dict rest newString

/-- Source `parseVariablesInString`. -/
def parseVariablesInString (L : GoFloat) (latin : Char → Bool) (dict : Dictionary L) (s : Str) :
    Except String Str :=
  parseVariablesLoop L latin dict (Fields s) s

/-- Source `ReadAssignmentInput`: the dictionary after the call and the error
returned. Indexing `words` out of range aborts. -/
def ReadAssignmentInput (L : GoFloat) (latin : Char → Bool) (dict : Dictionary L) (line : Str) :
    Dictionary L × Outcome Unit :=
  match splitEquals (TrimSpace line) with
  | [] => (dict, .crash)
  | word0 :: words =>
    let varName := TrimSpace word0
    if !IsWord latin varName then (dict, .err "Invalid identifier")
    else
      match words with
      | [] => (dict, .crash)
      | word1 :: _ =>
        let operation := TrimSpace word1
        match parseVariablesInString L latin dict operation with
        | .error e => (dict, .err e)
        | .ok replacedOperation =>
          match ReadCalculationInput L replacedOperation with
          | .err e => (dict, .err e)
          | .crash => (dict, .crash)
          | .ok result => (dict.set varName result, .ok ())

/-- The expression branch of the loop of `main` (the `else` of
`if IsAssignmentInput(line)`): `parseVariablesInString` on the trimmed line, then
`ReadCalculationInput`; the dictionary after it and the result to print. -/
def evaluateLine (L : GoFloat) (latin : Char → Bool) (dict : Dictionary L) (line : Str) :
    Dictionary L × Outcome L.F :=
  match parseVariablesInString L latin dict (TrimSpace line) with
  | .error e => (dict, .err e)
  | .ok parsedInput => (dict, ReadCalculationInput L parsedInput)

/-! ## The global `VariableDictionary` as a state

The functions of `main.go` on whose path the global map is named, written as
steps on the state of the program: each takes the dictionary before the call as
its last argument and returns its result with the dictionary after the call.
Every statement passes the dictionary on; `mapLookup` and `mapStore` are the
only two that name the map. (`ReadCalculationInput` and the functions it calls
have no statement that names it.) -/

/-- The map read `value, ok := VariableDictionary[key]`. -/
def mapLookup {L : GoFloat} (key : Str) (dict : Dictionary L) : Option L.F × Dictionary L :=
  (dict key, dict)

/-- The map write `VariableDictionary[key] = value`. -/
def mapStore {L : GoFloat} (key : Str) (value : L.F) (dict : Dictionary L) :
    Unit × Dictionary L :=
  ((), dict.set key value)

/-- The loop of `parseVariablesInString` as a step on the dictionary. -/
def Stateful.parseVariablesLoop (L : GoFloat) (latin : Char → Bool) :
    List Str → Str → Dictionary L → Except String Str × Dictionary L
  | [], newString, dict => (.ok newString, dict)
  | word :: rest, newString, dict =>
    if isNil (L.parse32 word) then Stateful.parseVariablesLoop L latin rest newString dict
    else if IsWord latin word then
      match mapLookup word dict with
      | (some value, dict1) =>
        Stateful.parseVariablesLoop L latin rest (replaceFirst newString word (L.format3 value))
          dict1
      | (none, dict1) => (.error ("Unknown variable: " ++ String.mk word), dict1)
    else if !isSign word && !isParenthesis word then
      (.error ("Invalid Identifier: " ++ String.mk word), dict)
    else Stateful.parseVariablesLoop L latin rest newString dict

/-- Source `parseVariablesInString` as a step on the dictionary. -/
def Stateful.parseVariablesInString (L : GoFloat) (latin : Char → Bool) (s : Str)
    (dict : Dictionary L) : Except String Str × Dictionary L :=
  Stateful.parseVariablesLoop L latin (Fields s) s dict

/-- Source `ReadAssignmentInput` as a step on the dictionary. -/
def Stateful.ReadAssignmentInput (L : GoFloat) (latin : Char → Bool) (line : Str)
    (dict : Dictionary L) : Outcome Unit × Dictionary L :=
  match splitEquals (TrimSpace line) with
  | [] => (.crash, dict)
  | word0 :: words =>
    let varName := TrimSpace word0
    if !IsWord latin varName then (.err "Invalid identifier", dict)
    else
      match words with
      | [] => (.crash, dict)
      | word1 :: _ =>
        let operation := TrimSpace word1
        match Stateful.parseVariablesInString L latin operation dict with
        | (.error e, dict1) => (.err e, dict1)
        | (.ok replacedOperation, dict1) =>
          match ReadCalculationInput L replacedOperation with
          | .err e => (.err e, dict1)
          | .crash => (.crash, dict1)
          | .ok result => (.ok (), (mapStore varName result dict1).2)

/-- The expression branch of the loop of `main` as a step on the dictionary. -/
def Stateful.evaluateLine (L : GoFloat) (latin : Char → Bool) (line : Str)
    (dict : Dictionary L) : Outcome L.F × Dictionary L :=
  match Stateful.parseVariablesInString L latin (TrimSpace line) dict with
  | (.error e, dict1) => (.err e, dict1)
  | (.ok parsedInput, dict1) => (ReadCalculationInput L parsedInput, dict1)

/-! ## An executable instance of the float library: the integer fragment

On decimal integers of magnitude below 2^24 float32 arithmetic is exact, so the
library can be run on them with plain integers. A value is `some n` for the
integer `n`, or `none` for a float outside the fragment (the quotient of an
inexact division, a division by zero, NaN); `none` is printed `NaN` and absorbs
every operation. -/

/-- ASCII decimal digit test. -/
def isDigitRune (c : Char) : Bool := 48 ≤ c.toNat && c.toNat ≤ 57

/-- Digits read left to right, then optionally a point followed by zeros only. -/
def parseNatLit : Nat → Str → Option Nat
  | acc, [] => some acc
  | acc, c :: cs =>
    if isDigitRune c then parseNatLit (10 * acc + (c.toNat - 48)) cs
    else if c = '.' ∧ cs.all (fun d => d = '0') = true then some acc
    else none

/-- An unsigned literal starts with a digit. -/
def parseUnsigned (s : Str) : Option Nat :=
  match s with
  | [] => none
  | c :: cs => if isDigitRune c then parseNatLit 0 (c :: cs) else none

/-- An optional sign followed by an unsigned literal. -/
def parseIntLit (s : Str) : Option Int :=
  match s with
  | [] => none
  | c :: cs =>
    if c = '-' then (parseUnsigned cs).map (fun n => -Int.ofNat n)
    else if c = '+' then (parseUnsigned cs).map Int.ofNat
    else (parseUnsigned (c :: cs)).map Int.ofNat

/-- Text of the `*strconv.NumError` for a syntax error (plain ASCII input). -/
def syntaxErrorText (s : Str) : String :=
  "strconv.ParseFloat: parsing " ++ String.mk ([Char.ofNat 34] ++ s ++ [Char.ofNat 34]) ++
    ": invalid syntax"

/-- The fragment of `strconv.ParseFloat`: `NaN` and integer literals. -/
def parseLit (s : Str) : Except String (Option Int) :=
  if s = ['N', 'a', 'N'] then .ok none
  else
    match parseIntLit s with
    | some n => .ok (some n)
    | none => .error (syntaxErrorText s)

/-- The decimal digit `d` as a rune. -/
def digitChar (d : Nat) : Char :=
  match d with
  | 0 => '0' | 1 => '1' | 2 => '2' | 3 => '3' | 4 => '4'
  | 5 => '5' | 6 => '6' | 7 => '7' | 8 => '8' | _ => '9'

/-- Decimal digits of `n`, most significant first; the first argument bounds the
number of digits. -/
def natDigits : Nat → Nat → Str
  | 0, _ => []
  | fuel + 1, n =>
    if n < 10 then [digitChar n] else natDigits fuel (n / 10) ++ [digitChar (n % 10)]

/-- Decimal numeral of a natural number. -/
def formatNat (n : Nat) : Str := natDigits (n + 1) n

/-- The fragment of `strconv.FormatFloat(.., 'f', -1, 64)`. -/
def formatLit : Option Int → Str
  | none => ['N', 'a', 'N']
  | some n => if n < 0 then '-' :: formatNat n.natAbs else formatNat n.natAbs

/-- The fragment of `strconv.FormatFloat(.., 'f', 3, 32)`. -/
def formatLit3 : Option Int → Str
  | none => ['N', 'a', 'N']
  | some n => formatLit (some n) ++ ['.', '0', '0', '0']

/-- A binary operation of the fragment. -/
def liftOp (f : Int → Int → Option Int) : Option Int → Option Int → Option Int
  | some x, some y => f x y
  | _, _ => none

/-- The integer fragment of the float library. -/
@[reducible] def intFragment : GoFloat where
  F := Option Int
  parse32 := parseLit
  parse64 := parseLit
  add := liftOp (fun x y => some (x + y))
  sub := liftOp (fun x y => some (x - y))
  mul := liftOp (fun x y => some (x * y))
  div := liftOp (fun x y => if y ≠ 0 ∧ x % y = 0 then some (x / y) else none)
  format := formatLit
  format3 := formatLit3

/-! ## A second executable instance of the float library: the fixed-point fragment

Decimals with at most twelve digits after the point, computed exactly. A value
is `some n` for the number `n / 10^12`, or `none` for a float outside the
fragment (an inexact product or quotient, a literal with more digits, NaN). The
instance agrees with float32 wherever every number met is a float32 and every
operation is exact, as on the dyadic fractions with a short mantissa
(`1 / 2048 = 0.00048828125`). -/

/-- The number of units in 1. -/
def fixedUnit : Nat := 1000000000000

/-- Value of a run of decimal digits. -/
def digitsValue (s : Str) : Nat := s.foldl (fun acc c => 10 * acc + (c.toNat - 48)) 0

/-- An unsigned literal of the fragment, digits then optionally a point and
digits: `none` for another text, `some none` for a value that is no multiple of
the unit. -/
def parseFixedUnsigned (s : Str) : Option (Option Nat) :=
  let whole := s.takeWhile isDigitRune
  if whole = [] then none
  else
    match s.dropWhile isDigitRune with
    | [] => some (some (digitsValue whole * fixedUnit))
    | c :: frac =>
      if c = '.' ∧ frac.all isDigitRune = true then
        if (digitsValue frac * fixedUnit) % 10 ^ frac.length = 0 then
          some (some (digitsValue whole * fixedUnit + digitsValue frac * fixedUnit / 10 ^ frac.length))
        else some none
      else none

/-- The fragment of `strconv.ParseFloat`: `NaN` and decimal literals with an
optional sign. -/
def parseFixed (s : Str) : Except String (Option Int) :=
  if s = ['N', 'a', 'N'] then .ok none
  else
    match s with
    | [] => .error (syntaxErrorText s)
    | c :: cs =>
      if c = '-' then
        match parseFixedUnsigned cs with
        | none => .error (syntaxErrorText s)
        | some v => .ok (v.map (fun n => -Int.ofNat n))
      else if c = '+' then
        match parseFixedUnsigned cs with
        | none => .error (syntaxErrorText s)
        | some v => .ok (v.map Int.ofNat)
      else
        match parseFixedUnsigned (c :: cs) with
        | none => .error (syntaxErrorText s)
        | some v => .ok (v.map Int.ofNat)

/-- A run of digits without its zeros at the end. -/
def trimZeros (s : Str) : Str := (s.reverse.dropWhile (fun c => c = '0')).reverse

/-- The fragment of `strconv.FormatFloat(.., 'f', -1, 64)`: the digits after the
point end at the last one that is not zero. -/
def formatFixed : Option Int → Str
  | none => ['N', 'a', 'N']
  | some n =>
    let whole := formatNat (n.natAbs / fixedUnit)
    let frac := n.natAbs % fixedUnit
    let digits := if frac = 0 then whole
      else whole ++ '.' :: trimZeros ((natDigits 13 (fixedUnit + frac)).drop 1)
    if n < 0 then '-' :: digits else digits

/-- The fragment of `strconv.FormatFloat(.., 'f', 3, 32)`: three digits after the
point, the value rounded to the nearest thousandth, a tie to the even one. -/
def formatFixed3 : Option Int → Str
  | none => ['N', 'a', 'N']
  | some n =>
    let q := n.natAbs / 1000000000
    let r := n.natAbs % 1000000000
    let m := if 1000000000 < 2 * r ∨ (2 * r = 1000000000 ∧ q % 2 = 1) then q + 1 else q
    let digits := formatNat (m / 1000) ++ '.' :: (natDigits 4 (1000 + m % 1000)).drop 1
    if n < 0 then '-' :: digits else digits

/-- The fixed-point fragment of the float library. -/
@[reducible] def fixedFragment : GoFloat where
  F := Option Int
  parse32 := parseFixed
  parse64 := parseFixed
  add := liftOp (fun x y => some (x + y))
  sub := liftOp (fun x y => some (x - y))
  mul := liftOp (fun x y =>
    if (x * y) % Int.ofNat fixedUnit = 0 then some (x * y / Int.ofNat fixedUnit) else none)
  div := liftOp (fun x y =>
    if y ≠ 0 ∧ (x * Int.ofNat fixedUnit) % y = 0 then some (x * Int.ofNat fixedUnit / y) else none)
  format := formatFixed
  format3 := formatFixed3

/-! ## Vocabulary of the statements -/

/-- What the engine relies on from the float library. Each clause holds of Go:
a string accepted by `strconv.ParseFloat` is not empty, has no white space and no
parenthesis, and has a digit or a letter (so it is no run of operator runes);
a string in float32 range is in float64 range; and the shortest decimal that
`FormatFloat(float64(x), 'f', -1, 64)` prints for a float32 `x` reads back as `x`
at either size. -/
structure GoFloat.Lawful (L : GoFloat) : Prop where
  numeral_shape : ∀ s, isNil (L.parse32 s) = true →
    s ≠ [] ∧ (∀ c ∈ s, isSpace c = false ∧ c ≠ '(' ∧ c ≠ ')') ∧ isSign s = false
  parse64_of_parse32 : ∀ s, isNil (L.parse32 s) = true → isNil (L.parse64 s) = true
  parse32_format : ∀ x, L.parse32 (L.format x) = .ok x
  parse64_format : ∀ x, L.parse64 (L.format x) = .ok x

/-- The ASCII part of the table `unicode.Latin`, the letters `A`-`Z` and `a`-`z`:
an executable `latin` that agrees with Go on ASCII text. -/
def asciiLatin (c : Char) : Bool :=
  (65 ≤ c.toNat && c.toNat ≤ 90) || (97 ≤ c.toNat && c.toNat ≤ 122)

/-- What the engine relies on from the table `unicode.Latin`; each clause holds
of Go: no white space, no sign rune or parenthesis, and not `=`, is a Latin
letter. -/
structure LatinLawful (latin : Char → Bool) : Prop where
  not_space : ∀ c, isSpace c = true → latin c = false
  not_sign : ∀ c, isSignRune c = true → latin c = false
  not_equals : latin '=' = false

/-- Two more facts of the float library, both true of Go: what
`FormatFloat(float64(x), 'f', 3, 32)` prints is accepted by `ParseFloat(.., 32)`,
and the text of an error of `ParseFloat` starts with `strconv.ParseFloat: `. -/
structure GoFloat.TextLawful (L : GoFloat) : Prop where
  format3_numeral : ∀ x, isNil (L.parse32 (L.format3 x)) = true
  parse_error_text : ∀ s e, L.parse32 s = .error e →
    ∃ rest : String, e = "strconv.ParseFloat: " ++ rest

/-- A word that `parseVariablesInString` looks up and does not find: it is no
number, it is made of Latin letters, and the dictionary has no entry for it. -/
def isUnknownWord (L : GoFloat) (latin : Char → Bool) (dict : Dictionary L) (w : Str) : Bool :=
  !isNil (L.parse32 w) && IsWord latin w && (dict w).isNone

/-- A number token: a word that `strconv.ParseFloat(word, 32)` accepts. -/
@[reducible] def IsNumberToken (L : GoFloat) (word : Str) : Prop := isNil (L.parse32 word) = true

/-- The float32 operation written `op`, one of `+ - * /`, applied to `(x, y)` in
that order. -/
def applyOp (L : GoFloat) (op : Char) (x y : L.F) : L.F :=
  if op = '+' then L.add x y
  else if op = '-' then L.sub x y
  else if op = '*' then L.mul x y
  else L.div x y

/-- A non-empty run of the runes `+` and `-`. -/
@[reducible] def IsPlusMinusRun (run : List Char) : Prop := run ≠ [] ∧ ∀ c ∈ run, c = '+' ∨ c = '-'

/-- A non-empty run of the operator runes `+ - * /`. -/
@[reducible] def IsOperatorRun (run : List Char) : Prop :=
  run ≠ [] ∧ ∀ c ∈ run, c = '+' ∨ c = '-' ∨ c = '*' ∨ c = '/'

/-- The effective operator of a run of `+` and `-`: `-` for an odd number of
`-`, else `+`. -/
def foldedSign (run : List Char) : Char := if run.count '-' % 2 = 1 then '-' else '+'

/-- What the lexical steps use of a number token. -/
structure NumTok (L : GoFloat) (a : Str) : Prop where
  ne : a ≠ []
  noWhite : ∀ c ∈ a, isSpace c = false
  noParen : ∀ c ∈ a, c ≠ '(' ∧ c ≠ ')'
  notSign : isSign a = false
  num32 : isNil (L.parse32 a) = true
  num64 : isNil (L.parse64 a) = true

/-- Go's `strings.Join(words, " ")`. -/
def joinSpace : List Str → Str
  | [] => []
  | w :: ws =>
    match ws with
    | [] => w
    | _ :: _ => w ++ ' ' :: joinSpace ws

/-- Scan of the parentheses of a token list: the number of `(` still open after
the tokens, starting from `depth`; `none` when some `)` has no `(` to close. -/
def parenDepth : Nat → List Str → Option Nat
  | depth, [] => some depth
  | depth, t :: ts =>
    if t = ['('] then parenDepth (depth + 1) ts
    else if t = [')'] then
      match depth with
      | 0 => none
      | d + 1 => parenDepth d ts
    else parenDepth depth ts

/-- The parentheses of a token list are balanced. -/
@[reducible] def Balanced (ts : List Str) : Prop := parenDepth 0 ts = some 0

/-- A token of a plain expression: a parenthesis, a single operator, or an
operand (a word that is not a run of sign runes). -/
@[reducible] def IsPlainToken (t : Str) : Prop :=
  t = ['('] ∨ t = [')'] ∨ isSign t = false ∨ t = ['+'] ∨ t = ['-'] ∨ t = ['*'] ∨ t = ['/']

/-- The string `infixToPostfix` builds from the tokens it emits: each token
after a space. -/
def joinTokens : List Str → Str
  | [] => []
  | t :: ts => ' ' :: (t ++ joinTokens ts)

/-- A token of a postfix string made from plain tokens: a word without white
space that is an operand or a single operator. -/
@[reducible] def IsPostfixToken (t : Str) : Prop :=
  (t ≠ [] ∧ ∀ c ∈ t, isSpace c = false) ∧
    (isSign t = false ∨ t = ['+'] ∨ t = ['-'] ∨ t = ['*'] ∨ t = ['/'])

/-- An element of the operator stack on plain tokens: `(` or a single operator. -/
@[reducible] def IsStackToken (t : Str) : Prop :=
  t = ['('] ∨ t = ['+'] ∨ t = ['-'] ∨ t = ['*'] ∨ t = ['/']

/-! ## Infix expressions -/

/-- An infix expression: a number token, an expression in parentheses, or two
expressions around one of the operators `+ - * /`. -/
inductive Expr where
  | num (tok : Str)
  | paren (inner : Expr)
  | bin (op : Char) (left right : Expr)

/-- How tight an operator binds: 1 for `*` and `/`, 0 for `+` and `-`. -/
def opLevel (op : Char) : Nat := if op = '*' ∨ op = '/' then 1 else 0

/-- How tight an expression holds together: 2 for a number and for an expression
in parentheses, else the level of its operator. -/
def Expr.level : Expr → Nat
  | .num _ => 2
  | .paren _ => 2
  | .bin op _ _ => opLevel op

/-- The tokens of an expression as it is written, left to right. -/
def Expr.tokens : Expr → List Str
  | .num tok => [tok]
  | .paren inner => ['('] :: (inner.tokens ++ [[')']])
  | .bin op left right => left.tokens ++ [op] :: right.tokens

/-- The expression is the reading of its tokens under the usual rules: every
leaf is a number token, every operator is one of `+ - * /`, the left operand of
an operator binds at least as tight as the operator (operators of one level
group to the left) and the right operand binds tighter (`*` and `/` before `+`
and `-`); an operand that binds less is written in parentheses. -/
def Expr.wellFormed (L : GoFloat) : Expr → Bool
  | .num tok => isNil (L.parse32 tok)
  | .paren inner => inner.wellFormed L
  | .bin op left right =>
    (op = '+' || op = '-' || op = '*' || op = '/') && decide (opLevel op ≤ left.level) &&
      decide (opLevel op < right.level) && left.wellFormed L && right.wellFormed L

/-- The value of an expression: a number token stands for the float32 that
`ParseFloat(.., 64)` reads from it, an operator for the float32 operation on the
values of its operands, left one first. -/
def Expr.value (L : GoFloat) : Expr → Option L.F
  | .num tok =>
    match L.parse64 tok with
    | .ok x => some x
    | .error _ => none
  | .paren inner => inner.value L
  | .bin op left right =>
    match left.value L, right.value L with
    | some x, some y => some (applyOp L op x y)
    | _, _ => none

/-- The tokens of an expression in postfix order. -/
def Expr.postfixTokens : Expr → List Str
  | .num tok => [tok]
  | .paren inner => inner.postfixTokens
  | .bin op left right => left.postfixTokens ++ right.postfixTokens ++ [[op]]

/-- An operator on the stack of `infixToPostfix` that binds at least at level
`k`. -/
def IsPending (k : Nat) (p : Str) : Prop :=
  ∃ c, p = [c] ∧ (c = '+' ∨ c = '-' ∨ c = '*' ∨ c = '/') ∧ k ≤ opLevel c

/-- The stack of `infixToPostfix` is empty or its top has a precedence below
`k`: an operator of level `k` or more pops nothing from it. -/
def Blocked (k : Nat) (stack : List Str) : Prop :=
  ∀ top, stack.head? = some top → getOperatorPrecedence top < Int.ofNat k

/-- The word before an expression, as `isValidInput` holds it in `lastValue`:
none, an opening parenthesis, or an operator. -/
def IsOpening (lastValue : Option Str) : Prop :=
  lastValue = none ∨ lastValue = some ['('] ∨
    ∃ c, (c = '+' ∨ c = '-' ∨ c = '*' ∨ c = '/') ∧ lastValue = some [c]

/-- The non-empty words of a line split at single spaces, in order. -/
def nonemptyWords (line : Str) : List Str := (splitSpace line).filter (fun w => decide (w ≠ []))

/-! ## Sign resolver -/

theorem signAddition_pm (a b : Char) (ha : a = '+' ∨ a = '-') (hb : b = '+' ∨ b = '-') :
    signAddition a b = .ok [foldedSign [a, b]] := by
  rcases ha with rfl | rfl <;> rcases hb with rfl | rfl <;> decide

theorem foldedSign_pm (run : List Char) : foldedSign run = '+' ∨ foldedSign run = '-' := by
  unfold foldedSign; split <;> simp

theorem foldedSign_cons (s : Char) (hs : s = '+' ∨ s = '-') (c : Char) (rest : List Char)
    (hc : c = '+' ∨ c = '-') :
    foldedSign (foldedSign [s, c] :: rest) = foldedSign (s :: c :: rest) := by
  rcases Nat.mod_two_eq_zero_or_one (rest.count '-') with h | h <;>
    rcases hs with rfl | rfl <;> rcases hc with rfl | rfl <;>
    simp [foldedSign, List.count_cons, Nat.add_mod, h]

theorem readSignLoop_pm (rest : List Char) :
    ∀ s : Char, (s = '+' ∨ s = '-') → (∀ c ∈ rest, c = '+' ∨ c = '-') →
      readSignLoop [s] rest = .ok [foldedSign (s :: rest)] := by
  induction rest with
  | nil =>
    intro s hs _
    rcases hs with rfl | rfl <;> decide
  | cons c rest ih =>
    intro s hs hrest
    have hc : c = '+' ∨ c = '-' := hrest c (by simp)
    have hr : ∀ d ∈ rest, d = '+' ∨ d = '-' := fun d hd => hrest d (by simp [hd])
    have step : readSignLoop [s] (c :: rest) = readSignLoop [foldedSign [s, c]] rest := by
      rw [readSignLoop, signAddition_pm s c hs hc]
    rw [step, ih _ (foldedSign_pm _) hr]
    have := foldedSign_cons s hs c rest hc
    have h2 : foldedSign (foldedSign [s, c] :: rest) = foldedSign (s :: c :: rest) := this
    rw [h2]

/-- Claim C6. For every non-empty run made only of `+` and `-`,
`readSignRuneList` succeeds and returns `-` when the run has an odd number of
`-`, and `+` when it has an even number (zero included). -/
theorem readSignRuneList_plus_minus (run : List Char) (hne : run ≠ [])
    (hpm : ∀ c ∈ run, c = '+' ∨ c = '-') :
    readSignRuneList run = .ok (if run.count '-' % 2 = 1 then ['-'] else ['+']) := by
  have key : readSignRuneList run = .ok [foldedSign run] := by
    match run, hne, hpm with
    | [c], _, h =>
      rcases h c (by simp) with rfl | rfl <;> decide
    | c0 :: c1 :: rest, _, h =>
      have h0 := h c0 (by simp)
      have h1 := h c1 (by simp)
      have hr : ∀ d ∈ rest, d = '+' ∨ d = '-' := fun d hd => h d (by simp [hd])
      have step : readSignRuneList (c0 :: c1 :: rest) = readSignLoop [foldedSign [c0, c1]] rest := by
        rw [readSignRuneList, signAddition_pm c0 c1 h0 h1]
      rw [step, readSignLoop_pm rest _ (foldedSign_pm _) hr, foldedSign_cons c0 h0 c1 rest h1]
  rw [key]
  unfold foldedSign
  split <;> rfl

/-- Witness of C6 on the runs `---` and `+-+-`. -/
theorem readSignRuneList_plus_minus_witness :
    readSignRuneList ['-', '-', '-'] = .ok ['-'] ∧ readSignRuneList ['+', '-', '+', '-'] = .ok ['+'] :=
  ⟨readSignRuneList_plus_minus ['-', '-', '-'] (by decide) (by decide),
   readSignRuneList_plus_minus ['+', '-', '+', '-'] (by decide) (by decide)⟩

theorem signAddition_err (a b : Char)
    (h : a = '*' ∨ a = '/' ∨ b = '*' ∨ b = '/') :
    signAddition a b = .error "Invalid expression" := by
  unfold signAddition
  rw [if_pos]
  tauto

theorem signAddition_ok (a b : Char) (ha : a = '+' ∨ a = '-') (hb : b = '+' ∨ b = '-') :
    ∃ t, (t = '+' ∨ t = '-') ∧ signAddition a b = .ok [t] :=
  ⟨foldedSign [a, b], foldedSign_pm _, signAddition_pm a b ha hb⟩

theorem readSignLoop_err (rest : List Char) :
    ∀ s : Char, (s = '+' ∨ s = '-') → (∀ c ∈ rest, c = '+' ∨ c = '-' ∨ c = '*' ∨ c = '/') →
      ('*' ∈ rest ∨ '/' ∈ rest) → readSignLoop [s] rest = .err "Invalid expression" := by
  induction rest with
  | nil => intro s _ _ h; simp at h
  | cons c rest ih =>
    intro s hs hops hmem
    have hr : ∀ d ∈ rest, d = '+' ∨ d = '-' ∨ d = '*' ∨ d = '/' :=
      fun d hd => hops d (by simp [hd])
    rcases hops c (by simp) with hc | hc | hc | hc
    · obtain ⟨t, ht, hsa⟩ := signAddition_ok s c hs (Or.inl hc)
      have hmem2 : '*' ∈ rest ∨ '/' ∈ rest := by
        subst hc
        simpa using hmem
      rw [readSignLoop, hsa]
      exact ih t ht hr hmem2
    · obtain ⟨t, ht, hsa⟩ := signAddition_ok s c hs (Or.inr hc)
      have hmem2 : '*' ∈ rest ∨ '/' ∈ rest := by
        subst hc
        simpa using hmem
      rw [readSignLoop, hsa]
      exact ih t ht hr hmem2
    · rw [readSignLoop, signAddition_err s c (by tauto)]
    · rw [readSignLoop, signAddition_err s c (by tauto)]

theorem readSignLoop_ok (rest : List Char) :
    ∀ s : Char, (s = '+' ∨ s = '-') → (∀ c ∈ rest, c = '+' ∨ c = '-') →
      ∃ t, readSignLoop [s] rest = .ok t :=
  fun s hs h => ⟨_, readSignLoop_pm rest s hs h⟩

theorem readSignRuneList_err (run : List Char)
    (hops : ∀ c ∈ run, c = '+' ∨ c = '-' ∨ c = '*' ∨ c = '/')
    (hlen : 2 ≤ run.length) (hmem : '*' ∈ run ∨ '/' ∈ run) :
    readSignRuneList run = .err "Invalid expression" := by
  match run, hops, hlen, hmem with
  | c0 :: c1 :: rest, hops, _, hmem =>
    have hr : ∀ d ∈ rest, d = '+' ∨ d = '-' ∨ d = '*' ∨ d = '/' :=
      fun d hd => hops d (by simp [hd])
    by_cases hbad : c0 = '*' ∨ c0 = '/' ∨ c1 = '*' ∨ c1 = '/'
    · rw [readSignRuneList, signAddition_err c0 c1 hbad]
    · have h0 : c0 = '+' ∨ c0 = '-' := by
        rcases hops c0 (by simp) with h | h | h | h <;> tauto
      have h1 : c1 = '+' ∨ c1 = '-' := by
        rcases hops c1 (by simp) with h | h | h | h <;> tauto
      obtain ⟨t, ht, hsa⟩ := signAddition_ok c0 c1 h0 h1
      have hmem2 : '*' ∈ rest ∨ '/' ∈ rest := by
        simp only [List.mem_cons] at hmem
        rcases hmem with (h | h | h) | (h | h | h)
        · exact absurd (Or.inl h.symm) hbad
        · exact absurd (Or.inr (Or.inr (Or.inl h.symm))) hbad
        · exact Or.inl h
        · exact absurd (Or.inr (Or.inl h.symm)) hbad
        · exact absurd (Or.inr (Or.inr (Or.inr h.symm))) hbad
        · exact Or.inr h
      rw [readSignRuneList, hsa]
      exact readSignLoop_err rest t ht hr hmem2

theorem readSignRuneList_ok (run : List Char) (hne : run ≠ [])
    (hops : ∀ c ∈ run, c = '+' ∨ c = '-' ∨ c = '*' ∨ c = '/')
    (hgood : ¬ (2 ≤ run.length ∧ ('*' ∈ run ∨ '/' ∈ run))) :
    ∃ t, readSignRuneList run = .ok t := by
  match run, hne, hops, hgood with
  | [c], _, _, _ => exact ⟨[c], rfl⟩
  | c0 :: c1 :: rest, _, hops, hgood =>
    have hpm : ∀ c ∈ c0 :: c1 :: rest, c = '+' ∨ c = '-' := by
      intro c hc
      have hnot : ¬ ('*' ∈ c0 :: c1 :: rest ∨ '/' ∈ c0 :: c1 :: rest) :=
        fun h => hgood ⟨by simp, h⟩
      rcases hops c hc with h | h | h | h
      · exact Or.inl h
      · exact Or.inr h
      · exact absurd (Or.inl (h ▸ hc)) hnot
      · exact absurd (Or.inr (h ▸ hc)) hnot
    exact ⟨_, readSignRuneList_plus_minus _ (by simp) hpm⟩

/-- Claim C7. For every non-empty run over `+ - * /`, `readSignRuneList` returns
an error exactly when the run has at least two runes and a `*` or a `/` at some
position; the error is then "Invalid expression"; otherwise it returns a sign
without aborting, and a run of one rune is returned unchanged. -/
theorem readSignRuneList_fails_iff (run : List Char) (hne : run ≠ [])
    (hops : ∀ c ∈ run, c = '+' ∨ c = '-' ∨ c = '*' ∨ c = '/') :
    ((∃ e, readSignRuneList run = .err e) ↔ (2 ≤ run.length ∧ ('*' ∈ run ∨ '/' ∈ run))) ∧
      (∀ e, readSignRuneList run = .err e → e = "Invalid expression") ∧
      ((¬ ∃ e, readSignRuneList run = .err e) → ∃ t, readSignRuneList run = .ok t) ∧
      (run.length = 1 → readSignRuneList run = .ok run) := by
  have hbad : (2 ≤ run.length ∧ ('*' ∈ run ∨ '/' ∈ run)) →
      readSignRuneList run = .err "Invalid expression" :=
    fun h => readSignRuneList_err run hops h.1 h.2
  have hgood : ¬ (2 ≤ run.length ∧ ('*' ∈ run ∨ '/' ∈ run)) → ∃ t, readSignRuneList run = .ok t :=
    readSignRuneList_ok run hne hops
  have hiff : (∃ e, readSignRuneList run = .err e) ↔ (2 ≤ run.length ∧ ('*' ∈ run ∨ '/' ∈ run)) := by
    constructor
    · rintro ⟨e, he⟩
      by_contra hc
      obtain ⟨t, ht⟩ := hgood hc
      rw [ht] at he
      cases he
    · intro h
      exact ⟨_, hbad h⟩
  refine ⟨hiff, ?_, ?_, ?_⟩
  · intro e he
    have h := hbad (hiff.mp ⟨e, he⟩)
    rw [h] at he
    cases he
    rfl
  · intro hno
    exact hgood (fun h => hno (hiff.mpr h))
  · intro hlen
    match run, hlen with
    | [c], _ => rfl

/-- Witness of C7 on the run `+*`, which is rejected. -/
theorem readSignRuneList_fails_iff_witness :
    readSignRuneList ['+', '*'] = .err "Invalid expression" := by
  have h := readSignRuneList_fails_iff ['+', '*'] (by decide) (by decide)
  obtain ⟨e, he⟩ := h.1.mpr ⟨by decide, by decide⟩
  rw [he, h.2.1 e he]

/-! ## `strings.Fields`, `strings.Split` and the spacing of parentheses on tokens -/

theorem fieldsLoop_append (t : Str) (ht : ∀ c ∈ t, isSpace c = false) :
    ∀ cur rest, fieldsLoop cur (t ++ rest) = fieldsLoop (cur ++ t) rest := by
  induction t with
  | nil => intro cur rest; simp
  | cons c t ih =>
    intro cur rest
    have hc : isSpace c = false := ht c (by simp)
    have ht2 : ∀ d ∈ t, isSpace d = false := fun d hd => ht d (by simp [hd])
    rw [List.cons_append, fieldsLoop, if_neg (by simp [hc]), ih ht2]
    simp

theorem fieldsLoop_token_space (t rest : Str) (hne : t ≠ []) (ht : ∀ c ∈ t, isSpace c = false) :
    fieldsLoop [] (t ++ ' ' :: rest) = t :: fieldsLoop [] rest := by
  rw [fieldsLoop_append t ht, fieldsLoop, if_pos (by decide)]
  simp [hne]

theorem fieldsLoop_token_end (t : Str) (hne : t ≠ []) (ht : ∀ c ∈ t, isSpace c = false) :
    fieldsLoop [] t = [t] := by
  have h := fieldsLoop_append t ht [] []
  rw [List.append_nil] at h
  rw [h, fieldsLoop]
  simp [hne]

theorem fieldsLoop_nil_space (rest : Str) : fieldsLoop [] (' ' :: rest) = fieldsLoop [] rest := by
  rw [fieldsLoop, if_pos (by decide)]
  simp

theorem fieldsLoop_rune_space (c : Char) (rest : Str) (hc : isSpace c = false) :
    fieldsLoop [] (c :: ' ' :: rest) = [c] :: fieldsLoop [] rest := by
  have h := fieldsLoop_token_space [c] rest (by simp) (by simpa using hc)
  simpa using h

theorem fieldsLoop_rune_end (c : Char) (hc : isSpace c = false) :
    fieldsLoop [] [c] = [[c]] :=
  fieldsLoop_token_end [c] (by simp) (by simpa using hc)

theorem splitLoop_append (t : Str) (ht : ∀ c ∈ t, c ≠ ' ') :
    ∀ cur rest, splitLoop cur (t ++ rest) = splitLoop (cur ++ t) rest := by
  induction t with
  | nil => intro cur rest; simp
  | cons c t ih =>
    intro cur rest
    have hc : c ≠ ' ' := ht c (by simp)
    have ht2 : ∀ d ∈ t, d ≠ ' ' := fun d hd => ht d (by simp [hd])
    rw [List.cons_append, splitLoop, if_neg hc, ih ht2]
    simp

theorem splitLoop_token_space (t rest : Str) (ht : ∀ c ∈ t, c ≠ ' ') :
    splitLoop [] (t ++ ' ' :: rest) = t :: splitLoop [] rest := by
  rw [splitLoop_append t ht, splitLoop, if_pos rfl]
  simp

theorem splitLoop_token_end (t : Str) (ht : ∀ c ∈ t, c ≠ ' ') : splitLoop [] t = [t] := by
  have h := splitLoop_append t ht [] []
  rw [List.append_nil] at h
  rw [h, splitLoop]
  simp

theorem splitLoop_nil_space (rest : Str) : splitLoop [] (' ' :: rest) = [] :: splitLoop [] rest := by
  rw [splitLoop, if_pos rfl]

theorem splitLoop_rune_space (c : Char) (rest : Str) (hc : c ≠ ' ') :
    splitLoop [] (c :: ' ' :: rest) = [c] :: splitLoop [] rest := by
  have h := splitLoop_token_space [c] rest (by simpa using hc)
  simpa using h

theorem splitLoop_rune_end (c : Char) (hc : c ≠ ' ') : splitLoop [] [c] = [[c]] :=
  splitLoop_token_end [c] (by simpa using hc)

theorem spaceParens_append (t : Str) (ht : ∀ c ∈ t, c ≠ '(' ∧ c ≠ ')') (rest : Str) :
    spaceParens (t ++ rest) = t ++ spaceParens rest := by
  induction t with
  | nil => simp
  | cons c t ih =>
    have hc := ht c (by simp)
    have ht2 : ∀ d ∈ t, d ≠ '(' ∧ d ≠ ')' := fun d hd => ht d (by simp [hd])
    rw [List.cons_append, spaceParens, if_neg (by simp [hc.1, hc.2]), ih ht2]
    simp

theorem spaceParens_token (t : Str) (ht : ∀ c ∈ t, c ≠ '(' ∧ c ≠ ')') : spaceParens t = t := by
  have h := spaceParens_append t ht []
  simpa [spaceParens] using h

theorem spaceParens_rune (c : Char) (rest : Str) (hc : c ≠ '(' ∧ c ≠ ')') :
    spaceParens (c :: rest) = c :: spaceParens rest := by
  rw [spaceParens, if_neg (by simp [hc.1, hc.2])]

theorem spaceParens_open (rest : Str) :
    spaceParens ('(' :: rest) = ' ' :: '(' :: ' ' :: spaceParens rest := by
  rw [spaceParens, if_pos (Or.inl rfl)]

theorem spaceParens_close (rest : Str) :
    spaceParens (')' :: rest) = ' ' :: ')' :: ' ' :: spaceParens rest := by
  rw [spaceParens, if_pos (Or.inr rfl)]

/-! ## `isSign` -/

theorem isSignLoop_true (s : Str) : isSignLoop true s = s.all isSignRune := by
  induction s with
  | nil => rfl
  | cons c s ih =>
    rw [isSignLoop]
    by_cases h : isSignRune c = true
    · simp [h, ih]
    · simp [h]

theorem isSign_eq (s : Str) : isSign s = (decide (s ≠ []) && s.all isSignRune) := by
  cases s with
  | nil => rfl
  | cons c s =>
    unfold isSign
    rw [isSignLoop]
    by_cases h : isSignRune c = true
    · simp [h, isSignLoop_true]
    · simp [h]

theorem isSign_operatorRun (run : List Char) (h : IsOperatorRun run) : isSign run = true := by
  rw [isSign_eq]
  have hall : run.all isSignRune = true := by
    rw [List.all_eq_true]
    intro c hc
    rcases h.2 c hc with rfl | rfl | rfl | rfl <;> decide
  simp [h.1, hall]

/-! ## Number tokens -/

theorem GoFloat.Lawful.numTok {L : GoFloat} (hL : L.Lawful) {a : Str} (ha : IsNumberToken L a) :
    NumTok L a :=
  have h := hL.numeral_shape a ha
  { ne := h.1
    noWhite := fun c hc => (h.2.1 c hc).1
    noParen := fun c hc => (h.2.1 c hc).2
    notSign := h.2.2
    num32 := ha
    num64 := hL.parse64_of_parse32 a ha }

theorem GoFloat.Lawful.not_numeral {L : GoFloat} (hL : L.Lawful) {s : Str} (hs : isSign s = true) :
    isNil (L.parse32 s) = false := by
  cases h : isNil (L.parse32 s) with
  | false => rfl
  | true =>
    have := (hL.numeral_shape s h).2.2
    rw [hs] at this
    cases this

theorem isNil_eq_true {α : Type} {r : Except String α} (h : isNil r = true) : ∃ x, r = .ok x := by
  cases r with
  | ok x => exact ⟨x, rfl⟩
  | error e => cases h

theorem NumTok.noSpace {L : GoFloat} {a : Str} (h : NumTok L a) : ∀ c ∈ a, c ≠ ' ' := by
  intro c hc hsp
  have := h.noWhite c hc
  rw [hsp] at this
  exact absurd this (by decide)

theorem NumTok.ne_rune {L : GoFloat} {a : Str} (h : NumTok L a) (c : Char)
    (hc : isSpace c = true ∨ c = '(' ∨ c = ')' ∨ isSignRune c = true) : a ≠ [c] := by
  intro heq
  rcases hc with hc | hc | hc | hc
  · have := h.noWhite c (by simp [heq])
    rw [hc] at this
    cases this
  · exact (h.noParen c (by simp [heq])).1 hc
  · exact (h.noParen c (by simp [heq])).2 hc
  · have := h.notSign
    rw [heq, isSign_eq] at this
    simp [hc] at this

/-! ## A line `a op b`, `op` an operator run written as one word -/

theorem IsOperatorRun.run_noWhite {op : Str} (h : IsOperatorRun op) : ∀ c ∈ op, isSpace c = false := by
  intro c hc
  rcases h.2 c hc with rfl | rfl | rfl | rfl <;> decide

theorem IsOperatorRun.run_noSpace {op : Str} (h : IsOperatorRun op) : ∀ c ∈ op, c ≠ ' ' := by
  intro c hc
  rcases h.2 c hc with rfl | rfl | rfl | rfl <;> decide

theorem IsOperatorRun.run_noParen {op : Str} (h : IsOperatorRun op) :
    ∀ c ∈ op, c ≠ '(' ∧ c ≠ ')' := by
  intro c hc
  rcases h.2 c hc with rfl | rfl | rfl | rfl <;> decide

theorem IsOperatorRun.run_ne_rune {op : Str} (h : IsOperatorRun op) (c : Char)
    (hc : c = ' ' ∨ c = '(' ∨ c = ')') : op ≠ [c] := by
  intro heq
  have hmem : c ∈ op := by simp [heq]
  rcases hc with rfl | rfl | rfl
  · exact h.run_noSpace _ hmem rfl
  · exact (h.run_noParen _ hmem).1 rfl
  · exact (h.run_noParen _ hmem).2 rfl

theorem IsOperatorRun.single {c : Char} (h : c = '+' ∨ c = '-' ∨ c = '*' ∨ c = '/') :
    IsOperatorRun [c] :=
  ⟨by simp, by simpa using h⟩

theorem lex_binary (L : GoFloat) (a b : Str) (ha : NumTok L a) (hb : NumTok L b) (op : Str)
    (hop : IsOperatorRun op) :
    spaceParens (a ++ ' ' :: (op ++ ' ' :: b)) = a ++ ' ' :: (op ++ ' ' :: b) ∧
    splitSpace (a ++ ' ' :: (op ++ ' ' :: b)) = [a, op, b] ∧
    Fields (a ++ ' ' :: (op ++ ' ' :: b)) = [a, op, b] := by
  refine ⟨?_, ?_, ?_⟩
  · rw [spaceParens_append a ha.noParen, spaceParens_rune _ _ (by decide),
      spaceParens_append op hop.run_noParen, spaceParens_rune _ _ (by decide),
      spaceParens_token b hb.noParen]
  · unfold splitSpace
    rw [splitLoop_token_space a _ ha.noSpace, splitLoop_token_space op _ hop.run_noSpace,
      splitLoop_token_end b hb.noSpace]
  · unfold Fields
    rw [fieldsLoop_token_space a _ ha.ne ha.noWhite, fieldsLoop_token_space op _ hop.1 hop.run_noWhite,
      fieldsLoop_token_end b hb.ne hb.noWhite]

theorem valid_binary (L : GoFloat) (hL : L.Lawful) (a b : Str) (ha : NumTok L a) (hb : NumTok L b)
    (op : Str) (hop : IsOperatorRun op) :
    isValidLoop L none [a, op, b] = true := by
  have h1 := ha.ne
  have h2 := ha.ne_rune ' ' (by decide)
  have h3 := ha.ne_rune '(' (by decide)
  have h4 := ha.ne_rune ')' (by decide)
  have g1 := hb.ne
  have g2 := hb.ne_rune ' ' (by decide)
  have g3 := hb.ne_rune '(' (by decide)
  have g4 := hb.ne_rune ')' (by decide)
  have hs : isSign op = true := isSign_operatorRun op hop
  have hp : isNil (L.parse32 op) = false := hL.not_numeral hs
  have o1 : op ≠ [] := hop.1
  have o2 := hop.run_ne_rune ' ' (by simp)
  have o3 := hop.run_ne_rune '(' (by simp)
  have o4 := hop.run_ne_rune ')' (by simp)
  simp [isValidLoop, h1, h2, h3, h4, g1, g2, g3, g4, hp, ha.num32, hb.num32, ha.notSign,
    hb.notSign, o1, o2, o3, o4, hs]

theorem infix_binary (L : GoFloat) (a b : Str) (ha : NumTok L a) (hb : NumTok L b)
    (op : Str) (hop : IsOperatorRun op) :
    infixToPostfix (a ++ ' ' :: (op ++ ' ' :: b)) = .ok (' ' :: (a ++ ' ' :: (b ++ ' ' :: op))) := by
  have hs : isSign op = true := isSign_operatorRun op hop
  have o3 := hop.run_ne_rune '(' (by simp)
  have o4 := hop.run_ne_rune ')' (by simp)
  unfold infixToPostfix
  rw [(lex_binary L a b ha hb op hop).2.2]
  simp [infixLoop, ha.notSign, hb.notSign, hs, o3, o4, popWhilePrecedence, Stack.Push, popAll]

theorem getOperationOfSign_apply (L : GoFloat) (s : Char)
    (hs : s = '+' ∨ s = '-' ∨ s = '*' ∨ s = '/') :
    ∃ f, getOperationOfSign L [s] = some f ∧ ∀ x y, f x y = applyOp L s x y := by
  rcases hs with rfl | rfl | rfl | rfl
  · exact ⟨addition L, by simp [getOperationOfSign], fun x y => by simp [applyOp, addition]⟩
  · exact ⟨substraction L, by simp [getOperationOfSign], fun x y => by simp [applyOp, substraction]⟩
  · exact ⟨multiplication L, by simp [getOperationOfSign],
      fun x y => by simp [applyOp, multiplication]⟩
  · exact ⟨division L, by simp [getOperationOfSign], fun x y => by simp [applyOp, division]⟩

theorem readPosfix_binary (L : GoFloat) (a b : Str) (ha : NumTok L a) (hb : NumTok L b)
    (op : Str) (hop : IsOperatorRun op) (s : Char) (hs : s = '+' ∨ s = '-' ∨ s = '*' ∨ s = '/')
    (hres : readSignRuneList op = .ok [s]) (x y : L.F) (hx : L.parse64 a = .ok x)
    (hy : L.parse64 b = .ok y) :
    readPosfix L (' ' :: (a ++ ' ' :: (b ++ ' ' :: op))) = .ok (L.format (applyOp L s x y)) := by
  have hsg : isSign op = true := isSign_operatorRun op hop
  obtain ⟨f, hf, hfx⟩ := getOperationOfSign_apply L s hs
  have hfields : Fields (' ' :: (a ++ ' ' :: (b ++ ' ' :: op))) = [a, b, op] := by
    unfold Fields
    rw [fieldsLoop_nil_space, fieldsLoop_token_space a _ ha.ne ha.noWhite,
      fieldsLoop_token_space b _ hb.ne hb.noWhite, fieldsLoop_token_end op hop.1 hop.run_noWhite]
  unfold readPosfix
  rw [hfields]
  simp [readPosfixLoop, ha.notSign, hb.notSign, hsg, hres, Stack.Pop, Stack.Push, hx, hy, hf, hfx]

theorem calc_binary (L : GoFloat) (hL : L.Lawful) (a b : Str) (ha : NumTok L a) (hb : NumTok L b)
    (op : Str) (hop : IsOperatorRun op) (s : Char) (hs : s = '+' ∨ s = '-' ∨ s = '*' ∨ s = '/')
    (hres : readSignRuneList op = .ok [s]) (x y : L.F) (hx : L.parse64 a = .ok x)
    (hy : L.parse64 b = .ok y) :
    ReadCalculationInput L (a ++ ' ' :: (op ++ ' ' :: b)) = .ok (applyOp L s x y) := by
  obtain ⟨h1, h2, _⟩ := lex_binary L a b ha hb op hop
  unfold ReadCalculationInput
  simp only [h1]
  unfold isValidInput
  rw [h2, valid_binary L hL a b ha hb op hop, infix_binary L a b ha hb op hop]
  simp [readPosfix_binary L a b ha hb op hop s hs hres x y hx hy, hL.parse32_format]

/-! ## The integer fragment satisfies the laws -/

theorem digitChar_spec (d : Nat) (hd : d < 10) :
    isDigitRune (digitChar d) = true ∧ (digitChar d).toNat - 48 = d := by
  interval_cases d <;> decide

theorem isDigitRune_shape (c : Char) (h : isDigitRune c = true) :
    isSpace c = false ∧ c ≠ '(' ∧ c ≠ ')' ∧ isSignRune c = false ∧ c ≠ '-' ∧ c ≠ '+' ∧ c ≠ 'N' := by
  have hb : 48 ≤ c.toNat ∧ c.toNat ≤ 57 := by
    simpa [isDigitRune] using h
  have hne : ∀ d : Char, ¬ (48 ≤ d.toNat ∧ d.toNat ≤ 57) → c ≠ d := by
    intro d hd hcd
    exact hd (hcd ▸ hb)
  refine ⟨?_, hne _ (by decide), hne _ (by decide), ?_, hne _ (by decide), hne _ (by decide),
    hne _ (by decide)⟩
  · simp only [isSpace, Bool.or_eq_false_iff, Bool.and_eq_false_iff, decide_eq_false_iff_not]
    omega
  · have h1 := hne '+' (by decide)
    have h2 := hne '-' (by decide)
    have h3 := hne '/' (by decide)
    have h4 := hne '*' (by decide)
    have h5 := hne '(' (by decide)
    have h6 := hne ')' (by decide)
    simp [isSignRune, h1, h2, h3, h4, h5, h6]

/-- Runes of an accepted unsigned literal. -/
theorem parseNatLit_runes (t : Str) :
    ∀ acc n, parseNatLit acc t = some n → ∀ c ∈ t, isDigitRune c = true ∨ c = '.' := by
  induction t with
  | nil => intro _ _ _ c hc; simp at hc
  | cons d t ih =>
    intro acc n h c hc
    rw [parseNatLit] at h
    by_cases hd : isDigitRune d = true
    · rw [if_pos hd] at h
      rcases List.mem_cons.mp hc with rfl | hmem
      · exact Or.inl hd
      · exact ih _ _ h c hmem
    · rw [if_neg hd] at h
      by_cases hdot : d = '.' ∧ t.all (fun e => decide (e = '0')) = true
      · rcases List.mem_cons.mp hc with rfl | hmem
        · exact Or.inr hdot.1
        · have := List.all_eq_true.mp hdot.2 c hmem
          have hc0 : c = '0' := by simpa using this
          exact Or.inl (by rw [hc0]; decide)
      · rw [if_neg hdot] at h
        cases h

theorem literalRune_shape (c : Char)
    (h : isDigitRune c = true ∨ c = '.' ∨ c = '+' ∨ c = '-') :
    isSpace c = false ∧ c ≠ '(' ∧ c ≠ ')' := by
  rcases h with h | rfl | rfl | rfl
  · have := isDigitRune_shape c h
    exact ⟨this.1, this.2.1, this.2.2.1⟩
  · decide
  · decide
  · decide

theorem parseUnsigned_shape (t : Str) (n : Nat) (h : parseUnsigned t = some n) :
    (∀ c ∈ t, isDigitRune c = true ∨ c = '.') ∧ ∃ d ∈ t, isDigitRune d = true := by
  cases t with
  | nil => cases h
  | cons d t =>
    rw [parseUnsigned] at h
    by_cases hd : isDigitRune d = true
    · rw [if_pos hd] at h
      exact ⟨parseNatLit_runes _ _ _ h, d, by simp, hd⟩
    · rw [if_neg hd] at h
      cases h

theorem isSign_false_of_digit (s : Str) (d : Char) (hd : d ∈ s) (hdig : isDigitRune d = true) :
    isSign s = false := by
  rw [isSign_eq]
  have : s.all isSignRune = false := by
    rw [List.all_eq_false]
    exact ⟨d, hd, by simp [(isDigitRune_shape d hdig).2.2.2.1]⟩
  simp [this]

theorem parseIntLit_shape (s : Str) (n : Int) (h : parseIntLit s = some n) :
    s ≠ [] ∧ (∀ c ∈ s, isSpace c = false ∧ c ≠ '(' ∧ c ≠ ')') ∧ isSign s = false := by
  cases s with
  | nil => cases h
  | cons c cs =>
    rw [parseIntLit] at h
    have key : ∀ t : Str, (∃ m, parseUnsigned t = some m) →
        (∀ e ∈ t, isSpace e = false ∧ e ≠ '(' ∧ e ≠ ')') ∧ ∃ d ∈ t, isDigitRune d = true := by
      intro t ⟨m, hm⟩
      obtain ⟨h1, h2⟩ := parseUnsigned_shape t m hm
      refine ⟨fun e he => literalRune_shape e ?_, h2⟩
      rcases h1 e he with h | h
      · exact Or.inl h
      · exact Or.inr (Or.inl h)
    refine ⟨by simp, ?_⟩
    by_cases hm : c = '-'
    · rw [if_pos hm] at h
      cases hu : parseUnsigned cs with
      | none => rw [hu] at h; cases h
      | some m =>
        obtain ⟨h1, d, hd, hdig⟩ := key cs ⟨m, hu⟩
        refine ⟨?_, isSign_false_of_digit _ d (by simp [hd]) hdig⟩
        intro e he
        rcases List.mem_cons.mp he with rfl | hmem
        · subst hm; decide
        · exact h1 e hmem
    · rw [if_neg hm] at h
      by_cases hp : c = '+'
      · rw [if_pos hp] at h
        cases hu : parseUnsigned cs with
        | none => rw [hu] at h; cases h
        | some m =>
          obtain ⟨h1, d, hd, hdig⟩ := key cs ⟨m, hu⟩
          refine ⟨?_, isSign_false_of_digit _ d (by simp [hd]) hdig⟩
          intro e he
          rcases List.mem_cons.mp he with rfl | hmem
          · subst hp; decide
          · exact h1 e hmem
      · rw [if_neg hp] at h
        cases hu : parseUnsigned (c :: cs) with
        | none => rw [hu] at h; cases h
        | some m =>
          obtain ⟨h1, d, hd, hdig⟩ := key (c :: cs) ⟨m, hu⟩
          exact ⟨h1, isSign_false_of_digit _ d hd hdig⟩

theorem parseLit_shape (s : Str) (h : isNil (parseLit s) = true) :
    s ≠ [] ∧ (∀ c ∈ s, isSpace c = false ∧ c ≠ '(' ∧ c ≠ ')') ∧ isSign s = false := by
  unfold parseLit at h
  by_cases hnan : s = ['N', 'a', 'N']
  · subst hnan
    decide
  · rw [if_neg hnan] at h
    cases hp : parseIntLit s with
    | none => rw [hp] at h; cases h
    | some n => exact parseIntLit_shape s n hp

/-! Reading back a printed number. -/

theorem parseNatLit_snoc (xs : Str) (hxs : ∀ c ∈ xs, isDigitRune c = true) (d : Nat) (hd : d < 10) :
    ∀ acc, parseNatLit acc (xs ++ [digitChar d]) =
      (parseNatLit acc xs).map (fun v => 10 * v + d) := by
  induction xs with
  | nil =>
    intro acc
    simp [parseNatLit, (digitChar_spec d hd).1, (digitChar_spec d hd).2]
  | cons c xs ih =>
    intro acc
    have hc : isDigitRune c = true := hxs c (by simp)
    have hr : ∀ e ∈ xs, isDigitRune e = true := fun e he => hxs e (by simp [he])
    rw [List.cons_append, parseNatLit, if_pos hc, ih hr, parseNatLit, if_pos hc]

theorem natDigits_digits (fuel : Nat) : ∀ n, ∀ c ∈ natDigits fuel n, isDigitRune c = true := by
  induction fuel with
  | zero => intro n c hc; simp [natDigits] at hc
  | succ fuel ih =>
    intro n c hc
    rw [natDigits] at hc
    by_cases hn : n < 10
    · rw [if_pos hn] at hc
      have : c = digitChar n := by simpa using hc
      rw [this]
      exact (digitChar_spec n hn).1
    · rw [if_neg hn] at hc
      rcases List.mem_append.mp hc with h | h
      · exact ih _ c h
      · have : c = digitChar (n % 10) := by simpa using h
        rw [this]
        exact (digitChar_spec _ (Nat.mod_lt _ (by decide))).1

theorem parseNatLit_natDigits (fuel : Nat) :
    ∀ n, n < fuel → parseNatLit 0 (natDigits fuel n) = some n := by
  induction fuel with
  | zero => intro n h; omega
  | succ fuel ih =>
    intro n hlt
    rw [natDigits]
    by_cases hn : n < 10
    · rw [if_pos hn]
      simp [parseNatLit, (digitChar_spec n hn).1, (digitChar_spec n hn).2]
    · rw [if_neg hn, parseNatLit_snoc _ (natDigits_digits fuel _) _ (Nat.mod_lt _ (by decide)),
        ih (n / 10) (by omega)]
      simp only [Option.map_some']
      congr 1
      omega

theorem formatNat_head (n : Nat) : ∃ d ds, formatNat n = d :: ds ∧ isDigitRune d = true := by
  have hall := natDigits_digits (n + 1) n
  have hne : natDigits (n + 1) n ≠ [] := by
    rw [natDigits]
    split <;> simp
  unfold formatNat
  cases h : natDigits (n + 1) n with
  | nil => exact absurd h hne
  | cons d ds => exact ⟨d, ds, rfl, hall d (by simp [h])⟩

theorem parseUnsigned_formatNat (n : Nat) : parseUnsigned (formatNat n) = some n := by
  obtain ⟨d, ds, hform, hd⟩ := formatNat_head n
  have h := parseNatLit_natDigits (n + 1) n (by omega)
  unfold formatNat at hform
  rw [formatNat, hform] at *
  rw [parseUnsigned, if_pos hd, h]

theorem parseLit_formatLit (x : Option Int) : parseLit (formatLit x) = .ok x := by
  cases x with
  | none => decide
  | some n =>
    obtain ⟨d, ds, hform, hd⟩ := formatNat_head n.natAbs
    have hshape := isDigitRune_shape d hd
    unfold formatLit
    by_cases hneg : n < 0
    · simp only [if_pos hneg]
      unfold parseLit
      rw [if_neg (by simp), parseIntLit, if_pos rfl, parseUnsigned_formatNat]
      have hn : -((n.natAbs : Nat) : Int) = n := by omega
      simp only [Option.map_some', Int.ofNat_eq_coe, hn]
    · simp only [if_neg hneg]
      unfold parseLit
      have h1 : formatNat n.natAbs ≠ ['N', 'a', 'N'] := by
        rw [hform]
        intro h
        exact hshape.2.2.2.2.2.2 (List.cons.inj h).1
      have h2 : parseIntLit (formatNat n.natAbs) = some n := by
        have hu := parseUnsigned_formatNat n.natAbs
        rw [hform] at hu ⊢
        rw [parseIntLit, if_neg hshape.2.2.2.2.1, if_neg hshape.2.2.2.2.2.1, hu]
        have hn : ((n.natAbs : Nat) : Int) = n := by omega
        simp only [Option.map_some', Int.ofNat_eq_coe, hn]
      rw [if_neg h1, h2]

theorem intFragment_lawful : intFragment.Lawful where
  numeral_shape := parseLit_shape
  parse64_of_parse32 := fun _ h => h
  parse32_format := parseLit_formatLit
  parse64_format := parseLit_formatLit

/-! ## Single operators and sign runs between two numbers -/

theorem NumTok.facts {L : GoFloat} {a : Str} (h : NumTok L a) :
    a ≠ [] ∧ a ≠ [' '] ∧ a ≠ ['('] ∧ a ≠ [')'] ∧ isSign a = false ∧ isNil (L.parse32 a) = true :=
  ⟨h.ne, h.ne_rune ' ' (by decide), h.ne_rune '(' (by decide), h.ne_rune ')' (by decide),
    h.notSign, h.num32⟩

theorem not_numeral_rune {L : GoFloat} (hL : L.Lawful) (c : Char) (hc : isSignRune c = true) :
    isNil (L.parse32 [c]) = false :=
  hL.not_numeral (by rw [isSign_eq]; simp [hc])

/-- Claim C2. For number tokens `a`, `b` and each single operator `+ - * /`,
`ReadCalculationInput` on the line `a op b` succeeds and returns the operation
applied to `(a, b)` in that order: `a` is the left operand and `b` the right one,
so the line `a - b` gives `sub a b` and `a / b` gives `div a b`. The operands are
the tokens as the evaluator reads them (`parse64`). -/
theorem single_operator_line (L : GoFloat) (hL : L.Lawful) (a b : Str)
    (ha : IsNumberToken L a) (hb : IsNumberToken L b) :
    ∃ x y, L.parse64 a = .ok x ∧ L.parse64 b = .ok y ∧
      ReadCalculationInput L (a ++ [' ', '+', ' '] ++ b) = .ok (L.add x y) ∧
      ReadCalculationInput L (a ++ [' ', '-', ' '] ++ b) = .ok (L.sub x y) ∧
      ReadCalculationInput L (a ++ [' ', '*', ' '] ++ b) = .ok (L.mul x y) ∧
      ReadCalculationInput L (a ++ [' ', '/', ' '] ++ b) = .ok (L.div x y) := by
  have ta := hL.numTok ha
  have tb := hL.numTok hb
  obtain ⟨x, hx⟩ := isNil_eq_true ta.num64
  obtain ⟨y, hy⟩ := isNil_eq_true tb.num64
  have key : ∀ s : Char, (hs : s = '+' ∨ s = '-' ∨ s = '*' ∨ s = '/') →
      ReadCalculationInput L (a ++ [' ', s, ' '] ++ b) = .ok (applyOp L s x y) := by
    intro s hs
    have h := calc_binary L hL a b ta tb [s] (IsOperatorRun.single hs) s hs rfl x y hx hy
    simpa using h
  refine ⟨x, y, hx, hy, ?_, ?_, ?_, ?_⟩
  · exact key '+' (by simp)
  · exact key '-' (by simp)
  · exact key '*' (by simp)
  · exact key '/' (by simp)

/-- Witness of C2: `8 - 2` gives 6 and `8 / 2` gives 4. -/
theorem single_operator_line_witness :
    ReadCalculationInput intFragment "8 - 2".toList = .ok (some 6) ∧
      ReadCalculationInput intFragment "8 / 2".toList = .ok (some 4) := by
  obtain ⟨x, y, hx, hy, -, hsub, -, hdiv⟩ :=
    single_operator_line intFragment intFragment_lawful "8".toList "2".toList (by decide) (by decide)
  have hx8 : intFragment.parse64 "8".toList = .ok (some 8) := by decide
  have hy2 : intFragment.parse64 "2".toList = .ok (some 2) := by decide
  rw [hx8] at hx
  rw [hy2] at hy
  cases hx
  cases hy
  exact ⟨hsub, hdiv⟩

theorem IsPlusMinusRun.operatorRun {run : List Char} (h : IsPlusMinusRun run) :
    IsOperatorRun run :=
  ⟨h.1, fun c hc => by rcases h.2 c hc with h | h <;> simp [h]⟩

/-- Two sign words in a row after a number: the validator rejects the line. -/
theorem separate_signs_rejected (L : GoFloat) (hL : L.Lawful) (a : Str) (ta : NumTok L a)
    (c1 c2 : Char) (h1 : c1 = '+' ∨ c1 = '-') (h2 : c2 = '+' ∨ c2 = '-') (rest : Str) :
    ReadCalculationInput L (a ++ [' ', c1, ' ', c2, ' '] ++ rest) = .err "Invalid expression" := by
  obtain ⟨f1, f2, f3, f4, f5, f6⟩ := ta.facts
  have hlex : splitSpace (spaceParens (a ++ [' ', c1, ' ', c2, ' '] ++ rest)) =
      a :: [c1] :: [c2] :: splitSpace (spaceParens rest) := by
    have p1 : c1 ≠ '(' ∧ c1 ≠ ')' := by rcases h1 with rfl | rfl <;> decide
    have p2 : c2 ≠ '(' ∧ c2 ≠ ')' := by rcases h2 with rfl | rfl <;> decide
    have s1 : c1 ≠ ' ' := by rcases h1 with rfl | rfl <;> decide
    have s2 : c2 ≠ ' ' := by rcases h2 with rfl | rfl <;> decide
    simp only [List.append_assoc, List.cons_append, List.nil_append]
    rw [spaceParens_append a ta.noParen, spaceParens_rune _ _ (by decide), spaceParens_rune _ _ p1,
      spaceParens_rune _ _ (by decide), spaceParens_rune _ _ p2, spaceParens_rune _ _ (by decide)]
    unfold splitSpace
    rw [splitLoop_token_space a _ ta.noSpace, splitLoop_rune_space _ _ s1,
      splitLoop_rune_space _ _ s2]
  have hv : isValidInput L (spaceParens (a ++ [' ', c1, ' ', c2, ' '] ++ rest)) = false := by
    unfold isValidInput
    rw [hlex]
    have r1 : isSignRune c1 = true := by rcases h1 with rfl | rfl <;> decide
    have r2 : isSignRune c2 = true := by rcases h2 with rfl | rfl <;> decide
    have n1 : isNil (L.parse32 [c1]) = false := not_numeral_rune hL c1 r1
    have g1 : isSign [c1] = true := by rw [isSign_eq]; simp [r1]
    have g2 : isSign [c2] = true := by rw [isSign_eq]; simp [r2]
    have q1 : c1 ≠ ' ' ∧ c1 ≠ '(' ∧ c1 ≠ ')' := by rcases h1 with rfl | rfl <;> decide
    have q2 : c2 ≠ ' ' ∧ c2 ≠ '(' ∧ c2 ≠ ')' := by rcases h2 with rfl | rfl <;> decide
    simp [isValidLoop, f1, f2, f3, f4, f5, f6, n1, g1, g2, q1, q2]
  unfold ReadCalculationInput
  simp only [hv]
  rfl

/-- Claim C5, amended. For number tokens `a`, `b` and a non-empty run of `+` and
`-` written between them as one word, `ReadCalculationInput` succeeds and returns
`a - b` when the run has an odd number of `-` and `a + b` when it has an even
number. When two of the runes `+`, `-` follow `a` as separate words, whatever
comes after them, `ReadCalculationInput` returns the error "Invalid expression". -/
theorem sign_run_one_word (L : GoFloat) (hL : L.Lawful) (a b : Str)
    (ha : IsNumberToken L a) (hb : IsNumberToken L b) (run : List Char)
    (hrun : IsPlusMinusRun run) :
    ∃ x y, L.parse64 a = .ok x ∧ L.parse64 b = .ok y ∧
      ReadCalculationInput L (a ++ [' '] ++ run ++ [' '] ++ b) =
        .ok (if run.count '-' % 2 = 1 then L.sub x y else L.add x y) ∧
      ∀ c1 c2 : Char, (c1 = '+' ∨ c1 = '-') → (c2 = '+' ∨ c2 = '-') → ∀ rest : Str,
        ReadCalculationInput L (a ++ [' ', c1, ' ', c2, ' '] ++ rest) =
          .err "Invalid expression" := by
  have ta := hL.numTok ha
  have tb := hL.numTok hb
  obtain ⟨x, hx⟩ := isNil_eq_true ta.num64
  obtain ⟨y, hy⟩ := isNil_eq_true tb.num64
  refine ⟨x, y, hx, hy, ?_, fun c1 c2 h1 h2 rest => separate_signs_rejected L hL a ta c1 c2 h1 h2 rest⟩
  have hres := readSignRuneList_plus_minus run hrun.1 hrun.2
  have hline : a ++ [' '] ++ run ++ [' '] ++ b = a ++ ' ' :: (run ++ ' ' :: b) := by simp
  rw [hline]
  by_cases hodd : run.count '-' % 2 = 1
  · rw [if_pos hodd] at hres ⊢
    have h := calc_binary L hL a b ta tb run hrun.operatorRun '-' (by simp) hres x y hx hy
    simpa [applyOp] using h
  · rw [if_neg hodd] at hres ⊢
    have h := calc_binary L hL a b ta tb run hrun.operatorRun '+' (by simp) hres x y hx hy
    simpa [applyOp] using h

/-- Witness of C5 as amended: `5 -- 3` gives 8, `5 +- 3` gives 2, `5 --- 3` gives
2, and `5 + - 3` is rejected. -/
theorem sign_run_one_word_witness :
    ReadCalculationInput intFragment "5 -- 3".toList = .ok (some 8) ∧
      ReadCalculationInput intFragment "5 +- 3".toList = .ok (some 2) ∧
      ReadCalculationInput intFragment "5 --- 3".toList = .ok (some 2) ∧
      ReadCalculationInput intFragment "5 + - 3".toList = .err "Invalid expression" := by
  have hx5 : intFragment.parse64 "5".toList = .ok (some 5) := by decide
  have hy3 : intFragment.parse64 "3".toList = .ok (some 3) := by decide
  have run : ∀ r : List Char, IsPlusMinusRun r →
      ReadCalculationInput intFragment ("5".toList ++ [' '] ++ r ++ [' '] ++ "3".toList) =
        .ok (if r.count '-' % 2 = 1 then intFragment.sub (some 5) (some 3)
          else intFragment.add (some 5) (some 3)) := by
    intro r hr
    obtain ⟨x, y, hx, hy, h, -⟩ :=
      sign_run_one_word intFragment intFragment_lawful "5".toList "3".toList (by decide)
        (by decide) r hr
    rw [hx5] at hx
    rw [hy3] at hy
    cases hx
    cases hy
    exact h
  obtain ⟨-, -, -, -, -, hrej⟩ :=
    sign_run_one_word intFragment intFragment_lawful "5".toList "3".toList (by decide)
      (by decide) "--".toList (by decide)
  exact ⟨run "--".toList (by decide), run "+-".toList (by decide), run "---".toList (by decide),
    hrej '+' '-' (by decide) (by decide) "3".toList⟩

/-- Claim C5 as stated fails: on the line `5 - - 3`, the two signs being separate
words, `ReadCalculationInput` returns "Invalid expression" and not 8. -/
theorem separate_sign_words_rejected :
    ReadCalculationInput intFragment "5 - - 3".toList = .err "Invalid expression" ∧
      ReadCalculationInput intFragment "5 - - 3".toList ≠ .ok (some 8) := by
  decide

/-! ## Three operands: precedence, parentheses, associativity -/

/-- Facts about a single operator rune used by the loops. -/
theorem opRune_facts {L : GoFloat} (hL : L.Lawful) (o : Char)
    (ho : o = '+' ∨ o = '-' ∨ o = '*' ∨ o = '/') :
    isSign [o] = true ∧ isNil (L.parse32 [o]) = false ∧ o ≠ ' ' ∧ o ≠ '(' ∧ o ≠ ')' ∧
      isSpace o = false ∧ readSignRuneList [o] = .ok [o] := by
  have hr : isSignRune o = true := by rcases ho with rfl | rfl | rfl | rfl <;> decide
  have hs : isSign [o] = true := by rw [isSign_eq]; simp [hr]
  refine ⟨hs, hL.not_numeral hs, ?_, ?_, ?_, ?_, rfl⟩ <;>
    rcases ho with rfl | rfl | rfl | rfl <;> decide

theorem lex_ternary (L : GoFloat) (a b c : Str) (ta : NumTok L a) (tb : NumTok L b)
    (tc : NumTok L c) (o1 o2 : Char) (h1 : o1 = '+' ∨ o1 = '-' ∨ o1 = '*' ∨ o1 = '/')
    (h2 : o2 = '+' ∨ o2 = '-' ∨ o2 = '*' ∨ o2 = '/') :
    spaceParens (a ++ [' ', o1, ' '] ++ b ++ [' ', o2, ' '] ++ c) =
        a ++ [' ', o1, ' '] ++ b ++ [' ', o2, ' '] ++ c ∧
      splitSpace (a ++ [' ', o1, ' '] ++ b ++ [' ', o2, ' '] ++ c) = [a, [o1], b, [o2], c] ∧
      Fields (a ++ [' ', o1, ' '] ++ b ++ [' ', o2, ' '] ++ c) = [a, [o1], b, [o2], c] := by
  have p1 : o1 ≠ ' ' ∧ o1 ≠ '(' ∧ o1 ≠ ')' ∧ isSpace o1 = false := by
    rcases h1 with rfl | rfl | rfl | rfl <;> decide
  have p2 : o2 ≠ ' ' ∧ o2 ≠ '(' ∧ o2 ≠ ')' ∧ isSpace o2 = false := by
    rcases h2 with rfl | rfl | rfl | rfl <;> decide
  simp only [List.append_assoc, List.cons_append, List.nil_append]
  refine ⟨?_, ?_, ?_⟩
  · rw [spaceParens_append a ta.noParen, spaceParens_rune _ _ (by decide),
      spaceParens_rune _ _ ⟨p1.2.1, p1.2.2.1⟩, spaceParens_rune _ _ (by decide),
      spaceParens_append b tb.noParen, spaceParens_rune _ _ (by decide),
      spaceParens_rune _ _ ⟨p2.2.1, p2.2.2.1⟩, spaceParens_rune _ _ (by decide),
      spaceParens_token c tc.noParen]
  · unfold splitSpace
    rw [splitLoop_token_space a _ ta.noSpace, splitLoop_rune_space _ _ p1.1,
      splitLoop_token_space b _ tb.noSpace, splitLoop_rune_space _ _ p2.1,
      splitLoop_token_end c tc.noSpace]
  · unfold Fields
    rw [fieldsLoop_token_space a _ ta.ne ta.noWhite, fieldsLoop_rune_space _ _ p1.2.2.2,
      fieldsLoop_token_space b _ tb.ne tb.noWhite, fieldsLoop_rune_space _ _ p2.2.2.2,
      fieldsLoop_token_end c tc.ne tc.noWhite]

theorem valid_ternary (L : GoFloat) (hL : L.Lawful) (a b c : Str) (ta : NumTok L a)
    (tb : NumTok L b) (tc : NumTok L c) (o1 o2 : Char)
    (h1 : o1 = '+' ∨ o1 = '-' ∨ o1 = '*' ∨ o1 = '/')
    (h2 : o2 = '+' ∨ o2 = '-' ∨ o2 = '*' ∨ o2 = '/') :
    isValidLoop L none [a, [o1], b, [o2], c] = true := by
  obtain ⟨a1, a2, a3, a4, a5, a6⟩ := ta.facts
  obtain ⟨b1, b2, b3, b4, b5, b6⟩ := tb.facts
  obtain ⟨c1, c2, c3, c4, c5, c6⟩ := tc.facts
  obtain ⟨p1, p2, p3, p4, p5, -, -⟩ := opRune_facts hL o1 h1
  obtain ⟨q1, q2, q3, q4, q5, -, -⟩ := opRune_facts hL o2 h2
  simp [isValidLoop, a1, a2, a3, a4, a5, a6, b1, b2, b3, b4, b5, b6, c1, c2, c3, c4, c5, c6,
    p1, p2, p3, p4, p5, q1, q2, q3, q4, q5]

theorem fields_postfix3 (L : GoFloat) (a b c : Str) (ta : NumTok L a) (tb : NumTok L b)
    (tc : NumTok L c) (o1 o2 : Char) (h1 : isSpace o1 = false) (h2 : isSpace o2 = false) :
    Fields (' ' :: (a ++ ' ' :: (b ++ ' ' :: o1 :: ' ' :: (c ++ [' ', o2])))) =
        [a, b, [o1], c, [o2]] ∧
      Fields (' ' :: (a ++ ' ' :: (b ++ ' ' :: (c ++ [' ', o2, ' ', o1])))) =
        [a, b, c, [o2], [o1]] := by
  unfold Fields
  constructor
  · rw [fieldsLoop_nil_space, fieldsLoop_token_space a _ ta.ne ta.noWhite,
      fieldsLoop_token_space b _ tb.ne tb.noWhite, fieldsLoop_rune_space _ _ h1,
      fieldsLoop_token_space c _ tc.ne tc.noWhite, fieldsLoop_rune_end _ h2]
  · rw [fieldsLoop_nil_space, fieldsLoop_token_space a _ ta.ne ta.noWhite,
      fieldsLoop_token_space b _ tb.ne tb.noWhite, fieldsLoop_token_space c _ tc.ne tc.noWhite,
      fieldsLoop_rune_space _ _ h2, fieldsLoop_rune_end _ h1]

theorem infix_ternary_left (L : GoFloat) (hL : L.Lawful) (a b c : Str) (ta : NumTok L a)
    (tb : NumTok L b) (tc : NumTok L c) (o1 o2 : Char)
    (h1 : o1 = '+' ∨ o1 = '-' ∨ o1 = '*' ∨ o1 = '/')
    (h2 : o2 = '+' ∨ o2 = '-' ∨ o2 = '*' ∨ o2 = '/')
    (hprec : getOperatorPrecedence [o2] ≤ getOperatorPrecedence [o1]) :
    infixToPostfix (a ++ [' ', o1, ' '] ++ b ++ [' ', o2, ' '] ++ c) =
      .ok ([' '] ++ a ++ [' '] ++ b ++ [' ', o1, ' '] ++ c ++ [' ', o2]) := by
  obtain ⟨p1, -, p3, p4, p5, -, -⟩ := opRune_facts hL o1 h1
  obtain ⟨q1, -, q3, q4, q5, -, -⟩ := opRune_facts hL o2 h2
  unfold infixToPostfix
  rw [(lex_ternary L a b c ta tb tc o1 o2 h1 h2).2.2]
  simp [infixLoop, ta.notSign, tb.notSign, tc.notSign, p1, p4, p5, q1, q4, q5, popWhilePrecedence,
    Stack.Push, popAll, hprec]

theorem infix_ternary_right (L : GoFloat) (hL : L.Lawful) (a b c : Str) (ta : NumTok L a)
    (tb : NumTok L b) (tc : NumTok L c) (o1 o2 : Char)
    (h1 : o1 = '+' ∨ o1 = '-' ∨ o1 = '*' ∨ o1 = '/')
    (h2 : o2 = '+' ∨ o2 = '-' ∨ o2 = '*' ∨ o2 = '/')
    (hprec : ¬ getOperatorPrecedence [o2] ≤ getOperatorPrecedence [o1]) :
    infixToPostfix (a ++ [' ', o1, ' '] ++ b ++ [' ', o2, ' '] ++ c) =
      .ok ([' '] ++ a ++ [' '] ++ b ++ [' '] ++ c ++ [' ', o2, ' ', o1]) := by
  obtain ⟨p1, -, p3, p4, p5, -, -⟩ := opRune_facts hL o1 h1
  obtain ⟨q1, -, q3, q4, q5, -, -⟩ := opRune_facts hL o2 h2
  unfold infixToPostfix
  rw [(lex_ternary L a b c ta tb tc o1 o2 h1 h2).2.2]
  simp [infixLoop, ta.notSign, tb.notSign, tc.notSign, p1, p4, p5, q1, q4, q5, popWhilePrecedence,
    Stack.Push, popAll, hprec]

theorem readPosfix_left (L : GoFloat) (hL : L.Lawful) (a b c : Str) (ta : NumTok L a)
    (tb : NumTok L b) (tc : NumTok L c) (o1 o2 : Char)
    (h1 : o1 = '+' ∨ o1 = '-' ∨ o1 = '*' ∨ o1 = '/')
    (h2 : o2 = '+' ∨ o2 = '-' ∨ o2 = '*' ∨ o2 = '/')
    (x y z : L.F) (hx : L.parse64 a = .ok x) (hy : L.parse64 b = .ok y)
    (hz : L.parse64 c = .ok z) :
    readPosfix L ([' '] ++ a ++ [' '] ++ b ++ [' ', o1, ' '] ++ c ++ [' ', o2]) =
      .ok (L.format (applyOp L o2 (applyOp L o1 x y) z)) := by
  obtain ⟨p1, -, -, -, -, p6, p7⟩ := opRune_facts hL o1 h1
  obtain ⟨q1, -, -, -, -, q6, q7⟩ := opRune_facts hL o2 h2
  obtain ⟨f1, hf1, hfx1⟩ := getOperationOfSign_apply L o1 h1
  obtain ⟨f2, hf2, hfx2⟩ := getOperationOfSign_apply L o2 h2
  unfold readPosfix
  simp only [List.append_assoc, List.cons_append, List.nil_append]
  rw [(fields_postfix3 L a b c ta tb tc o1 o2 p6 q6).1]
  simp [readPosfixLoop, ta.notSign, tb.notSign, tc.notSign, p1, q1, p7, q7, Stack.Pop, Stack.Push,
    hx, hy, hz, hf1, hf2, hfx1, hfx2, hL.parse64_format]

theorem readPosfix_right (L : GoFloat) (hL : L.Lawful) (a b c : Str) (ta : NumTok L a)
    (tb : NumTok L b) (tc : NumTok L c) (o1 o2 : Char)
    (h1 : o1 = '+' ∨ o1 = '-' ∨ o1 = '*' ∨ o1 = '/')
    (h2 : o2 = '+' ∨ o2 = '-' ∨ o2 = '*' ∨ o2 = '/')
    (x y z : L.F) (hx : L.parse64 a = .ok x) (hy : L.parse64 b = .ok y)
    (hz : L.parse64 c = .ok z) :
    readPosfix L ([' '] ++ a ++ [' '] ++ b ++ [' '] ++ c ++ [' ', o2, ' ', o1]) =
      .ok (L.format (applyOp L o1 x (applyOp L o2 y z))) := by
  obtain ⟨p1, -, -, -, -, p6, p7⟩ := opRune_facts hL o1 h1
  obtain ⟨q1, -, -, -, -, q6, q7⟩ := opRune_facts hL o2 h2
  obtain ⟨f1, hf1, hfx1⟩ := getOperationOfSign_apply L o1 h1
  obtain ⟨f2, hf2, hfx2⟩ := getOperationOfSign_apply L o2 h2
  unfold readPosfix
  simp only [List.append_assoc, List.cons_append, List.nil_append]
  rw [(fields_postfix3 L a b c ta tb tc o1 o2 p6 q6).2]
  simp [readPosfixLoop, ta.notSign, tb.notSign, tc.notSign, p1, q1, p7, q7, Stack.Pop, Stack.Push,
    hx, hy, hz, hf1, hf2, hfx1, hfx2, hL.parse64_format]

/-- `ReadCalculationInput` from the results of its three steps. -/
theorem calc_of_postfix (L : GoFloat) (hL : L.Lawful) (line posfix : Str) (v : L.F)
    (hvalid : isValidInput L (spaceParens line) = true)
    (hpost : infixToPostfix (spaceParens line) = .ok posfix)
    (hread : readPosfix L posfix = .ok (L.format v)) :
    ReadCalculationInput L line = .ok v := by
  unfold ReadCalculationInput
  simp [hvalid, hpost, hread, hL.parse32_format]

theorem calc_ternary_left (L : GoFloat) (hL : L.Lawful) (a b c : Str) (ta : NumTok L a)
    (tb : NumTok L b) (tc : NumTok L c) (o1 o2 : Char)
    (h1 : o1 = '+' ∨ o1 = '-' ∨ o1 = '*' ∨ o1 = '/')
    (h2 : o2 = '+' ∨ o2 = '-' ∨ o2 = '*' ∨ o2 = '/')
    (hprec : getOperatorPrecedence [o2] ≤ getOperatorPrecedence [o1])
    (x y z : L.F) (hx : L.parse64 a = .ok x) (hy : L.parse64 b = .ok y)
    (hz : L.parse64 c = .ok z) :
    ReadCalculationInput L (a ++ [' ', o1, ' '] ++ b ++ [' ', o2, ' '] ++ c) =
      .ok (applyOp L o2 (applyOp L o1 x y) z) := by
  obtain ⟨l1, l2, -⟩ := lex_ternary L a b c ta tb tc o1 o2 h1 h2
  refine calc_of_postfix L hL _ _ _ ?_ ?_
    (readPosfix_left L hL a b c ta tb tc o1 o2 h1 h2 x y z hx hy hz)
  · rw [l1, isValidInput, l2]
    exact valid_ternary L hL a b c ta tb tc o1 o2 h1 h2
  · rw [l1]
    exact infix_ternary_left L hL a b c ta tb tc o1 o2 h1 h2 hprec

theorem calc_ternary_right (L : GoFloat) (hL : L.Lawful) (a b c : Str) (ta : NumTok L a)
    (tb : NumTok L b) (tc : NumTok L c) (o1 o2 : Char)
    (h1 : o1 = '+' ∨ o1 = '-' ∨ o1 = '*' ∨ o1 = '/')
    (h2 : o2 = '+' ∨ o2 = '-' ∨ o2 = '*' ∨ o2 = '/')
    (hprec : ¬ getOperatorPrecedence [o2] ≤ getOperatorPrecedence [o1])
    (x y z : L.F) (hx : L.parse64 a = .ok x) (hy : L.parse64 b = .ok y)
    (hz : L.parse64 c = .ok z) :
    ReadCalculationInput L (a ++ [' ', o1, ' '] ++ b ++ [' ', o2, ' '] ++ c) =
      .ok (applyOp L o1 x (applyOp L o2 y z)) := by
  obtain ⟨l1, l2, -⟩ := lex_ternary L a b c ta tb tc o1 o2 h1 h2
  refine calc_of_postfix L hL _ _ _ ?_ ?_
    (readPosfix_right L hL a b c ta tb tc o1 o2 h1 h2 x y z hx hy hz)
  · rw [l1, isValidInput, l2]
    exact valid_ternary L hL a b c ta tb tc o1 o2 h1 h2
  · rw [l1]
    exact infix_ternary_right L hL a b c ta tb tc o1 o2 h1 h2 hprec

/-! ### The line `( a + b ) * c` -/

theorem lex_paren (L : GoFloat) (a b c : Str) (ta : NumTok L a) (tb : NumTok L b)
    (tc : NumTok L c) :
    splitSpace (spaceParens (['(', ' '] ++ a ++ [' ', '+', ' '] ++ b ++ [' ', ')', ' ', '*', ' '] ++ c)) =
        [[], ['('], [], a, ['+'], b, [], [')'], [], ['*'], c] ∧
      Fields (spaceParens (['(', ' '] ++ a ++ [' ', '+', ' '] ++ b ++ [' ', ')', ' ', '*', ' '] ++ c)) =
        [['('], a, ['+'], b, [')'], ['*'], c] ∧
      Fields (['(', ' '] ++ a ++ [' ', '+', ' '] ++ b ++ [' ', ')', ' ', '*', ' '] ++ c) =
        [['('], a, ['+'], b, [')'], ['*'], c] := by
  have hsp : spaceParens (['(', ' '] ++ a ++ [' ', '+', ' '] ++ b ++ [' ', ')', ' ', '*', ' '] ++ c) =
      ' ' :: '(' :: ' ' :: ' ' :: (a ++ ' ' :: '+' :: ' ' :: (b ++ ' ' :: ' ' :: ')' :: ' ' :: ' ' ::
        '*' :: ' ' :: c)) := by
    simp only [List.append_assoc, List.cons_append, List.nil_append]
    rw [spaceParens_open, spaceParens_rune _ _ (by decide), spaceParens_append a ta.noParen,
      spaceParens_rune _ _ (by decide), spaceParens_rune _ _ (by decide),
      spaceParens_rune _ _ (by decide), spaceParens_append b tb.noParen,
      spaceParens_rune _ _ (by decide), spaceParens_close, spaceParens_rune _ _ (by decide),
      spaceParens_rune _ _ (by decide), spaceParens_rune _ _ (by decide),
      spaceParens_token c tc.noParen]
  refine ⟨?_, ?_, ?_⟩
  · rw [hsp]
    unfold splitSpace
    rw [splitLoop_nil_space, splitLoop_rune_space _ _ (by decide), splitLoop_nil_space,
      splitLoop_token_space a _ ta.noSpace, splitLoop_rune_space _ _ (by decide),
      splitLoop_token_space b _ tb.noSpace, splitLoop_nil_space,
      splitLoop_rune_space _ _ (by decide), splitLoop_nil_space,
      splitLoop_rune_space _ _ (by decide), splitLoop_token_end c tc.noSpace]
  · rw [hsp]
    unfold Fields
    rw [fieldsLoop_nil_space, fieldsLoop_rune_space _ _ (by decide), fieldsLoop_nil_space,
      fieldsLoop_token_space a _ ta.ne ta.noWhite, fieldsLoop_rune_space _ _ (by decide),
      fieldsLoop_token_space b _ tb.ne tb.noWhite, fieldsLoop_nil_space,
      fieldsLoop_rune_space _ _ (by decide), fieldsLoop_nil_space,
      fieldsLoop_rune_space _ _ (by decide), fieldsLoop_token_end c tc.ne tc.noWhite]
  · simp only [List.append_assoc, List.cons_append, List.nil_append]
    unfold Fields
    rw [fieldsLoop_rune_space _ _ (by decide),
      fieldsLoop_token_space a _ ta.ne ta.noWhite, fieldsLoop_rune_space _ _ (by decide),
      fieldsLoop_token_space b _ tb.ne tb.noWhite,
      fieldsLoop_rune_space _ _ (by decide),
      fieldsLoop_rune_space _ _ (by decide), fieldsLoop_token_end c tc.ne tc.noWhite]

theorem valid_paren (L : GoFloat) (hL : L.Lawful) (a b c : Str) (ta : NumTok L a)
    (tb : NumTok L b) (tc : NumTok L c) :
    isValidLoop L none [[], ['('], [], a, ['+'], b, [], [')'], [], ['*'], c] = true := by
  obtain ⟨a1, a2, a3, a4, a5, a6⟩ := ta.facts
  obtain ⟨b1, b2, b3, b4, b5, b6⟩ := tb.facts
  obtain ⟨c1, c2, c3, c4, c5, c6⟩ := tc.facts
  obtain ⟨p1, p2, -⟩ := opRune_facts hL '+' (by simp)
  obtain ⟨q1, q2, -⟩ := opRune_facts hL '*' (by simp)
  simp [isValidLoop, a1, a2, a3, a4, a5, a6, b1, b2, b3, b4, b5, b6, c1, c2, c3, c4, c5, c6,
    p1, p2, q1, q2]

theorem infixLoop_paren (L : GoFloat) (a b c : Str) (ta : NumTok L a) (tb : NumTok L b)
    (tc : NumTok L c) :
    infixLoop [['('], a, ['+'], b, [')'], ['*'], c] ⟨[]⟩ [] =
      .ok (⟨[['*']]⟩, [' '] ++ a ++ [' '] ++ b ++ [' ', '+', ' '] ++ c) := by
  have s1 : isSign ['('] = true := by decide
  have s2 : isSign ['+'] = true := by decide
  have s3 : isSign [')'] = true := by decide
  have s4 : isSign ['*'] = true := by decide
  have hp : ¬ getOperatorPrecedence ['+'] ≤ getOperatorPrecedence ['('] := by decide
  simp [infixLoop, ta.notSign, tb.notSign, tc.notSign, s1, s2, s3, s4, popWhilePrecedence,
    popToOpen, Stack.Push, hp]

theorem infix_paren (L : GoFloat) (a b c : Str) (ta : NumTok L a) (tb : NumTok L b)
    (tc : NumTok L c) :
    infixToPostfix (spaceParens
        (['(', ' '] ++ a ++ [' ', '+', ' '] ++ b ++ [' ', ')', ' ', '*', ' '] ++ c)) =
        .ok ([' '] ++ a ++ [' '] ++ b ++ [' ', '+', ' '] ++ c ++ [' ', '*']) ∧
      infixToPostfix (['(', ' '] ++ a ++ [' ', '+', ' '] ++ b ++ [' ', ')', ' ', '*', ' '] ++ c) =
        .ok ([' '] ++ a ++ [' '] ++ b ++ [' ', '+', ' '] ++ c ++ [' ', '*']) := by
  obtain ⟨-, l2, l3⟩ := lex_paren L a b c ta tb tc
  unfold infixToPostfix
  rw [l2, l3, infixLoop_paren L a b c ta tb tc]
  simp [popAll]

/-- Claim C3. For number tokens `a`, `b`, `c`: `infixToPostfix` turns the line
`a + b * c` into the postfix ` a b c * +` and `ReadCalculationInput` returns
`a + (b * c)`; it turns `( a + b ) * c` into ` a b + c *` and
`ReadCalculationInput` returns `(a + b) * c`. The operands are the tokens as
the evaluator reads them (`parse64`). -/
theorem precedence_and_parentheses (L : GoFloat) (hL : L.Lawful) (a b c : Str)
    (ha : IsNumberToken L a) (hb : IsNumberToken L b) (hc : IsNumberToken L c) :
    ∃ x y z, L.parse64 a = .ok x ∧ L.parse64 b = .ok y ∧ L.parse64 c = .ok z ∧
      infixToPostfix (a ++ [' ', '+', ' '] ++ b ++ [' ', '*', ' '] ++ c) =
        .ok ([' '] ++ a ++ [' '] ++ b ++ [' '] ++ c ++ [' ', '*', ' ', '+']) ∧
      ReadCalculationInput L (a ++ [' ', '+', ' '] ++ b ++ [' ', '*', ' '] ++ c) =
        .ok (L.add x (L.mul y z)) ∧
      infixToPostfix (['(', ' '] ++ a ++ [' ', '+', ' '] ++ b ++ [' ', ')', ' ', '*', ' '] ++ c) =
        .ok ([' '] ++ a ++ [' '] ++ b ++ [' ', '+', ' '] ++ c ++ [' ', '*']) ∧
      ReadCalculationInput L
          (['(', ' '] ++ a ++ [' ', '+', ' '] ++ b ++ [' ', ')', ' ', '*', ' '] ++ c) =
        .ok (L.mul (L.add x y) z) := by
  have ta := hL.numTok ha
  have tb := hL.numTok hb
  have tc := hL.numTok hc
  obtain ⟨x, hx⟩ := isNil_eq_true ta.num64
  obtain ⟨y, hy⟩ := isNil_eq_true tb.num64
  obtain ⟨z, hz⟩ := isNil_eq_true tc.num64
  have hp : ¬ getOperatorPrecedence ['*'] ≤ getOperatorPrecedence ['+'] := by decide
  refine ⟨x, y, z, hx, hy, hz, ?_, ?_, ?_, ?_⟩
  · exact infix_ternary_right L hL a b c ta tb tc '+' '*' (by simp) (by simp) hp
  · have h := calc_ternary_right L hL a b c ta tb tc '+' '*' (by simp) (by simp) hp x y z hx hy hz
    simpa [applyOp] using h
  · exact (infix_paren L a b c ta tb tc).2
  · have hr := readPosfix_left L hL a b c ta tb tc '+' '*' (by simp) (by simp) x y z hx hy hz
    have h := calc_of_postfix L hL _ _ _
      (by rw [isValidInput, (lex_paren L a b c ta tb tc).1]; exact valid_paren L hL a b c ta tb tc)
      (infix_paren L a b c ta tb tc).1 hr
    simpa [applyOp] using h

/-- Witness of C3: `2 + 3 * 4` gives 14 and `( 2 + 3 ) * 4` gives 20. -/
theorem precedence_and_parentheses_witness :
    ReadCalculationInput intFragment "2 + 3 * 4".toList = .ok (some 14) ∧
      ReadCalculationInput intFragment "( 2 + 3 ) * 4".toList = .ok (some 20) ∧
      infixToPostfix "2 + 3 * 4".toList = .ok " 2 3 4 * +".toList ∧
      infixToPostfix "( 2 + 3 ) * 4".toList = .ok " 2 3 + 4 *".toList := by
  obtain ⟨x, y, z, hx, hy, hz, p1, v1, p2, v2⟩ :=
    precedence_and_parentheses intFragment intFragment_lawful "2".toList "3".toList "4".toList
      (by decide) (by decide) (by decide)
  have hx2 : intFragment.parse64 "2".toList = .ok (some 2) := by decide
  have hy3 : intFragment.parse64 "3".toList = .ok (some 3) := by decide
  have hz4 : intFragment.parse64 "4".toList = .ok (some 4) := by decide
  rw [hx2] at hx
  rw [hy3] at hy
  rw [hz4] at hz
  cases hx
  cases hy
  cases hz
  exact ⟨v1, v2, p1, p2⟩

/-- Claim C4. For number tokens `a`, `b`, `c` and single operators `op1`, `op2`
of equal precedence (both among `+ -` or both among `* /`), `infixToPostfix`
turns the line `a op1 b op2 c` into ` a b op1 c op2` and `ReadCalculationInput`
returns `(a op1 b) op2 c`. -/
theorem left_associativity (L : GoFloat) (hL : L.Lawful) (a b c : Str)
    (ha : IsNumberToken L a) (hb : IsNumberToken L b) (hc : IsNumberToken L c)
    (op1 op2 : Char)
    (hops : ((op1 = '+' ∨ op1 = '-') ∧ (op2 = '+' ∨ op2 = '-')) ∨
      ((op1 = '*' ∨ op1 = '/') ∧ (op2 = '*' ∨ op2 = '/'))) :
    ∃ x y z, L.parse64 a = .ok x ∧ L.parse64 b = .ok y ∧ L.parse64 c = .ok z ∧
      infixToPostfix (a ++ [' ', op1, ' '] ++ b ++ [' ', op2, ' '] ++ c) =
        .ok ([' '] ++ a ++ [' '] ++ b ++ [' ', op1, ' '] ++ c ++ [' ', op2]) ∧
      ReadCalculationInput L (a ++ [' ', op1, ' '] ++ b ++ [' ', op2, ' '] ++ c) =
        .ok (applyOp L op2 (applyOp L op1 x y) z) := by
  have ta := hL.numTok ha
  have tb := hL.numTok hb
  have tc := hL.numTok hc
  obtain ⟨x, hx⟩ := isNil_eq_true ta.num64
  obtain ⟨y, hy⟩ := isNil_eq_true tb.num64
  obtain ⟨z, hz⟩ := isNil_eq_true tc.num64
  have h1 : op1 = '+' ∨ op1 = '-' ∨ op1 = '*' ∨ op1 = '/' := by tauto
  have h2 : op2 = '+' ∨ op2 = '-' ∨ op2 = '*' ∨ op2 = '/' := by tauto
  have hprec : getOperatorPrecedence [op2] ≤ getOperatorPrecedence [op1] := by
    rcases hops with ⟨h | h, g | g⟩ | ⟨h | h, g | g⟩ <;> subst h <;> subst g <;> decide
  exact ⟨x, y, z, hx, hy, hz, infix_ternary_left L hL a b c ta tb tc op1 op2 h1 h2 hprec,
    calc_ternary_left L hL a b c ta tb tc op1 op2 h1 h2 hprec x y z hx hy hz⟩

/-- Witness of C4: `8 - 3 - 2` gives 3 (and not 7), through ` 8 3 - 2 -`. -/
theorem left_associativity_witness :
    ReadCalculationInput intFragment "8 - 3 - 2".toList = .ok (some 3) ∧
      infixToPostfix "8 - 3 - 2".toList = .ok " 8 3 - 2 -".toList := by
  obtain ⟨x, y, z, hx, hy, hz, p, v⟩ :=
    left_associativity intFragment intFragment_lawful "8".toList "3".toList "2".toList
      (by decide) (by decide) (by decide) '-' '-' (by decide)
  have hx8 : intFragment.parse64 "8".toList = .ok (some 8) := by decide
  have hy3 : intFragment.parse64 "3".toList = .ok (some 3) := by decide
  have hz2 : intFragment.parse64 "2".toList = .ok (some 2) := by decide
  rw [hx8] at hx
  rw [hy3] at hy
  rw [hz2] at hz
  cases hx
  cases hy
  cases hz
  exact ⟨v, p⟩

/-! ## Adjacent words -/

theorem isValidLoop_cons (L : GoFloat) (lastValue : Option Str) (word : Str) (rest : List Str) :
    isValidLoop L lastValue (word :: rest) =
      if word = [' '] ∨ word = [] then isValidLoop L lastValue rest
      else
        match lastValue with
        | none => isValidLoop L (some word) rest
        | some last =>
          if last = ['('] ∨ word = ['('] ∨ last = [')'] ∨ word = [')'] then
            isValidLoop L (some word) rest
          else if (isNil (L.parse32 word) && isNil (L.parse32 last)) ||
              (isSign word && isSign last) then false
          else if !isNil (L.parse32 word) && !isSign word then false
          else isValidLoop L (some word) rest := by
  rfl

theorem isValidLoop_filter (L : GoFloat) (ws : List Str) :
    ∀ last, isValidLoop L last (ws.filter (fun w => decide (w ≠ []))) = isValidLoop L last ws := by
  induction ws with
  | nil => intro last; rfl
  | cons w ws ih =>
    intro last
    by_cases hw : w = []
    · subst hw
      rw [List.filter_cons_of_neg (by simp), isValidLoop_cons, if_pos (Or.inr rfl)]
      exact ih last
    · rw [List.filter_cons_of_pos (by simpa using hw), isValidLoop_cons, isValidLoop_cons]
      simp only [ih]

theorem isValidLoop_step (L : GoFloat) (last : Option Str) (w : Str) (rest : List Str)
    (h1 : w ≠ []) (h2 : w ≠ [' ']) :
    isValidLoop L last (w :: rest) = false ∨
      isValidLoop L last (w :: rest) = isValidLoop L (some w) rest := by
  rw [isValidLoop_cons, if_neg (by simp [h1, h2])]
  cases last with
  | none => exact Or.inr rfl
  | some l =>
    simp only
    split
    · exact Or.inr rfl
    · split
      · exact Or.inl rfl
      · split
        · exact Or.inl rfl
        · exact Or.inr rfl

theorem isValidLoop_pair (L : GoFloat) (w1 w2 : Str) (rest : List Str)
    (h1 : w2 ≠ []) (h2 : w2 ≠ [' '])
    (hparen : w1 ≠ ['('] ∧ w1 ≠ [')'] ∧ w2 ≠ ['('] ∧ w2 ≠ [')'])
    (hkind : (IsNumberToken L w1 ∧ IsNumberToken L w2) ∨ (isSign w1 = true ∧ isSign w2 = true)) :
    isValidLoop L (some w1) (w2 :: rest) = false := by
  rw [isValidLoop_cons, if_neg (by simp [h1, h2])]
  simp only
  rw [if_neg (by simp [hparen.1, hparen.2.1, hparen.2.2.1, hparen.2.2.2])]
  rw [if_pos]
  rcases hkind with ⟨n1, n2⟩ | ⟨s1, s2⟩
  · simp [show isNil (L.parse32 w1) = true from n1, show isNil (L.parse32 w2) = true from n2]
  · simp [s1, s2]

theorem isValidLoop_adjacent (L : GoFloat) (pre : List Str) (w1 w2 : Str) (post : List Str)
    (hpre : ∀ w ∈ pre, w ≠ [] ∧ w ≠ [' ']) (hw1 : w1 ≠ [] ∧ w1 ≠ [' '])
    (hw2 : w2 ≠ [] ∧ w2 ≠ [' '])
    (hparen : w1 ≠ ['('] ∧ w1 ≠ [')'] ∧ w2 ≠ ['('] ∧ w2 ≠ [')'])
    (hkind : (IsNumberToken L w1 ∧ IsNumberToken L w2) ∨ (isSign w1 = true ∧ isSign w2 = true)) :
    ∀ last, isValidLoop L last (pre ++ w1 :: w2 :: post) = false := by
  induction pre with
  | nil =>
    intro last
    rcases isValidLoop_step L last w1 (w2 :: post) hw1.1 hw1.2 with h | h
    · exact h
    · rw [List.nil_append, h]
      exact isValidLoop_pair L w1 w2 post hw2.1 hw2.2 hparen hkind
  | cons p pre ih =>
    intro last
    have hp := hpre p (by simp)
    rcases isValidLoop_step L last p (pre ++ w1 :: w2 :: post) hp.1 hp.2 with h | h
    · exact h
    · rw [List.cons_append, h]
      exact ih (fun w hw => hpre w (by simp [hw])) _

theorem splitLoop_noSpace (s : Str) :
    ∀ cur, ' ' ∉ cur → ∀ w ∈ splitLoop cur s, ' ' ∉ w := by
  induction s with
  | nil =>
    intro cur hcur w hw
    have : w = cur := by simpa [splitLoop] using hw
    rw [this]
    exact hcur
  | cons c s ih =>
    intro cur hcur w hw
    rw [splitLoop] at hw
    by_cases hc : c = ' '
    · rw [if_pos hc] at hw
      rcases List.mem_cons.mp hw with h | h
      · rw [h]; exact hcur
      · exact ih [] (by simp) w h
    · rw [if_neg hc] at hw
      refine ih (cur ++ [c]) ?_ w hw
      simp only [List.mem_append, List.mem_singleton, not_or]
      exact ⟨hcur, fun h => hc h.symm⟩

theorem nonemptyWords_shape (line : Str) :
    ∀ w ∈ nonemptyWords line, w ≠ [] ∧ w ≠ [' '] ∧ ' ' ∉ w := by
  intro w hw
  unfold nonemptyWords at hw
  rw [List.mem_filter] at hw
  have hns := splitLoop_noSpace line [] (by simp) w hw.1
  refine ⟨by simpa using hw.2, ?_, hns⟩
  intro h
  rw [h] at hns
  simp at hns

theorem isValidInput_adjacent (L : GoFloat) (line : Str) (pre post : List Str) (w1 w2 : Str)
    (hwords : nonemptyWords line = pre ++ w1 :: w2 :: post)
    (hparen : w1 ≠ ['('] ∧ w1 ≠ [')'] ∧ w2 ≠ ['('] ∧ w2 ≠ [')'])
    (hkind2 : (IsNumberToken L w1 ∧ IsNumberToken L w2) ∨ (isSign w1 = true ∧ isSign w2 = true)) :
    isValidInput L line = false := by
  have hshape := nonemptyWords_shape line
  rw [hwords] at hshape
  have h1 := hshape w1 (by simp)
  have h2 := hshape w2 (by simp)
  unfold isValidInput
  rw [← isValidLoop_filter]
  have : (splitSpace line).filter (fun w => decide (w ≠ [])) = pre ++ w1 :: w2 :: post := hwords
  rw [this]
  exact isValidLoop_adjacent L pre w1 w2 post
    (fun w hw => ⟨(hshape w (by simp [hw])).1, (hshape w (by simp [hw])).2.1⟩)
    ⟨h1.1, h1.2.1⟩ ⟨h2.1, h2.2.1⟩ hparen hkind2 none

/-! ### Words of a line and of the line with its parentheses spaced -/

theorem splitLoop_ne_nil (s : Str) : ∀ cur, splitLoop cur s ≠ [] := by
  induction s with
  | nil => intro cur; simp [splitLoop]
  | cons c s ih =>
    intro cur
    rw [splitLoop]
    split
    · simp
    · exact ih _

theorem joinSpace_cons (w : Str) (ws : List Str) (h : ws ≠ []) :
    joinSpace (w :: ws) = w ++ ' ' :: joinSpace ws := by
  cases ws with
  | nil => exact absurd rfl h
  | cons v vs => rfl

theorem joinSpace_splitLoop (s : Str) : ∀ cur, joinSpace (splitLoop cur s) = cur ++ s := by
  induction s with
  | nil => intro cur; simp [splitLoop, joinSpace]
  | cons c s ih =>
    intro cur
    rw [splitLoop]
    by_cases hc : c = ' '
    · rw [if_pos hc, joinSpace_cons _ _ (splitLoop_ne_nil s []), ih, hc]
      simp
    · rw [if_neg hc, ih]
      simp

theorem splitLoop_append_space (x y : Str) :
    ∀ cur, splitLoop cur (x ++ ' ' :: y) = splitLoop cur x ++ splitLoop [] y := by
  induction x with
  | nil => intro cur; simp [splitLoop]
  | cons c x ih =>
    intro cur
    rw [List.cons_append, splitLoop, splitLoop]
    by_cases hc : c = ' '
    · rw [if_pos hc, if_pos hc, ih]
      simp
    · rw [if_neg hc, if_neg hc, ih]

theorem nonemptyWords_append_space (x y : Str) :
    nonemptyWords (x ++ ' ' :: y) = nonemptyWords x ++ nonemptyWords y := by
  unfold nonemptyWords splitSpace
  rw [splitLoop_append_space, List.filter_append]

theorem nonemptyWords_joinSpace (ws : List Str) :
    nonemptyWords (joinSpace ws) = ws.flatMap nonemptyWords := by
  induction ws with
  | nil => rfl
  | cons w ws ih =>
    cases ws with
    | nil => simp [joinSpace]
    | cons v vs =>
      rw [joinSpace_cons w (v :: vs) (by simp), nonemptyWords_append_space, ih]
      simp

theorem spaceParens_append_all (x y : Str) :
    spaceParens (x ++ y) = spaceParens x ++ spaceParens y := by
  induction x with
  | nil => rfl
  | cons c x ih =>
    rw [List.cons_append, spaceParens, spaceParens, ih]
    split <;> simp

theorem spaceParens_joinSpace (ws : List Str) :
    spaceParens (joinSpace ws) = joinSpace (ws.map spaceParens) := by
  induction ws with
  | nil => rfl
  | cons w ws ih =>
    cases ws with
    | nil => simp [joinSpace]
    | cons v vs =>
      rw [joinSpace_cons w (v :: vs) (by simp), spaceParens_append_all, List.map_cons,
        joinSpace_cons (spaceParens w) (List.map spaceParens (v :: vs)) (by simp)]
      have hsp : spaceParens (' ' :: joinSpace (v :: vs)) = ' ' :: spaceParens (joinSpace (v :: vs)) :=
        spaceParens_rune _ _ (by decide)
      rw [hsp, ih]

theorem flatMap_filter_nonempty (f : Str → List Str) (hf : f [] = []) (ws : List Str) :
    (ws.filter (fun w => decide (w ≠ []))).flatMap f = ws.flatMap f := by
  induction ws with
  | nil => rfl
  | cons w ws ih =>
    by_cases hw : w = []
    · subst hw
      rw [List.filter_cons_of_neg (by simp), List.flatMap_cons, hf, ih]
      simp
    · rw [List.filter_cons_of_pos (by simpa using hw), List.flatMap_cons, List.flatMap_cons, ih]

/-- The non-empty words of the spaced line are those of the words of the line. -/
theorem nonemptyWords_spaceParens (line : Str) :
    nonemptyWords (spaceParens line) =
      (nonemptyWords line).flatMap (fun w => nonemptyWords (spaceParens w)) := by
  have h1 : line = joinSpace (splitSpace line) := (joinSpace_splitLoop line []).symm
  have h2 : nonemptyWords (spaceParens line) =
      (splitSpace line).flatMap (fun w => nonemptyWords (spaceParens w)) := by
    conv_lhs => rw [h1]
    rw [spaceParens_joinSpace, nonemptyWords_joinSpace, List.flatMap_map]
  rw [h2]
  unfold nonemptyWords
  exact (flatMap_filter_nonempty (fun w => List.filter (fun v => decide (v ≠ []))
    (splitSpace (spaceParens w))) rfl (splitSpace line)).symm

theorem nonemptyWords_token (w : Str) (hne : w ≠ []) (hsp : ' ' ∉ w)
    (hpar : ∀ c ∈ w, c ≠ '(' ∧ c ≠ ')') : nonemptyWords (spaceParens w) = [w] := by
  rw [spaceParens_token w hpar]
  unfold nonemptyWords splitSpace
  rw [splitLoop_token_end w (fun c hc h => hsp (h ▸ hc))]
  simp [hne]

theorem nonemptyWords_spaceParens_adjacent (line : Str) (pre post : List Str) (w1 w2 : Str)
    (hwords : nonemptyWords line = pre ++ w1 :: w2 :: post)
    (hp1 : ∀ c ∈ w1, c ≠ '(' ∧ c ≠ ')') (hp2 : ∀ c ∈ w2, c ≠ '(' ∧ c ≠ ')') :
    ∃ pre2 post2, nonemptyWords (spaceParens line) = pre2 ++ w1 :: w2 :: post2 := by
  have hshape := nonemptyWords_shape line
  rw [hwords] at hshape
  have s1 := hshape w1 (by simp)
  have s2 := hshape w2 (by simp)
  refine ⟨pre.flatMap (fun w => nonemptyWords (spaceParens w)),
    post.flatMap (fun w => nonemptyWords (spaceParens w)), ?_⟩
  rw [nonemptyWords_spaceParens, hwords, List.flatMap_append, List.flatMap_cons, List.flatMap_cons,
    nonemptyWords_token w1 s1.1 s1.2.2 hp1, nonemptyWords_token w2 s2.1 s2.2.2 hp2]
  simp

/-- Claim C8. In every line, two consecutive non-empty space-separated words,
neither of them `(` or `)`, that both parse as numbers or both consist only of
sign runes (the test `isSign` of the code) make `isValidInput` return false.
When the float library is lawful and the two words are numbers, or have no
parenthesis in them (runs of `+ - * /`), `ReadCalculationInput` returns the
error "Invalid expression" on the line. -/
theorem adjacent_words_rejected (L : GoFloat) (line : Str) (pre post : List Str) (w1 w2 : Str)
    (hwords : nonemptyWords line = pre ++ w1 :: w2 :: post)
    (hparen : w1 ≠ ['('] ∧ w1 ≠ [')'] ∧ w2 ≠ ['('] ∧ w2 ≠ [')'])
    (hkind : (IsNumberToken L w1 ∧ IsNumberToken L w2) ∨ (isSign w1 = true ∧ isSign w2 = true)) :
    isValidInput L line = false ∧
      (L.Lawful →
        ((IsNumberToken L w1 ∧ IsNumberToken L w2) ∨ ∀ c ∈ w1 ++ w2, c ≠ '(' ∧ c ≠ ')') →
        ReadCalculationInput L line = .err "Invalid expression") := by
  refine ⟨isValidInput_adjacent L line pre post w1 w2 hwords hparen hkind, ?_⟩
  intro hL hfree
  have hp : (∀ c ∈ w1, c ≠ '(' ∧ c ≠ ')') ∧ (∀ c ∈ w2, c ≠ '(' ∧ c ≠ ')') := by
    rcases hfree with ⟨n1, n2⟩ | h
    · exact ⟨(hL.numTok n1).noParen, (hL.numTok n2).noParen⟩
    · exact ⟨fun c hc => h c (by simp [hc]), fun c hc => h c (by simp [hc])⟩
  obtain ⟨pre2, post2, hw2⟩ := nonemptyWords_spaceParens_adjacent line pre post w1 w2 hwords hp.1 hp.2
  have hv := isValidInput_adjacent L (spaceParens line) pre2 post2 w1 w2 hw2 hparen hkind
  unfold ReadCalculationInput
  simp only [hv]
  rfl

/-- Witness of C8: the lines `2 3 +` (two numbers) and `2 + * 3` (two operator
words) are rejected. -/
theorem adjacent_words_rejected_witness :
    isValidInput intFragment "2 3 +".toList = false ∧
      ReadCalculationInput intFragment "2 3 +".toList = .err "Invalid expression" ∧
      isValidInput intFragment "2 + * 3".toList = false ∧
      ReadCalculationInput intFragment "2 + * 3".toList = .err "Invalid expression" := by
  have h := adjacent_words_rejected intFragment "2 3 +".toList [] ["+".toList] "2".toList
    "3".toList (by decide) (by decide) (Or.inl ⟨by decide, by decide⟩)
  have g := adjacent_words_rejected intFragment "2 + * 3".toList ["2".toList] ["3".toList]
    "+".toList "*".toList (by decide) (by decide) (Or.inr ⟨by decide, by decide⟩)
  exact ⟨h.1, h.2 intFragment_lawful (Or.inl ⟨by decide, by decide⟩), g.1,
    g.2 intFragment_lawful (Or.inr (by decide))⟩

/-! ## Unbalanced parentheses among plain tokens -/

theorem popToOpen_none (stack : List Str) :
    ∀ result, stack.count ['('] = 0 → popToOpen stack result = .error "Invalid expression" := by
  induction stack with
  | nil => intro result _; rfl
  | cons top rest ih =>
    intro result hcount
    have htop : top ≠ ['('] := by
      intro h
      rw [h] at hcount
      simp at hcount
    rw [popToOpen, if_neg htop]
    apply ih
    rw [List.count_cons] at hcount
    omega

theorem popToOpen_some (stack : List Str) :
    ∀ result k, stack.count ['('] = k + 1 →
      ∃ rest result2, popToOpen stack result = .ok (rest, result2) ∧ rest.count ['('] = k := by
  induction stack with
  | nil => intro result k h; simp at h
  | cons top rest ih =>
    intro result k hcount
    by_cases htop : top = ['(']
    · subst htop
      refine ⟨rest, result, by simp [popToOpen], ?_⟩
      simpa using hcount
    · rw [popToOpen, if_neg htop]
      apply ih
      rw [List.count_cons_of_ne (Ne.symm htop)] at hcount
      exact hcount

theorem popWhilePrecedence_count (char : Str) (hchar : 0 ≤ getOperatorPrecedence char)
    (stack : List Str) :
    ∀ result, (popWhilePrecedence char stack result).1.count ['('] = stack.count ['('] := by
  induction stack with
  | nil => intro result; rfl
  | cons top rest ih =>
    intro result
    rw [popWhilePrecedence]
    by_cases hle : getOperatorPrecedence char ≤ getOperatorPrecedence top
    · rw [if_pos hle, ih]
      have htop : top ≠ ['('] := by
        intro h
        rw [h] at hle
        have : getOperatorPrecedence ['('] = -1 := by decide
        omega
      rw [List.count_cons_of_ne (Ne.symm htop)]
    · rw [if_neg hle]

theorem infixLoop_cons (char : Str) (rest : List Str) (operandStack : Stack) (result : Str) :
    infixLoop (char :: rest) operandStack result =
      if (!isSign char) = true then infixLoop rest operandStack (result ++ [' '] ++ char)
      else if char = ['('] then infixLoop rest (operandStack.Push char) result
      else if char = [')'] then
        match popToOpen operandStack.storage result with
        | .error e => .error e
        | .ok popped => infixLoop rest ⟨popped.1⟩ popped.2
      else
        infixLoop rest
          (Stack.Push ⟨(popWhilePrecedence char operandStack.storage result).1⟩ char)
          (popWhilePrecedence char operandStack.storage result).2 := by
  rfl

theorem parenDepth_cons (depth : Nat) (t : Str) (ts : List Str) :
    parenDepth depth (t :: ts) =
      if t = ['('] then parenDepth (depth + 1) ts
      else if t = [')'] then
        match depth with
        | 0 => none
        | d + 1 => parenDepth d ts
      else parenDepth depth ts := by
  rfl

theorem infixLoop_depth (ts : List Str) :
    ∀ (stack : List Str) (result : Str) (d : Nat), (∀ t ∈ ts, IsPlainToken t) →
      stack.count ['('] = d →
      (parenDepth d ts = none → infixLoop ts ⟨stack⟩ result = .error "Invalid expression") ∧
      (∀ d2, parenDepth d ts = some d2 →
        infixLoop ts ⟨stack⟩ result = .error "Invalid expression" ∨
        ∃ stack2 result2, infixLoop ts ⟨stack⟩ result = .ok (⟨stack2⟩, result2) ∧
          stack2.count ['('] = d2) := by
  induction ts with
  | nil =>
    intro stack result d _ hcount
    refine ⟨fun h => by simp [parenDepth] at h, fun d2 h => Or.inr ⟨stack, result, rfl, ?_⟩⟩
    simp only [parenDepth, Option.some.injEq] at h
    omega
  | cons t ts ih =>
    intro stack result d hplain hcount
    have hts : ∀ u ∈ ts, IsPlainToken u := fun u hu => hplain u (by simp [hu])
    have ht : IsPlainToken t := hplain t (by simp)
    by_cases hopen : t = ['(']
    · subst hopen
      have e1 : infixLoop (['('] :: ts) ⟨stack⟩ result =
          infixLoop ts ⟨['('] :: stack⟩ result := by
        rw [infixLoop_cons]
        simp [show isSign ['('] = true from by decide, Stack.Push]
      have e2 : parenDepth d (['('] :: ts) = parenDepth (d + 1) ts := by
        rw [parenDepth_cons, if_pos rfl]
      rw [e1, e2]
      exact ih _ _ (d + 1) hts (by simp [hcount])
    · by_cases hclose : t = [')']
      · subst hclose
        have e1 : infixLoop ([')'] :: ts) ⟨stack⟩ result =
            match popToOpen stack result with
            | .error e => .error e
            | .ok popped => infixLoop ts ⟨popped.1⟩ popped.2 := by
          rw [infixLoop_cons]
          simp [show isSign [')'] = true from by decide]
        rw [e1]
        cases d with
        | zero =>
          have e2 : parenDepth 0 ([')'] :: ts) = none := by
            rw [parenDepth_cons, if_neg (by decide), if_pos rfl]
          rw [e2, popToOpen_none stack result hcount]
          exact ⟨fun _ => rfl, fun d2 h => by cases h⟩
        | succ k =>
          have e2 : parenDepth (k + 1) ([')'] :: ts) = parenDepth k ts := by
            rw [parenDepth_cons, if_neg (by decide), if_pos rfl]
          obtain ⟨rest, result2, hpop, hk⟩ := popToOpen_some stack result k hcount
          rw [e2, hpop]
          exact ih rest result2 k hts hk
      · have e2 : parenDepth d (t :: ts) = parenDepth d ts := by
          rw [parenDepth_cons, if_neg hopen, if_neg hclose]
        rw [e2]
        by_cases hsign : isSign t = true
        · have hop : t = ['+'] ∨ t = ['-'] ∨ t = ['*'] ∨ t = ['/'] := by
            rcases ht with h | h | h | h
            · exact absurd h hopen
            · exact absurd h hclose
            · rw [hsign] at h; cases h
            · exact h
          have hprec : 0 ≤ getOperatorPrecedence t := by
            rcases hop with rfl | rfl | rfl | rfl <;> decide
          have e1 : infixLoop (t :: ts) ⟨stack⟩ result =
              infixLoop ts ⟨t :: (popWhilePrecedence t stack result).1⟩
                (popWhilePrecedence t stack result).2 := by
            rw [infixLoop_cons]
            simp [hsign, hopen, hclose, Stack.Push]
          rw [e1]
          refine ih _ _ d hts ?_
          rw [List.count_cons_of_ne (Ne.symm hopen), popWhilePrecedence_count t hprec, hcount]
        · have e1 : infixLoop (t :: ts) ⟨stack⟩ result =
              infixLoop ts ⟨stack⟩ (result ++ [' '] ++ t) := by
            rw [infixLoop_cons]
            simp [hsign]
          rw [e1]
          exact ih stack _ d hts hcount

/-- Among plain tokens the two parenthesis checks of `infixToPostfix` do what
they are written for: every expression whose tokens are parentheses, single
operators and operands, and whose parentheses are not balanced, is rejected with
"Invalid expression". -/
theorem unbalanced_plain_rejected (operation : Str)
    (hplain : ∀ t ∈ Fields operation, IsPlainToken t)
    (hunbalanced : ¬ Balanced (Fields operation)) :
    infixToPostfix operation = .error "Invalid expression" := by
  obtain ⟨hnone, hsome⟩ := infixLoop_depth (Fields operation) [] [] 0 hplain rfl
  unfold infixToPostfix
  cases hd : parenDepth 0 (Fields operation) with
  | none => rw [hnone hd]
  | some d2 =>
    rcases hsome d2 hd with h | ⟨stack2, result2, h, hcount⟩
    · rw [h]
    · rw [h]
      have hd2 : d2 ≠ 0 := by
        intro h0
        apply hunbalanced
        rw [Balanced, hd, h0]
      have hmem : ['('] ∈ stack2 := by
        rw [← List.count_pos_iff]
        omega
      simp only
      rw [if_pos]
      rw [List.any_eq_true]
      exact ⟨['('], hmem, by simp⟩

/-- The witnesses of the specification, `( 2 + 3` and `2 + 3 )`, are rejected. -/
theorem unbalanced_plain_rejected_witness :
    infixToPostfix "( 2 + 3".toList = .error "Invalid expression" ∧
      infixToPostfix "2 + 3 )".toList = .error "Invalid expression" :=
  ⟨unbalanced_plain_rejected "( 2 + 3".toList (by decide) (by decide),
   unbalanced_plain_rejected "2 + 3 )".toList (by decide) (by decide)⟩

/-! ## Plain lines never abort -/

theorem fieldsLoop_tokens (s : Str) :
    ∀ cur, (∀ c ∈ cur, isSpace c = false) →
      ∀ t ∈ fieldsLoop cur s, t ≠ [] ∧ ∀ c ∈ t, isSpace c = false := by
  induction s with
  | nil =>
    intro cur hcur t ht
    rw [fieldsLoop] at ht
    by_cases h : cur = []
    · rw [if_pos h] at ht
      simp at ht
    · rw [if_neg h] at ht
      have : t = cur := by simpa using ht
      rw [this]
      exact ⟨h, hcur⟩
  | cons c s ih =>
    intro cur hcur t ht
    rw [fieldsLoop] at ht
    by_cases hc : isSpace c = true
    · rw [if_pos hc] at ht
      by_cases h : cur = []
      · rw [if_pos h] at ht
        exact ih [] (by simp) t ht
      · rw [if_neg h] at ht
        rcases List.mem_cons.mp ht with h1 | h1
        · rw [h1]
          exact ⟨h, hcur⟩
        · exact ih [] (by simp) t h1
    · rw [if_neg hc] at ht
      refine ih (cur ++ [c]) ?_ t ht
      intro d hd
      rcases List.mem_append.mp hd with h1 | h1
      · exact hcur d h1
      · have : d = c := by simpa using h1
        rw [this]
        simpa using hc

theorem Fields_tokens (s : Str) : ∀ t ∈ Fields s, t ≠ [] ∧ ∀ c ∈ t, isSpace c = false :=
  fieldsLoop_tokens s [] (by simp)

theorem joinTokens_append (out : List Str) (t : Str) :
    joinTokens out ++ [' '] ++ t = joinTokens (out ++ [t]) := by
  induction out with
  | nil => simp [joinTokens]
  | cons u out ih =>
    have e : joinTokens (u :: (out ++ [t])) = ' ' :: (u ++ joinTokens (out ++ [t])) := rfl
    have e2 : joinTokens (u :: out) = ' ' :: (u ++ joinTokens out) := rfl
    rw [List.cons_append, e, ← ih, e2]
    simp

theorem Fields_joinTokens (out : List Str)
    (hout : ∀ t ∈ out, t ≠ [] ∧ ∀ c ∈ t, isSpace c = false) : Fields (joinTokens out) = out := by
  unfold Fields
  induction out with
  | nil => rfl
  | cons t ts ih =>
    have ht := hout t (by simp)
    have hts : ∀ u ∈ ts, u ≠ [] ∧ ∀ c ∈ u, isSpace c = false := fun u hu => hout u (by simp [hu])
    rw [joinTokens, fieldsLoop_nil_space]
    cases ts with
    | nil =>
      simp only [joinTokens, List.append_nil]
      exact fieldsLoop_token_end t ht.1 ht.2
    | cons u us =>
      have e : joinTokens (u :: us) = ' ' :: (u ++ joinTokens us) := rfl
      rw [e, fieldsLoop_token_space t _ ht.1 ht.2, ← fieldsLoop_nil_space, ← e, ih hts]


theorem IsStackToken.asOutput {t : Str} (h : IsStackToken t) (hopen : t ≠ ['(']) :
    IsPostfixToken t := by
  rcases h with h | h | h | h | h
  · exact absurd h hopen
  all_goals subst h; decide

theorem popToOpen_out (stack : List Str) :
    ∀ out : List Str, (∀ t ∈ stack, IsStackToken t) → (∀ t ∈ out, IsPostfixToken t) →
      ∀ rest r, popToOpen stack (joinTokens out) = .ok (rest, r) →
        (∀ t ∈ rest, IsStackToken t) ∧ ∃ out2, r = joinTokens out2 ∧ ∀ t ∈ out2, IsPostfixToken t := by
  induction stack with
  | nil => intro out _ _ rest r h; cases h
  | cons top tail ih =>
    intro out hstack hout rest r h
    have htail : ∀ t ∈ tail, IsStackToken t := fun t ht => hstack t (by simp [ht])
    rw [popToOpen] at h
    by_cases htop : top = ['(']
    · rw [if_pos htop] at h
      cases h
      exact ⟨htail, out, rfl, hout⟩
    · rw [if_neg htop, joinTokens_append] at h
      refine ih (out ++ [top]) htail ?_ rest r h
      intro t ht
      rcases List.mem_append.mp ht with h1 | h1
      · exact hout t h1
      · have : t = top := by simpa using h1
        rw [this]
        exact (hstack top (by simp)).asOutput htop

theorem popWhilePrecedence_out (char : Str) (hchar : 0 ≤ getOperatorPrecedence char)
    (stack : List Str) :
    ∀ out : List Str, (∀ t ∈ stack, IsStackToken t) → (∀ t ∈ out, IsPostfixToken t) →
      (∀ t ∈ (popWhilePrecedence char stack (joinTokens out)).1, IsStackToken t) ∧
        ∃ out2, (popWhilePrecedence char stack (joinTokens out)).2 = joinTokens out2 ∧
          ∀ t ∈ out2, IsPostfixToken t := by
  induction stack with
  | nil => intro out _ hout; exact ⟨by simp [popWhilePrecedence], out, rfl, hout⟩
  | cons top tail ih =>
    intro out hstack hout
    have htail : ∀ t ∈ tail, IsStackToken t := fun t ht => hstack t (by simp [ht])
    rw [popWhilePrecedence]
    by_cases hle : getOperatorPrecedence char ≤ getOperatorPrecedence top
    · rw [if_pos hle, joinTokens_append]
      have htop : top ≠ ['('] := by
        intro h
        rw [h] at hle
        have : getOperatorPrecedence ['('] = -1 := by decide
        omega
      refine ih (out ++ [top]) htail ?_
      intro t ht
      rcases List.mem_append.mp ht with h1 | h1
      · exact hout t h1
      · have : t = top := by simpa using h1
        rw [this]
        exact (hstack top (by simp)).asOutput htop
    · rw [if_neg hle]
      exact ⟨hstack, out, rfl, hout⟩

theorem infixLoop_out (ts : List Str) :
    ∀ (stack out : List Str), (∀ t ∈ ts, IsPlainToken t) →
      (∀ t ∈ ts, t ≠ [] ∧ ∀ c ∈ t, isSpace c = false) →
      (∀ t ∈ stack, IsStackToken t) → (∀ t ∈ out, IsPostfixToken t) →
      ∀ st r, infixLoop ts ⟨stack⟩ (joinTokens out) = .ok (st, r) →
        (∀ t ∈ st.storage, IsStackToken t) ∧
          ∃ out2, r = joinTokens out2 ∧ ∀ t ∈ out2, IsPostfixToken t := by
  induction ts with
  | nil =>
    intro stack out _ _ hstack hout st r h
    simp only [infixLoop, Except.ok.injEq, Prod.mk.injEq] at h
    obtain ⟨h1, h2⟩ := h
    subst h1
    subst h2
    exact ⟨hstack, out, rfl, hout⟩
  | cons t ts ih =>
    intro stack out hplain htok hstack hout st r h
    have hts : ∀ u ∈ ts, IsPlainToken u := fun u hu => hplain u (by simp [hu])
    have htoks : ∀ u ∈ ts, u ≠ [] ∧ ∀ c ∈ u, isSpace c = false :=
      fun u hu => htok u (by simp [hu])
    have ht : IsPlainToken t := hplain t (by simp)
    by_cases hsign : isSign t = true
    · by_cases hopen : t = ['(']
      · subst hopen
        have e1 : infixLoop (['('] :: ts) ⟨stack⟩ (joinTokens out) =
            infixLoop ts ⟨['('] :: stack⟩ (joinTokens out) := by
          rw [infixLoop_cons]
          simp [hsign, Stack.Push]
        rw [e1] at h
        refine ih _ out hts htoks ?_ hout st r h
        intro u hu
        rcases List.mem_cons.mp hu with h1 | h1
        · exact Or.inl h1
        · exact hstack u h1
      · by_cases hclose : t = [')']
        · subst hclose
          have e1 : infixLoop ([')'] :: ts) ⟨stack⟩ (joinTokens out) =
              match popToOpen stack (joinTokens out) with
              | .error e => .error e
              | .ok popped => infixLoop ts ⟨popped.1⟩ popped.2 := by
            rfl
          rw [e1] at h
          cases hpop : popToOpen stack (joinTokens out) with
          | error e => rw [hpop] at h; cases h
          | ok popped =>
            obtain ⟨rest, r2⟩ := popped
            rw [hpop] at h
            obtain ⟨hrest, out2, hr2, hout2⟩ := popToOpen_out stack out hstack hout rest r2 hpop
            simp only at h
            rw [hr2] at h
            exact ih rest out2 hts htoks hrest hout2 st r h
        · have hop : t = ['+'] ∨ t = ['-'] ∨ t = ['*'] ∨ t = ['/'] := by
            rcases ht with h1 | h1 | h1 | h1
            · exact absurd h1 hopen
            · exact absurd h1 hclose
            · rw [hsign] at h1; cases h1
            · exact h1
          have hprec : 0 ≤ getOperatorPrecedence t := by
            rcases hop with rfl | rfl | rfl | rfl <;> decide
          have e1 : infixLoop (t :: ts) ⟨stack⟩ (joinTokens out) =
              infixLoop ts ⟨t :: (popWhilePrecedence t stack (joinTokens out)).1⟩
                (popWhilePrecedence t stack (joinTokens out)).2 := by
            rw [infixLoop_cons]
            simp [hsign, hopen, hclose, Stack.Push]
          rw [e1] at h
          obtain ⟨hst2, out2, hr2, hout2⟩ := popWhilePrecedence_out t hprec stack out hstack hout
          rw [hr2] at h
          refine ih _ out2 hts htoks ?_ hout2 st r h
          intro u hu
          rcases List.mem_cons.mp hu with h1 | h1
          · rw [h1]
            exact Or.inr hop
          · exact hst2 u h1
    · have e1 : infixLoop (t :: ts) ⟨stack⟩ (joinTokens out) =
          infixLoop ts ⟨stack⟩ (joinTokens (out ++ [t])) := by
        rw [infixLoop_cons, ← joinTokens_append]
        simp [hsign]
      rw [e1] at h
      refine ih stack (out ++ [t]) hts htoks hstack ?_ st r h
      intro u hu
      rcases List.mem_append.mp hu with h1 | h1
      · exact hout u h1
      · have : u = t := by simpa using h1
        rw [this]
        exact ⟨htok t (by simp), Or.inl (by simpa using hsign)⟩

theorem popAll_out (stack : List Str) :
    ∀ out : List Str, (∀ t ∈ stack, IsPostfixToken t) → (∀ t ∈ out, IsPostfixToken t) →
      ∃ out2, popAll stack (joinTokens out) = joinTokens out2 ∧ ∀ t ∈ out2, IsPostfixToken t := by
  induction stack with
  | nil => intro out _ hout; exact ⟨out, rfl, hout⟩
  | cons top tail ih =>
    intro out hstack hout
    rw [popAll, joinTokens_append]
    refine ih (out ++ [top]) (fun t ht => hstack t (by simp [ht])) ?_
    intro t ht
    rcases List.mem_append.mp ht with h1 | h1
    · exact hout t h1
    · have : t = top := by simpa using h1
      rw [this]
      exact hstack top (by simp)

/-- On plain tokens the postfix string is made of operands and single
operators: no parenthesis reaches it. -/
theorem infixToPostfix_out (operation posfix : Str)
    (hplain : ∀ t ∈ Fields operation, IsPlainToken t)
    (h : infixToPostfix operation = .ok posfix) :
    ∃ out, posfix = joinTokens out ∧ ∀ t ∈ out, IsPostfixToken t := by
  unfold infixToPostfix at h
  cases hloop : infixLoop (Fields operation) ⟨[]⟩ [] with
  | error e => rw [hloop] at h; cases h
  | ok pair =>
    obtain ⟨st, r⟩ := pair
    rw [hloop] at h
    simp only at h
    have hinv := infixLoop_out (Fields operation) [] [] hplain (Fields_tokens operation)
      (by simp) (by simp) st r hloop
    obtain ⟨hst, out, hr, hout⟩ := hinv
    by_cases hany : st.storage.any (fun operand => decide (operand = ['('] ∨ operand = [')'])) = true
    · rw [if_pos hany] at h
      cases h
    · rw [if_neg hany] at h
      have hops : ∀ t ∈ st.storage, IsPostfixToken t := by
        intro t ht
        refine (hst t ht).asOutput ?_
        intro hopen
        apply hany
        rw [List.any_eq_true]
        exact ⟨t, ht, by simp [hopen]⟩
      obtain ⟨out2, hpop, hout2⟩ := popAll_out st.storage out hops hout
      rw [hr, hpop] at h
      cases h
      exact ⟨out2, rfl, hout2⟩


theorem readPosfixLoop_cons (L : GoFloat) (word : Str) (rest : List Str) (posFixStack : Stack) :
    readPosfixLoop L (word :: rest) posFixStack =
      if isSign word = true then
        match readSignRuneList word with
        | .err e => .err e
        | .crash => .crash
        | .ok singleSign =>
          match posFixStack.Pop with
          | .error _ => .err "invalid postfix expression"
          | .ok (secondOperand, stack1) =>
            match stack1.Pop with
            | .error _ => .err "invalid postfix expression"
            | .ok (firstOperand, stack2) =>
              match L.parse64 firstOperand with
              | .error _ => .err "invalid operand"
              | .ok firstFloat =>
                match L.parse64 secondOperand with
                | .error _ => .err "invalid operand"
                | .ok secondFloat =>
                  match getOperationOfSign L singleSign with
                  | none => .crash
                  | some op =>
                    readPosfixLoop L rest (stack2.Push (L.format (op firstFloat secondFloat)))
      else readPosfixLoop L rest (posFixStack.Push word) := by
  rfl

theorem readPosfixLoop_no_crash (L : GoFloat) (out : List Str) :
    ∀ posFixStack : Stack, (∀ t ∈ out, IsPostfixToken t) →
      readPosfixLoop L out posFixStack ≠ .crash := by
  induction out with
  | nil => intro st _ h; cases h
  | cons t ts ih =>
    intro st hout
    have hts : ∀ u ∈ ts, IsPostfixToken u := fun u hu => hout u (by simp [hu])
    have ht := hout t (by simp)
    rw [readPosfixLoop_cons]
    by_cases hsign : isSign t = true
    · rw [if_pos hsign]
      have hop : ∃ o, (o = '+' ∨ o = '-' ∨ o = '*' ∨ o = '/') ∧ t = [o] := by
        rcases ht.2 with h | h | h | h | h
        · rw [hsign] at h; cases h
        · exact ⟨'+', by simp, h⟩
        · exact ⟨'-', by simp, h⟩
        · exact ⟨'*', by simp, h⟩
        · exact ⟨'/', by simp, h⟩
      obtain ⟨o, ho, rfl⟩ := hop
      obtain ⟨f, hf, -⟩ := getOperationOfSign_apply L o ho
      have hres : readSignRuneList [o] = .ok [o] := rfl
      rw [hres]
      simp only
      cases h1 : st.Pop with
      | error e => simp
      | ok p1 =>
        obtain ⟨secondOperand, stack1⟩ := p1
        simp only
        cases h2 : stack1.Pop with
        | error e => simp
        | ok p2 =>
          obtain ⟨firstOperand, stack2⟩ := p2
          simp only
          cases h3 : L.parse64 firstOperand with
          | error e => simp
          | ok firstFloat =>
            simp only
            cases h4 : L.parse64 secondOperand with
            | error e => simp
            | ok secondFloat =>
              simp only [hf]
              exact ih _ hts
    · rw [if_neg hsign]
      exact ih _ hts

/-- A line whose words, once the parentheses are spaced, are parentheses, single
operators and operands never aborts `ReadCalculationInput`, for any float
library: the abort of C1 needs an operator run of two or more runes. -/
theorem plain_line_no_crash (L : GoFloat) (line : Str)
    (hplain : ∀ t ∈ Fields (spaceParens line), IsPlainToken t) :
    ReadCalculationInput L line ≠ .crash := by
  unfold ReadCalculationInput
  simp only
  split
  · intro h; cases h
  · cases hpost : infixToPostfix (spaceParens line) with
    | error e => intro h; cases h
    | ok posfix =>
      obtain ⟨out, hp, hout⟩ := infixToPostfix_out (spaceParens line) posfix hplain hpost
      have hloop := readPosfixLoop_no_crash L out ⟨[]⟩ hout
      have hread : readPosfix L posfix ≠ .crash := by
        unfold readPosfix
        rw [hp, Fields_joinTokens out (fun t ht => (hout t ht).1)]
        cases hl : readPosfixLoop L out ⟨[]⟩ with
        | err e => intro h; cases h
        | crash => exact absurd hl hloop
        | ok st =>
          simp only
          cases st.Pop with
          | error e => intro h; cases h
          | ok p => intro h; cases h
      simp only
      cases hr : readPosfix L posfix with
      | err e => intro h; cases h
      | crash => exact absurd hr hread
      | ok output =>
        simp only
        cases L.parse32 output with
        | error e => intro h; cases h
        | ok v => intro h; cases h

/-- The line `( 2 + 3 ) * 4 - x / 0` is plain and so cannot abort. -/
theorem plain_line_no_crash_witness :
    ReadCalculationInput intFragment "( 2 + 3 ) * 4 - x / 0".toList ≠ .crash :=
  plain_line_no_crash intFragment "( 2 + 3 ) * 4 - x / 0".toList (by decide)

/-! ## Runs of several runes in the shunting-yard: the `-1` precedence -/

/-- The line `a + ( b -- c` aborts the process, whatever the (lawful) float
library: the run `--` has precedence `-1`, as `(` has, so it pops the `(` into
the postfix string, where `readPosfix` takes it for an operator and calls the nil
function `getOperationOfSign` returns for it. -/
theorem run_after_open_paren_crash (L : GoFloat) (hL : L.Lawful) (a b c : Str)
    (ha : IsNumberToken L a) (hb : IsNumberToken L b) (hc : IsNumberToken L c) :
    ReadCalculationInput L
      (a ++ [' ', '+', ' ', '(', ' '] ++ b ++ [' ', '-', '-', ' '] ++ c) = .crash := by
  have ta := hL.numTok ha
  have tb := hL.numTok hb
  have tc := hL.numTok hc
  obtain ⟨x, hx⟩ := isNil_eq_true ta.num64
  obtain ⟨y, hy⟩ := isNil_eq_true tb.num64
  obtain ⟨a1, a2, a3, a4, a5, a6⟩ := ta.facts
  obtain ⟨b1, b2, b3, b4, b5, b6⟩ := tb.facts
  obtain ⟨c1, c2, c3, c4, c5, c6⟩ := tc.facts
  have hsp : spaceParens (a ++ [' ', '+', ' ', '(', ' '] ++ b ++ [' ', '-', '-', ' '] ++ c) =
      a ++ ' ' :: '+' :: ' ' :: ' ' :: '(' :: ' ' :: ' ' :: (b ++ ' ' :: (['-', '-'] ++ ' ' :: c)) := by
    simp only [List.append_assoc, List.cons_append, List.nil_append]
    rw [spaceParens_append a ta.noParen, spaceParens_rune _ _ (by decide),
      spaceParens_rune _ _ (by decide), spaceParens_rune _ _ (by decide), spaceParens_open,
      spaceParens_rune _ _ (by decide), spaceParens_append b tb.noParen,
      spaceParens_rune _ _ (by decide), spaceParens_rune _ _ (by decide),
      spaceParens_rune _ _ (by decide), spaceParens_rune _ _ (by decide),
      spaceParens_token c tc.noParen]
  have hsplit : splitSpace (a ++ ' ' :: '+' :: ' ' :: ' ' :: '(' :: ' ' :: ' ' ::
      (b ++ ' ' :: (['-', '-'] ++ ' ' :: c))) = [a, ['+'], [], ['('], [], b, ['-', '-'], c] := by
    unfold splitSpace
    rw [splitLoop_token_space a _ ta.noSpace, splitLoop_rune_space _ _ (by decide),
      splitLoop_nil_space, splitLoop_rune_space _ _ (by decide), splitLoop_nil_space,
      splitLoop_token_space b _ tb.noSpace, splitLoop_token_space ['-', '-'] _ (by decide),
      splitLoop_token_end c tc.noSpace]
  have hfields : Fields (a ++ ' ' :: '+' :: ' ' :: ' ' :: '(' :: ' ' :: ' ' ::
      (b ++ ' ' :: (['-', '-'] ++ ' ' :: c))) = [a, ['+'], ['('], b, ['-', '-'], c] := by
    unfold Fields
    rw [fieldsLoop_token_space a _ ta.ne ta.noWhite, fieldsLoop_rune_space _ _ (by decide),
      fieldsLoop_nil_space, fieldsLoop_rune_space _ _ (by decide), fieldsLoop_nil_space,
      fieldsLoop_token_space b _ tb.ne tb.noWhite,
      fieldsLoop_token_space ['-', '-'] _ (by decide) (by decide),
      fieldsLoop_token_end c tc.ne tc.noWhite]
  have n1 : isNil (L.parse32 ['+']) = false := hL.not_numeral (by decide)
  have n2 : isNil (L.parse32 ['-', '-']) = false := hL.not_numeral (by decide)
  have g1 : isSign ['+'] = true := by decide
  have g2 : isSign ['('] = true := by decide
  have g3 : isSign ['-', '-'] = true := by decide
  have hvalid : isValidLoop L none [a, ['+'], [], ['('], [], b, ['-', '-'], c] = true := by
    simp [isValidLoop, a1, a2, a3, a4, a5, a6, b1, b2, b3, b4, b5, b6, c1, c2, c3, c4, c5, c6,
      n1, n2, g1, g3]
  have hpost : infixToPostfix (a ++ ' ' :: '+' :: ' ' :: ' ' :: '(' :: ' ' :: ' ' ::
      (b ++ ' ' :: (['-', '-'] ++ ' ' :: c))) =
      .ok (' ' :: (a ++ ' ' :: (b ++ ' ' :: '(' :: ' ' :: '+' :: ' ' :: (c ++ [' ', '-', '-'])))) := by
    have p1 : getOperatorPrecedence ['-', '-'] ≤ getOperatorPrecedence ['('] := by decide
    have p2 : getOperatorPrecedence ['-', '-'] ≤ getOperatorPrecedence ['+'] := by decide
    unfold infixToPostfix
    rw [hfields]
    simp [infixLoop, a5, b5, c5, g1, g2, g3, popWhilePrecedence, Stack.Push, popAll, p1, p2]
  have hread : readPosfix L
      (' ' :: (a ++ ' ' :: (b ++ ' ' :: '(' :: ' ' :: '+' :: ' ' :: (c ++ [' ', '-', '-'])))) =
      .crash := by
    have hf : Fields (' ' :: (a ++ ' ' :: (b ++ ' ' :: '(' :: ' ' :: '+' :: ' ' ::
        (c ++ [' ', '-', '-'])))) = [a, b, ['('], ['+'], c, ['-', '-']] := by
      unfold Fields
      rw [fieldsLoop_nil_space, fieldsLoop_token_space a _ ta.ne ta.noWhite,
        fieldsLoop_token_space b _ tb.ne tb.noWhite, fieldsLoop_rune_space _ _ (by decide),
        fieldsLoop_rune_space _ _ (by decide), fieldsLoop_token_space c _ tc.ne tc.noWhite,
        fieldsLoop_token_end ['-', '-'] (by decide) (by decide)]
    unfold readPosfix
    rw [hf]
    simp [readPosfixLoop, a5, b5, g2, readSignRuneList, Stack.Pop, Stack.Push, hx, hy,
      getOperationOfSign]
  unfold ReadCalculationInput
  simp only [hsp]
  unfold isValidInput
  rw [hsplit, hvalid, hpost]
  simp [hread]

/-- Claim C1, the failing input: on the line `1 + ( 2 -- 3` the line is accepted
by `isValidInput`, `infixToPostfix` puts the `(` into the postfix string,
`readSignRuneList` resolves it to itself, `getOperationOfSign` has no operation
for it, and `readPosfix`, hence `ReadCalculationInput`, aborts. -/
theorem nil_operation_crash :
    isValidInput intFragment (spaceParens "1 + ( 2 -- 3".toList) = true ∧
      infixToPostfix (spaceParens "1 + ( 2 -- 3".toList) = .ok " 1 2 ( + 3 --".toList ∧
      readSignRuneList "(".toList = .ok "(".toList ∧
      (getOperationOfSign intFragment "(".toList).isNone = true ∧
      readPosfix intFragment " 1 2 ( + 3 --".toList = .crash ∧
      ReadCalculationInput intFragment "1 + ( 2 -- 3".toList = .crash := by
  decide

/-- Claim C9, the failing input: the `(` of `( 1 -- 2` is never closed, and
`infixToPostfix` returns a postfix string (with the `(` in it) and no error. -/
theorem unclosed_paren_accepted :
    infixToPostfix "( 1 -- 2".toList = .ok " 1 ( 2 --".toList := by
  decide

/-- Claim C10, the failing input: the postfix string `1 2` leaves two values on
the stack and `readPosfix` returns the top one, `2`, with no error. -/
theorem readPosfix_leftover (L : GoFloat) :
    readPosfix L "1 2".toList = .ok "2".toList := by
  rfl

/-- The same through the whole pipeline: `1 ( 2 )` passes the validator and
evaluates to 2. -/
theorem leftover_operand_line :
    infixToPostfix (spaceParens "1 ( 2 )".toList) = .ok " 1 2".toList ∧
      ReadCalculationInput intFragment "1 ( 2 )".toList = .ok (some 2) := by
  decide

/-- With no value left, `readPosfix` does fail. -/
theorem readPosfix_empty (L : GoFloat) :
    readPosfix L [] = .err "invalid postfix expression" := by
  rfl

/-! ## Trimming and splitting an assignment line -/

theorem trimRight_cons_nonspace (c : Char) (cs : Str) (hc : isSpace c = false) :
    trimRight (c :: cs) = c :: trimRight cs := by
  rw [trimRight]
  cases trimRight cs with
  | nil => simp [hc]
  | cons t ts => rfl

theorem trimRight_cons_space (c : Char) (cs : Str) (hc : isSpace c = true) :
    trimRight (c :: cs) = if trimRight cs = [] then [] else c :: trimRight cs := by
  rw [trimRight]
  cases trimRight cs with
  | nil => simp [hc]
  | cons t ts => simp

theorem trimRight_append_cons (a : Str) (b : Char) (c : Str) (hb : isSpace b = false) :
    trimRight (a ++ b :: c) = a ++ b :: trimRight c := by
  induction a with
  | nil => exact trimRight_cons_nonspace b c hb
  | cons x a ih =>
    rw [List.cons_append]
    by_cases hx : isSpace x = true
    · rw [trimRight_cons_space _ _ hx, ih]
      simp
    · rw [trimRight_cons_nonspace _ _ (by simpa using hx), ih]
      simp

theorem dropWhile_append_cons (a : Str) (b : Char) (c : Str) (hb : isSpace b = false) :
    (a ++ b :: c).dropWhile isSpace = a.dropWhile isSpace ++ b :: c := by
  induction a with
  | nil => simp [List.dropWhile, hb]
  | cons x a ih =>
    by_cases hx : isSpace x = true
    · simp [List.dropWhile, hx, ih]
    · simp [List.dropWhile, hx]

theorem dropWhile_trimRight (s : Str) :
    (trimRight s).dropWhile isSpace = trimRight (s.dropWhile isSpace) := by
  induction s with
  | nil => rfl
  | cons c cs ih =>
    by_cases hc : isSpace c = true
    · rw [trimRight_cons_space _ _ hc]
      have hd : (c :: cs).dropWhile isSpace = cs.dropWhile isSpace := by
        simp [List.dropWhile, hc]
      rw [hd, ← ih]
      by_cases ht : trimRight cs = []
      · rw [if_pos ht, ht]
      · rw [if_neg ht]
        simp [List.dropWhile, hc]
    · have hc2 : isSpace c = false := by simpa using hc
      rw [trimRight_cons_nonspace _ _ hc2]
      have hd : (c :: cs).dropWhile isSpace = c :: cs := by
        simp [List.dropWhile, hc2]
      have hd2 : (c :: trimRight cs).dropWhile isSpace = c :: trimRight cs := by
        simp [List.dropWhile, hc2]
      rw [hd, hd2, trimRight_cons_nonspace _ _ hc2]

theorem trimRight_idem (s : Str) : trimRight (trimRight s) = trimRight s := by
  induction s with
  | nil => rfl
  | cons c cs ih =>
    by_cases hc : isSpace c = true
    · rw [trimRight_cons_space _ _ hc]
      by_cases ht : trimRight cs = []
      · rw [if_pos ht]
        rfl
      · rw [if_neg ht, trimRight_cons_space _ _ hc, ih, if_neg ht]
    · have hc2 : isSpace c = false := by simpa using hc
      rw [trimRight_cons_nonspace _ _ hc2, trimRight_cons_nonspace _ _ hc2, ih]

theorem dropWhile_idem (s : Str) :
    (s.dropWhile isSpace).dropWhile isSpace = s.dropWhile isSpace := by
  induction s with
  | nil => rfl
  | cons c cs ih =>
    by_cases hc : isSpace c = true
    · simp only [List.dropWhile, hc]
      exact ih
    · have hc2 : isSpace c = false := by simpa using hc
      simp [List.dropWhile, hc2]

theorem TrimSpace_dropWhile (s : Str) : TrimSpace (s.dropWhile isSpace) = TrimSpace s := by
  unfold TrimSpace
  rw [dropWhile_idem]

theorem TrimSpace_trimRight (s : Str) : TrimSpace (trimRight s) = TrimSpace s := by
  unfold TrimSpace
  rw [dropWhile_trimRight, trimRight_idem]

theorem splitEqualsLoop_of_not_mem (s : Str) (hs : '=' ∉ s) :
    ∀ cur, splitEqualsLoop cur s = [cur ++ s] := by
  induction s with
  | nil => intro cur; simp [splitEqualsLoop]
  | cons c cs ih =>
    intro cur
    have hc : c ≠ '=' := fun h => hs (by simp [h])
    have hcs : '=' ∉ cs := fun h => hs (by simp [h])
    rw [splitEqualsLoop, if_neg hc, ih hcs]
    simp

theorem splitEqualsLoop_append (a b : Str) (ha : '=' ∉ a) :
    ∀ cur, splitEqualsLoop cur (a ++ '=' :: b) = (cur ++ a) :: splitEqualsLoop [] b := by
  induction a with
  | nil => intro cur; simp [splitEqualsLoop]
  | cons c cs ih =>
    intro cur
    have hc : c ≠ '=' := fun h => ha (by simp [h])
    have hcs : '=' ∉ cs := fun h => ha (by simp [h])
    rw [List.cons_append, splitEqualsLoop, if_neg hc, ih hcs]
    simp

theorem not_mem_dropWhile (s : Str) (hs : '=' ∉ s) : '=' ∉ s.dropWhile isSpace :=
  fun h => hs ((List.dropWhile_sublist isSpace).subset h)

theorem not_mem_trimRight (s : Str) (hs : '=' ∉ s) : '=' ∉ trimRight s := by
  induction s with
  | nil => simp [trimRight]
  | cons c cs ih =>
    have hc : '=' ≠ c := fun h => hs (List.mem_cons.mpr (Or.inl h))
    have hcs : '=' ∉ cs := fun h => hs (by simp [h])
    by_cases hsp : isSpace c = true
    · rw [trimRight_cons_space _ _ hsp]
      split
      · simp
      · simp only [List.mem_cons, not_or]
        exact ⟨hc, ih hcs⟩
    · rw [trimRight_cons_nonspace _ _ (by simpa using hsp)]
      simp only [List.mem_cons, not_or]
      exact ⟨hc, ih hcs⟩

/-- The two words `ReadAssignmentInput` gets from a line with one `=`. -/
theorem splitEquals_assignment (left right : Str) (hl : '=' ∉ left) (hr : '=' ∉ right) :
    splitEquals (TrimSpace (left ++ '=' :: right)) =
      [left.dropWhile isSpace, trimRight right] := by
  unfold TrimSpace splitEquals
  rw [dropWhile_append_cons left '=' right (by decide),
    trimRight_append_cons _ '=' right (by decide),
    splitEqualsLoop_append _ _ (not_mem_dropWhile left hl),
    splitEqualsLoop_of_not_mem _ (not_mem_trimRight right hr)]
  simp

/-- `ReadAssignmentInput` on a line `left = right` in terms of the name
`TrimSpace left` and the expression `TrimSpace right`. -/
theorem ReadAssignmentInput_eq (L : GoFloat) (latin : Char → Bool) (dict : Dictionary L)
    (left right : Str) (hl : '=' ∉ left) (hr : '=' ∉ right) :
    ReadAssignmentInput L latin dict (left ++ '=' :: right) =
      if IsWord latin (TrimSpace left) = false then (dict, .err "Invalid identifier")
      else
        match parseVariablesInString L latin dict (TrimSpace right) with
        | .error e => (dict, .err e)
        | .ok replacedOperation =>
          match ReadCalculationInput L replacedOperation with
          | .err e => (dict, .err e)
          | .crash => (dict, .crash)
          | .ok result => (dict.set (TrimSpace left) result, .ok ()) := by
  unfold ReadAssignmentInput
  rw [splitEquals_assignment left right hl hr]
  simp only [TrimSpace_dropWhile, TrimSpace_trimRight]
  cases hw : IsWord latin (TrimSpace left)
  · simp
  · simp only [Bool.not_true, Bool.false_eq_true, if_false] <;> rfl


/-! ## Assignment: what is written to the dictionary -/

/-- Claim C13. When `ReadAssignmentInput` succeeds on a line `left = right` (one
`=`), with name `TrimSpace left` and expression `TrimSpace right`, the
dictionary after the call maps the name to the value `ReadCalculationInput`
returns for the expression substituted against the dictionary before the call,
whatever the name held before, and every other key keeps its value. -/
theorem assignment_updates_name (L : GoFloat) (latin : Char → Bool) (dict dict2 : Dictionary L)
    (left right : Str) (hl : '=' ∉ left) (hr : '=' ∉ right)
    (hok : ReadAssignmentInput L latin dict (left ++ '=' :: right) = (dict2, .ok ())) :
    ∃ replaced v, parseVariablesInString L latin dict (TrimSpace right) = .ok replaced ∧
      ReadCalculationInput L replaced = .ok v ∧
      dict2 (TrimSpace left) = some v ∧
      ∀ key, key ≠ TrimSpace left → dict2 key = dict key := by
  rw [ReadAssignmentInput_eq L latin dict left right hl hr] at hok
  by_cases hw : IsWord latin (TrimSpace left) = false
  · rw [if_pos hw] at hok
    cases hok
  · rw [if_neg hw] at hok
    cases hp : parseVariablesInString L latin dict (TrimSpace right) with
    | error e => rw [hp] at hok; cases hok
    | ok replaced =>
      rw [hp] at hok
      simp only at hok
      cases hc : ReadCalculationInput L replaced with
      | err e => rw [hc] at hok; cases hok
      | crash => rw [hc] at hok; cases hok
      | ok v =>
        rw [hc] at hok
        simp only [Prod.mk.injEq] at hok
        obtain ⟨hd, -⟩ := hok
        subst hd
        refine ⟨replaced, v, rfl, hc, ?_, ?_⟩
        · simp [Dictionary.set]
        · intro key hkey
          simp [Dictionary.set, hkey]

/-- Witness of C13: with `x` holding 9 and `a` holding 1, the line `x = 4 + a`
leaves 5 under `x` (not 14, not 9) and 1 under `a`. -/
theorem assignment_updates_name_witness :
    (ReadAssignmentInput intFragment asciiLatin
        (((emptyDictionary intFragment).set "a".toList (some 1)).set "x".toList (some 9))
        "x = 4 + a".toList).1 "x".toList = some (some 5) ∧
      (ReadAssignmentInput intFragment asciiLatin
        (((emptyDictionary intFragment).set "a".toList (some 1)).set "x".toList (some 9))
        "x = 4 + a".toList).1 "a".toList = some (some 1) := by
  have hok : ReadAssignmentInput intFragment asciiLatin
      (((emptyDictionary intFragment).set "a".toList (some 1)).set "x".toList (some 9))
      ("x ".toList ++ '=' :: " 4 + a".toList) =
      ((ReadAssignmentInput intFragment asciiLatin
        (((emptyDictionary intFragment).set "a".toList (some 1)).set "x".toList (some 9))
        "x = 4 + a".toList).1, .ok ()) :=
    Prod.ext rfl (by decide)
  obtain ⟨replaced, v, hrep, hv, hname, hother⟩ :=
    assignment_updates_name intFragment asciiLatin _ _ "x ".toList " 4 + a".toList
      (by decide) (by decide) hok
  have hrep2 : parseVariablesInString intFragment asciiLatin
      (((emptyDictionary intFragment).set "a".toList (some 1)).set "x".toList (some 9))
      (TrimSpace " 4 + a".toList) = .ok "4 + 1.000".toList := by decide
  rw [hrep2] at hrep
  cases hrep
  have hv2 : ReadCalculationInput intFragment "4 + 1.000".toList = .ok (some 5) := by decide
  rw [hv2] at hv
  cases hv
  refine ⟨hname, ?_⟩
  rw [hother "a".toList (by decide)]
  rfl

/-- Claim C16. Whenever `ReadAssignmentInput` returns an error, whatever the line
and the error, the dictionary after the call is the dictionary before it. -/
theorem assignment_error_keeps_dictionary (L : GoFloat) (latin : Char → Bool)
    (dict dict2 : Dictionary L) (line : Str) (e : String)
    (herr : ReadAssignmentInput L latin dict line = (dict2, .err e)) : dict2 = dict := by
  unfold ReadAssignmentInput at herr
  split at herr
  · cases herr
  · simp only at herr
    split at herr
    · cases herr; rfl
    · split at herr
      · cases herr
      · split at herr
        · cases herr; rfl
        · split at herr
          · cases herr; rfl
          · cases herr
          · cases herr

/-- Witness of C16: `x = y + 1` with `y` unknown fails and leaves the dictionary
as it was. -/
theorem assignment_error_keeps_dictionary_witness :
    (ReadAssignmentInput intFragment asciiLatin
        ((emptyDictionary intFragment).set "x".toList (some 9)) "x = y + 1".toList).2 =
        .err "Unknown variable: y" ∧
      (ReadAssignmentInput intFragment asciiLatin
        ((emptyDictionary intFragment).set "x".toList (some 9)) "x = y + 1".toList).1 =
        (emptyDictionary intFragment).set "x".toList (some 9) :=
  ⟨by decide, assignment_error_keeps_dictionary intFragment asciiLatin _ _ "x = y + 1".toList
    "Unknown variable: y" (Prod.ext rfl (by decide))⟩

/-- Claim C11, the failing input: with 1 stored under `a`, the line `(a) + a`
comes back as `(1.000) + a`: the word `(a)` is changed and the word `a` is not. -/
theorem substitution_hits_other_word :
    parseVariablesInString intFragment asciiLatin
        ((emptyDictionary intFragment).set "a".toList (some 1)) "(a) + a".toList =
        .ok "(1.000) + a".toList ∧
      Fields "(a) + a".toList = ["(a)".toList, "+".toList, "a".toList] ∧
      Fields "(1.000) + a".toList = ["(1.000)".toList, "+".toList, "a".toList] := by
  decide

/-- Claim C20, the failing inputs: `8 - 3 - 2` gives 3, but with its first `-`
written `+-`, a run that `readSignRuneList` resolves to `-`, it gives 7; and
`( 1 + 2 )` gives 3, but with `+` written `++` it is rejected. -/
theorem merged_run_changes_result :
    readSignRuneList "+-".toList = .ok "-".toList ∧
      ReadCalculationInput intFragment "8 - 3 - 2".toList = .ok (some 3) ∧
      ReadCalculationInput intFragment "8 +- 3 - 2".toList = .ok (some 7) ∧
      infixToPostfix "8 +- 3 - 2".toList = .ok " 8 3 2 - +-".toList ∧
      readSignRuneList "++".toList = .ok "+".toList ∧
      ReadCalculationInput intFragment "( 1 + 2 )".toList = .ok (some 3) ∧
      ReadCalculationInput intFragment "( 1 ++ 2 )".toList = .err "Invalid expression" := by
  decide

/-! ## Substitution: which lines fail -/

theorem IsWord_eq_all (latin : Char → Bool) (w : Str) : IsWord latin w = w.all latin := by
  induction w with
  | nil => rfl
  | cons c cs ih =>
    rw [IsWord, ih]
    cases h : latin c <;> simp [h]

theorem IsWord_false_iff (latin : Char → Bool) (w : Str) :
    IsWord latin w = false ↔ ∃ c ∈ w, latin c = false := by
  rw [IsWord_eq_all, List.all_eq_false]
  constructor
  · rintro ⟨c, hc, h⟩
    exact ⟨c, hc, by simpa using h⟩
  · rintro ⟨c, hc, h⟩
    exact ⟨c, hc, by simp [h]⟩

theorem IsWord_operatorRun {latin : Char → Bool} (hlat : LatinLawful latin) {w : Str}
    (hw : IsOperatorRun w) : IsWord latin w = false := by
  rw [IsWord_false_iff]
  cases w with
  | nil => exact absurd rfl hw.1
  | cons c cs =>
    refine ⟨c, by simp, hlat.not_sign c ?_⟩
    rcases hw.2 c (by simp) with rfl | rfl | rfl | rfl <;> decide

theorem parseVariablesLoop_cons (L : GoFloat) (latin : Char → Bool) (dict : Dictionary L)
    (word : Str) (rest : List Str) (newString : Str) :
    parseVariablesLoop L latin dict (word :: rest) newString =
      if isNil (L.parse32 word) = true then parseVariablesLoop L latin dict rest newString
      else if IsWord latin word = true then
        match dict word with
        | some value =>
          parseVariablesLoop L latin dict rest (replaceFirst newString word (L.format3 value))
        | none => .error ("Unknown variable: " ++ String.mk word)
      else if (!isSign word && !isParenthesis word) = true then
        .error ("Invalid Identifier: " ++ String.mk word)
      else parseVariablesLoop L latin dict rest newString := by
  rfl

theorem parseVariablesLoop_unknown (L : GoFloat) (latin : Char → Bool)
    (dict : Dictionary L) (ws : List Str)
    (hclass : ∀ w ∈ ws, IsNumberToken L w ∨ IsOperatorRun w ∨ w = ['('] ∨ w = [')'] ∨
      IsWord latin w = true) :
    ∀ newString,
      match ws.find? (isUnknownWord L latin dict) with
      | some w => parseVariablesLoop L latin dict ws newString =
          .error ("Unknown variable: " ++ String.mk w)
      | none => ∃ out, parseVariablesLoop L latin dict ws newString = .ok out := by
  induction ws with
  | nil => intro newString; exact ⟨newString, rfl⟩
  | cons w ws ih =>
    intro newString
    have hws : ∀ v ∈ ws, IsNumberToken L v ∨ IsOperatorRun v ∨ v = ['('] ∨ v = [')'] ∨
        IsWord latin v = true := fun v hv => hclass v (by simp [hv])
    rw [parseVariablesLoop_cons]
    by_cases hnum : isNil (L.parse32 w) = true
    · have hu : isUnknownWord L latin dict w = false := by simp [isUnknownWord, hnum]
      rw [if_pos hnum, List.find?_cons_of_neg _ (by simp [hu])]
      exact ih hws newString
    · rw [if_neg hnum]
      by_cases hword : IsWord latin w = true
      · rw [if_pos hword]
        cases hd : dict w with
        | none =>
          have hu : isUnknownWord L latin dict w = true := by
            simp [isUnknownWord, hnum, hword, hd]
          rw [List.find?_cons_of_pos _ hu]
        | some value =>
          have hu : isUnknownWord L latin dict w = false := by
            simp [isUnknownWord, hd]
          rw [List.find?_cons_of_neg _ (by simp [hu])]
          exact ih hws _
      · have hu : isUnknownWord L latin dict w = false := by
          simp [isUnknownWord, hword]
        have hsign : (!isSign w && !isParenthesis w) = false := by
          rcases hclass w (by simp) with h | h | h | h | h
          · exact absurd h hnum
          · simp [isSign_operatorRun w h]
          · subst h; decide
          · subst h; decide
          · exact absurd h hword
        rw [if_neg hword, if_neg (by simp [hsign]), List.find?_cons_of_neg _ (by simp [hu])]
        exact ih hws newString

/-- Claim C12. On a line whose words are numbers, operator runs, parentheses or
words of Latin letters, `parseVariablesInString` fails exactly when some word
that is no number and is made of Latin letters has no entry in the dictionary;
the error is then "Unknown variable: " followed by the first such word. -/
theorem unknown_variable_iff (L : GoFloat) (latin : Char → Bool)
    (dict : Dictionary L) (s : Str)
    (hclass : ∀ w ∈ Fields s, IsNumberToken L w ∨ IsOperatorRun w ∨ w = ['('] ∨ w = [')'] ∨
      IsWord latin w = true) :
    ((∃ e, parseVariablesInString L latin dict s = .error e) ↔
        ∃ w ∈ Fields s, isUnknownWord L latin dict w = true) ∧
      ∀ w, (Fields s).find? (isUnknownWord L latin dict) = some w →
        parseVariablesInString L latin dict s = .error ("Unknown variable: " ++ String.mk w) := by
  have key := parseVariablesLoop_unknown L latin dict (Fields s) hclass s
  unfold parseVariablesInString
  cases hf : (Fields s).find? (isUnknownWord L latin dict) with
  | none =>
    rw [hf] at key
    obtain ⟨out, hout⟩ := key
    refine ⟨⟨?_, ?_⟩, fun w hw => by cases hw⟩
    · rintro ⟨e, he⟩
      rw [hout] at he
      cases he
    · rintro ⟨w, hw, hu⟩
      have := List.find?_eq_none.mp hf w hw
      exact absurd hu this
  | some w =>
    rw [hf] at key
    simp only at key
    refine ⟨⟨fun _ => ?_, fun _ => ⟨_, key⟩⟩, ?_⟩
    · exact ⟨w, List.mem_of_find?_eq_some hf, List.find?_some hf⟩
    · intro v hv
      cases hv
      exact key


/-- Witness of C12: `y + 1` with `y` never assigned fails with
"Unknown variable: y"; with `y` assigned it succeeds. -/
theorem unknown_variable_iff_witness :
    parseVariablesInString intFragment asciiLatin (emptyDictionary intFragment) "y + 1".toList =
        .error "Unknown variable: y" ∧
      ¬ ∃ e, parseVariablesInString intFragment asciiLatin
        ((emptyDictionary intFragment).set "y".toList (some 2)) "y + 1".toList = .error e := by
  have h1 := unknown_variable_iff intFragment asciiLatin (emptyDictionary intFragment)
    "y + 1".toList (by decide)
  have h2 := unknown_variable_iff intFragment asciiLatin
    ((emptyDictionary intFragment).set "y".toList (some 2)) "y + 1".toList (by decide)
  refine ⟨h1.2 "y".toList (by decide), fun he => ?_⟩
  obtain ⟨w, hw, hu⟩ := h2.1.mp he
  revert w
  decide

/-! ## The texts of the errors -/

theorem signAddition_error_text (a b : Char) (e : String) (h : signAddition a b = .error e) :
    e = "Invalid expression" := by
  unfold signAddition at h
  split at h
  · cases h; rfl
  · split at h
    · cases h
    · split at h <;> cases h

theorem readSignLoop_cons (resultSign : Str) (currentSign : Char) (rest : List Char) :
    readSignLoop resultSign (currentSign :: rest) =
      match resultSign with
      | [] => .crash
      | r0 :: _ =>
        match signAddition r0 currentSign with
        | .error e => .err e
        | .ok s => readSignLoop s rest := by
  rfl

theorem readSignLoop_error_text (rest : List Char) :
    ∀ (resultSign : Str) (e : String), readSignLoop resultSign rest = .err e →
      e = "Invalid expression" := by
  induction rest with
  | nil => intro r e h; cases h
  | cons c rest ih =>
    intro r e h
    rw [readSignLoop_cons] at h
    cases r with
    | nil => cases h
    | cons r0 rs =>
      simp only at h
      cases hs : signAddition r0 c with
      | error e2 =>
        rw [hs] at h
        cases h
        exact signAddition_error_text r0 c _ hs
      | ok s =>
        rw [hs] at h
        exact ih s e h

theorem readSignRuneList_error_text (run : List Char) (e : String)
    (h : readSignRuneList run = .err e) : e = "Invalid expression" := by
  unfold readSignRuneList at h
  split at h
  · cases h
  · cases h
  · rename_i c0 c1 rest
    cases hs : signAddition c0 c1 with
    | error e2 =>
      rw [hs] at h
      cases h
      exact signAddition_error_text c0 c1 _ hs
    | ok s =>
      rw [hs] at h
      exact readSignLoop_error_text rest s e h

theorem popToOpen_error_text (stack : List Str) :
    ∀ (result : Str) (e : String), popToOpen stack result = .error e →
      e = "Invalid expression" := by
  induction stack with
  | nil => intro r e h; cases h; rfl
  | cons top rest ih =>
    intro r e h
    rw [popToOpen] at h
    split at h
    · cases h
    · exact ih _ e h

theorem infixLoop_error_text (ts : List Str) :
    ∀ (st : Stack) (result : Str) (e : String), infixLoop ts st result = .error e →
      e = "Invalid expression" := by
  induction ts with
  | nil => intro st r e h; cases h
  | cons t ts ih =>
    intro st r e h
    rw [infixLoop_cons] at h
    split at h
    · exact ih _ _ e h
    · split at h
      · exact ih _ _ e h
      · split at h
        · cases hp : popToOpen st.storage r with
          | error e2 =>
            rw [hp] at h
            cases h
            exact popToOpen_error_text _ _ _ hp
          | ok popped =>
            rw [hp] at h
            exact ih _ _ e h
        · exact ih _ _ e h

theorem infixToPostfix_error_text (operation : Str) (e : String)
    (h : infixToPostfix operation = .error e) : e = "Invalid expression" := by
  unfold infixToPostfix at h
  cases hl : infixLoop (Fields operation) ⟨[]⟩ [] with
  | error e2 =>
    rw [hl] at h
    cases h
    exact infixLoop_error_text _ _ _ _ hl
  | ok pair =>
    rw [hl] at h
    simp only at h
    split at h
    · cases h; rfl
    · cases h

theorem readPosfixLoop_error_text (L : GoFloat) (ws : List Str) :
    ∀ (st : Stack) (e : String), readPosfixLoop L ws st = .err e →
      e = "Invalid expression" ∨ e = "invalid postfix expression" ∨ e = "invalid operand" := by
  induction ws with
  | nil => intro st e h; cases h
  | cons w ws ih =>
    intro st e h
    rw [readPosfixLoop_cons] at h
    split at h
    · cases hr : readSignRuneList w with
      | err e2 =>
        rw [hr] at h
        cases h
        exact Or.inl (readSignRuneList_error_text w _ hr)
      | crash => rw [hr] at h; cases h
      | ok singleSign =>
        rw [hr] at h
        simp only at h
        split at h
        · cases h; exact Or.inr (Or.inl rfl)
        · split at h
          · cases h; exact Or.inr (Or.inl rfl)
          · split at h
            · cases h; exact Or.inr (Or.inr rfl)
            · split at h
              · cases h; exact Or.inr (Or.inr rfl)
              · split at h
                · cases h
                · exact ih _ e h
    · exact ih _ e h

theorem readPosfix_error_text (L : GoFloat) (posfixOp : Str) (e : String)
    (h : readPosfix L posfixOp = .err e) :
    e = "Invalid expression" ∨ e = "invalid postfix expression" ∨ e = "invalid operand" := by
  unfold readPosfix at h
  cases hl : readPosfixLoop L (Fields posfixOp) ⟨[]⟩ with
  | err e2 =>
    rw [hl] at h
    cases h
    exact readPosfixLoop_error_text L _ _ _ hl
  | crash => rw [hl] at h; cases h
  | ok st =>
    rw [hl] at h
    simp only at h
    split at h
    · cases h; exact Or.inr (Or.inl rfl)
    · cases h

theorem ReadCalculationInput_error_text (L : GoFloat) (line : Str) (e : String)
    (h : ReadCalculationInput L line = .err e) :
    e = "Invalid expression" ∨ e = "invalid postfix expression" ∨ e = "invalid operand" ∨
      ∃ s, L.parse32 s = .error e := by
  unfold ReadCalculationInput at h
  simp only at h
  split at h
  · cases h; exact Or.inl rfl
  · cases hp : infixToPostfix (spaceParens line) with
    | error e2 =>
      rw [hp] at h
      cases h
      exact Or.inl (infixToPostfix_error_text _ _ hp)
    | ok posfix =>
      rw [hp] at h
      simp only at h
      cases hr : readPosfix L posfix with
      | err e2 =>
        rw [hr] at h
        cases h
        rcases readPosfix_error_text L posfix _ hr with h1 | h1 | h1
        · exact Or.inl h1
        · exact Or.inr (Or.inl h1)
        · exact Or.inr (Or.inr (Or.inl h1))
      | crash => rw [hr] at h; cases h
      | ok output =>
        rw [hr] at h
        simp only at h
        cases hq : L.parse32 output with
        | error e2 =>
          rw [hq] at h
          cases h
          exact Or.inr (Or.inr (Or.inr ⟨output, hq⟩))
        | ok v => rw [hq] at h; cases h

theorem parseVariablesLoop_error_text (L : GoFloat) (latin : Char → Bool) (dict : Dictionary L)
    (ws : List Str) :
    ∀ (newString : Str) (e : String), parseVariablesLoop L latin dict ws newString = .error e →
      (∃ w, e = "Unknown variable: " ++ String.mk w) ∨
        ∃ w, e = "Invalid Identifier: " ++ String.mk w := by
  induction ws with
  | nil => intro ns e h; cases h
  | cons w ws ih =>
    intro ns e h
    rw [parseVariablesLoop_cons] at h
    split at h
    · exact ih _ e h
    · split at h
      · split at h
        · exact ih _ e h
        · cases h; exact Or.inl ⟨w, rfl⟩
      · split at h
        · cases h; exact Or.inr ⟨w, rfl⟩
        · exact ih _ e h


/-! ## More laws of the integer fragment -/

theorem parseNatLit_append_zeros (xs : Str) (hxs : ∀ c ∈ xs, isDigitRune c = true) :
    ∀ acc, parseNatLit acc (xs ++ ['.', '0', '0', '0']) = parseNatLit acc xs := by
  induction xs with
  | nil => intro acc; rfl
  | cons c xs ih =>
    intro acc
    have hc : isDigitRune c = true := hxs c (by simp)
    have hr : ∀ e ∈ xs, isDigitRune e = true := fun e he => hxs e (by simp [he])
    rw [List.cons_append, parseNatLit, if_pos hc, ih hr, parseNatLit, if_pos hc]

theorem parseUnsigned_formatNat_zeros (n : Nat) :
    parseUnsigned (formatNat n ++ ['.', '0', '0', '0']) = some n := by
  obtain ⟨d, ds, hform, hd⟩ := formatNat_head n
  have hall : ∀ c ∈ formatNat n, isDigitRune c = true := natDigits_digits (n + 1) n
  have h := parseNatLit_append_zeros (formatNat n) hall 0
  have h0 : parseNatLit 0 (formatNat n) = some n := parseNatLit_natDigits (n + 1) n (by omega)
  rw [h0] at h
  rw [hform] at h ⊢
  rw [List.cons_append, parseUnsigned, if_pos hd]
  exact h

theorem parseLit_formatLit3 (x : Option Int) : parseLit (formatLit3 x) = .ok x := by
  cases x with
  | none => decide
  | some n =>
    obtain ⟨d, ds, hform, hd⟩ := formatNat_head n.natAbs
    have hshape := isDigitRune_shape d hd
    unfold formatLit3 formatLit
    by_cases hneg : n < 0
    · simp only [if_pos hneg]
      unfold parseLit
      rw [if_neg (by simp), List.cons_append, parseIntLit, if_pos rfl,
        parseUnsigned_formatNat_zeros]
      have hn : -((n.natAbs : Nat) : Int) = n := by omega
      simp only [Option.map_some', Int.ofNat_eq_coe, hn]
    · simp only [if_neg hneg]
      unfold parseLit
      have h1 : formatNat n.natAbs ++ ['.', '0', '0', '0'] ≠ ['N', 'a', 'N'] := by
        rw [hform]
        intro h
        exact hshape.2.2.2.2.2.2 (List.cons.inj h).1
      have h2 : parseIntLit (formatNat n.natAbs ++ ['.', '0', '0', '0']) = some n := by
        have hu := parseUnsigned_formatNat_zeros n.natAbs
        rw [hform] at hu ⊢
        rw [List.cons_append] at hu ⊢
        rw [parseIntLit, if_neg hshape.2.2.2.2.1, if_neg hshape.2.2.2.2.2.1, hu]
        have hn : ((n.natAbs : Nat) : Int) = n := by omega
        simp only [Option.map_some', Int.ofNat_eq_coe, hn]
      rw [if_neg h1, h2]

theorem intFragment_textLawful : intFragment.TextLawful where
  format3_numeral := fun x => by
    show isNil (parseLit (formatLit3 x)) = true
    rw [parseLit_formatLit3]
    rfl
  parse_error_text := by
    intro s e h
    have h2 : parseLit s = .error e := h
    unfold parseLit at h2
    split at h2
    · cases h2
    · split at h2
      · cases h2
      · cases h2
        refine ⟨"parsing " ++ String.mk ([Char.ofNat 34] ++ s ++ [Char.ofNat 34]) ++
          ": invalid syntax", ?_⟩
        unfold syntaxErrorText
        have hp : "strconv.ParseFloat: parsing " = "strconv.ParseFloat: " ++ "parsing " := by
          decide
        rw [hp, String.append_assoc, String.append_assoc, String.append_assoc]

theorem asciiLatin_lawful : LatinLawful asciiLatin where
  not_space := by
    intro c hc
    simp only [isSpace, Bool.or_eq_true, Bool.and_eq_true, decide_eq_true_eq] at hc
    simp only [asciiLatin, Bool.or_eq_false_iff, Bool.and_eq_false_iff, decide_eq_false_iff_not]
    omega
  not_sign := by
    intro c hc
    simp only [isSignRune, Bool.or_eq_true, decide_eq_true_eq] at hc
    rcases hc with (((h | h) | h) | h) | h | h <;> subst h <;> decide
  not_equals := by decide


/-! ## Errors of the three entry points -/

/-- A text that starts with `p` differs from `c` when `p` and `c` differ at the
position `n` of `p`. -/
theorem text_ne_of_rune (p x c : String) (n : Nat) (hn : n < p.data.length)
    (hne : p.data[n]? ≠ c.data[n]?) : p ++ x ≠ c := by
  intro h
  apply hne
  have h2 := congrArg (fun s : String => s.data[n]?) h
  simp only [String.data_append] at h2
  rw [List.getElem?_append_left hn] at h2
  exact h2

/-- Claim C18 as stated fails: the error of `parseVariablesInString` on `2x + 1`
reads "Invalid Identifier: 2x", and the error of `ReadCalculationInput` on
`( abc )` is the one of `strconv.ParseFloat`; neither is a documented message. -/
theorem undocumented_error_texts :
    parseVariablesInString intFragment asciiLatin (emptyDictionary intFragment) "2x + 1".toList =
        .error "Invalid Identifier: 2x" ∧
      ReadCalculationInput intFragment "( abc )".toList =
        .err (syntaxErrorText "abc".toList) ∧
      (∀ e ∈ ["Invalid Identifier: 2x", syntaxErrorText "abc".toList],
        e ≠ "Invalid identifier" ∧ e ≠ "Invalid expression" ∧ e ≠ "invalid operand" ∧
          e ≠ "invalid postfix expression" ∧ e ≠ "Stack is empty" ∧
          ¬ ∃ x : String, e = "Unknown variable: " ++ x) := by
  refine ⟨by decide, by decide, ?_⟩
  intro e he
  have hunknown : ∀ x : String, e ≠ "Unknown variable: " ++ x := by
    intro x h
    refine text_ne_of_rune "Unknown variable: " x e 0 (by decide) ?_ h.symm
    rcases List.mem_cons.mp he with h1 | h1
    · subst h1; decide
    · have h2 : e = syntaxErrorText "abc".toList := by simpa using h1
      subst h2; decide
  refine ⟨?_, ?_, ?_, ?_, ?_, fun ⟨x, hx⟩ => hunknown x hx⟩ <;>
    (rcases List.mem_cons.mp he with h1 | h1
     · subst h1; decide
     · have h2 : e = syntaxErrorText "abc".toList := by simpa using h1
       subst h2; decide)

/-- Claim C15. On a line `left = right` with one `=`, `ReadAssignmentInput`
returns the error "Invalid identifier" exactly when `TrimSpace left`, the text
left of the `=` without the white space around it, has a rune that is not a
Latin letter, whatever `right` is. -/
theorem invalid_identifier_iff (L : GoFloat) (hT : L.TextLawful) (latin : Char → Bool)
    (dict : Dictionary L) (left right : Str) (hl : '=' ∉ left) (hr : '=' ∉ right) :
    (ReadAssignmentInput L latin dict (left ++ '=' :: right)).2 = .err "Invalid identifier" ↔
      ∃ c ∈ TrimSpace left, latin c = false := by
  rw [ReadAssignmentInput_eq L latin dict left right hl hr, ← IsWord_false_iff]
  constructor
  · intro h
    by_contra hw
    rw [if_neg hw] at h
    cases hp : parseVariablesInString L latin dict (TrimSpace right) with
    | error e =>
      rw [hp] at h
      simp only [Outcome.err.injEq] at h
      rcases parseVariablesLoop_error_text L latin dict _ _ _ hp with ⟨w, hw2⟩ | ⟨w, hw2⟩
      · rw [hw2] at h
        exact text_ne_of_rune _ _ _ 0 (by decide) (by decide) h
      · rw [hw2] at h
        exact text_ne_of_rune _ _ _ 8 (by decide) (by decide) h
    | ok replaced =>
      rw [hp] at h
      simp only at h
      cases hc : ReadCalculationInput L replaced with
      | err e =>
        rw [hc] at h
        simp only [Outcome.err.injEq] at h
        rcases ReadCalculationInput_error_text L replaced _ hc with h1 | h1 | h1 | ⟨s, hs⟩
        · rw [h1] at h; revert h; decide
        · rw [h1] at h; revert h; decide
        · rw [h1] at h; revert h; decide
        · obtain ⟨rest, hrest⟩ := hT.parse_error_text s e hs
          rw [hrest] at h
          exact text_ne_of_rune _ _ _ 0 (by decide) (by decide) h
      | crash => rw [hc] at h; cases h
      | ok v => rw [hc] at h; cases h
  · intro hw
    rw [if_pos hw]

/-- Witness of C15: `x1 = 5` is refused with "Invalid identifier", also with a
right-hand side that is no expression, and ` x  = 5` is not. -/
theorem invalid_identifier_iff_witness :
    (ReadAssignmentInput intFragment asciiLatin (emptyDictionary intFragment)
        "x1 = 5".toList).2 = .err "Invalid identifier" ∧
      (ReadAssignmentInput intFragment asciiLatin (emptyDictionary intFragment)
        "x1 = ) + y".toList).2 = .err "Invalid identifier" ∧
      (ReadAssignmentInput intFragment asciiLatin (emptyDictionary intFragment)
        " x  = 5".toList).2 ≠ .err "Invalid identifier" := by
  have h1 := invalid_identifier_iff intFragment intFragment_textLawful asciiLatin
    (emptyDictionary intFragment) "x1 ".toList " 5".toList (by decide) (by decide)
  have h2 := invalid_identifier_iff intFragment intFragment_textLawful asciiLatin
    (emptyDictionary intFragment) "x1 ".toList " ) + y".toList (by decide) (by decide)
  have h3 := invalid_identifier_iff intFragment intFragment_textLawful asciiLatin
    (emptyDictionary intFragment) " x  ".toList " 5".toList (by decide) (by decide)
  refine ⟨h1.mpr (by decide), h2.mpr (by decide), fun h => ?_⟩
  have := h3.mp h
  revert this
  decide

/-! ## Assignment, then the name alone -/

theorem Fields_word (w : Str) (hne : w ≠ []) (hw : ∀ c ∈ w, isSpace c = false) :
    Fields w = [w] :=
  fieldsLoop_token_end w hne hw

theorem TrimSpace_idem (s : Str) : TrimSpace (TrimSpace s) = TrimSpace s := by
  have h : TrimSpace (TrimSpace s) = TrimSpace (trimRight (s.dropWhile isSpace)) := rfl
  rw [h, TrimSpace_trimRight, TrimSpace_dropWhile]

theorem replaceFirst_self (w new : Str) (hne : w ≠ []) : replaceFirst w w new = new := by
  cases w with
  | nil => exact absurd rfl hne
  | cons c cs =>
    rw [replaceFirst, if_pos (by simp)]
    simp

/-- On a line that is one number token `ReadCalculationInput` returns what
`ParseFloat(.., 32)` reads from the token. -/
theorem calc_single (L : GoFloat) (hL : L.Lawful) (t : Str) (z : L.F)
    (hz : L.parse32 t = .ok z) : ReadCalculationInput L t = .ok z := by
  have ht : NumTok L t := hL.numTok (by unfold IsNumberToken; rw [hz]; rfl)
  have hsp : spaceParens t = t := spaceParens_token t ht.noParen
  have hvalid : isValidInput L t = true := by
    unfold isValidInput splitSpace
    rw [splitLoop_token_end t ht.noSpace, isValidLoop_cons]
    have h1 : ¬ (t = [' '] ∨ t = []) := by
      rintro (h | h)
      · exact ht.noSpace ' ' (by rw [h]; simp) rfl
      · exact ht.ne h
    rw [if_neg h1]
    rfl
  have hpost : infixToPostfix t = .ok (' ' :: t) := by
    unfold infixToPostfix
    rw [Fields_word t ht.ne ht.noWhite, infixLoop_cons, if_pos (by rw [ht.notSign]; rfl)]
    rfl
  have hread : readPosfix L (' ' :: t) = .ok t := by
    unfold readPosfix Fields
    rw [fieldsLoop_nil_space, fieldsLoop_token_end t ht.ne ht.noWhite, readPosfixLoop_cons,
      if_neg (by rw [ht.notSign]; simp)]
    rfl
  unfold ReadCalculationInput
  simp [hsp, hvalid, hpost, hread, hz]

/-- Claim C14, amended. Let the assignment line `left = right` (one `=`) succeed,
its name `TrimSpace left` not empty and not itself a number token. Then the
dictionary holds a value `v` under the name, and evaluating the line made of the
name alone succeeds, leaves the dictionary as it is, and returns what
`ParseFloat(.., 32)` reads from `FormatFloat(v, 'f', 3, 32)`: the value `v`
rounded to three digits after the point, which is `v` when `v` has no more
digits than that. -/
theorem assignment_round_trip (L : GoFloat) (hL : L.Lawful) (hT : L.TextLawful)
    (latin : Char → Bool) (hlat : LatinLawful latin) (dict : Dictionary L) (left right : Str)
    (hl : '=' ∉ left) (hr : '=' ∉ right) (hne : TrimSpace left ≠ [])
    (hnum : isNil (L.parse32 (TrimSpace left)) = false)
    (hok : (ReadAssignmentInput L latin dict (left ++ '=' :: right)).2 = .ok ()) :
    ∃ v z, (ReadAssignmentInput L latin dict (left ++ '=' :: right)).1 (TrimSpace left) = some v ∧
      L.parse32 (L.format3 v) = .ok z ∧
      evaluateLine L latin (ReadAssignmentInput L latin dict (left ++ '=' :: right)).1
          (TrimSpace left) =
        ((ReadAssignmentInput L latin dict (left ++ '=' :: right)).1, .ok z) := by
  rw [ReadAssignmentInput_eq L latin dict left right hl hr] at hok ⊢
  by_cases hw : IsWord latin (TrimSpace left) = false
  · rw [if_pos hw] at hok
    cases hok
  · rw [if_neg hw] at hok ⊢
    have hword : IsWord latin (TrimSpace left) = true := by simpa using hw
    cases hp : parseVariablesInString L latin dict (TrimSpace right) with
    | error e => rw [hp] at hok; cases hok
    | ok replaced =>
      rw [hp] at hok
      simp only at hok ⊢
      cases hc : ReadCalculationInput L replaced with
      | err e => rw [hc] at hok; cases hok
      | crash => rw [hc] at hok; cases hok
      | ok v =>
        simp only
        obtain ⟨z, hz⟩ := isNil_eq_true (hT.format3_numeral v)
        have hget : (dict.set (TrimSpace left) v) (TrimSpace left) = some v := by
          simp [Dictionary.set]
        refine ⟨v, z, hget, hz, ?_⟩
        have hwhite : ∀ c ∈ TrimSpace left, isSpace c = false := by
          intro c hc2
          cases hsp : isSpace c with
          | false => rfl
          | true =>
            have h1 := hlat.not_space c hsp
            have h2 : IsWord latin (TrimSpace left) = false :=
              (IsWord_false_iff latin _).mpr ⟨c, hc2, h1⟩
            rw [hword] at h2
            cases h2
        have hsub : parseVariablesInString L latin (dict.set (TrimSpace left) v)
            (TrimSpace left) = .ok (L.format3 v) := by
          unfold parseVariablesInString
          rw [Fields_word _ hne hwhite, parseVariablesLoop_cons, if_neg (by rw [hnum]; simp),
            if_pos hword, hget]
          simp only
          rw [replaceFirst_self _ _ hne]
          rfl
        unfold evaluateLine
        rw [TrimSpace_idem, hsub]
        simp only
        rw [calc_single L hL _ z hz]

/-- Witness of C14: after `x = 4 + 1` the line `x` gives 5 (the theorem) and the
line `x * 2` gives 10; after `x = 1` on top of that, the line `x` gives 1. -/
theorem assignment_round_trip_witness :
    (∃ v z, (ReadAssignmentInput intFragment asciiLatin (emptyDictionary intFragment)
          ("x ".toList ++ '=' :: " 4 + 1".toList)).1 (TrimSpace "x ".toList) = some v ∧
        intFragment.parse32 (intFragment.format3 v) = .ok z ∧
        evaluateLine intFragment asciiLatin
            (ReadAssignmentInput intFragment asciiLatin (emptyDictionary intFragment)
              ("x ".toList ++ '=' :: " 4 + 1".toList)).1 (TrimSpace "x ".toList) =
          ((ReadAssignmentInput intFragment asciiLatin (emptyDictionary intFragment)
              ("x ".toList ++ '=' :: " 4 + 1".toList)).1, .ok z)) ∧
      (evaluateLine intFragment asciiLatin
        (ReadAssignmentInput intFragment asciiLatin (emptyDictionary intFragment)
          "x = 4 + 1".toList).1 "x".toList).2 = .ok (some 5) ∧
      (evaluateLine intFragment asciiLatin
        (ReadAssignmentInput intFragment asciiLatin (emptyDictionary intFragment)
          "x = 4 + 1".toList).1 "x * 2".toList).2 = .ok (some 10) ∧
      (evaluateLine intFragment asciiLatin
        (ReadAssignmentInput intFragment asciiLatin
          (ReadAssignmentInput intFragment asciiLatin (emptyDictionary intFragment)
            "x = 4 + 1".toList).1 "x = 1".toList).1 "x".toList).2 = .ok (some 1) :=
  ⟨assignment_round_trip intFragment intFragment_lawful intFragment_textLawful asciiLatin
      asciiLatin_lawful (emptyDictionary intFragment) "x ".toList " 4 + 1".toList
      (by decide) (by decide) (by decide) (by decide) (by decide),
    by decide, by decide, by decide⟩

/-- Claim C14 as stated fails. After `x = 1 / 2048` the dictionary holds
0.00048828125 under `x` (488281250 units of the fixed-point fragment) and the
line `x` gives 0, the text `0.000` read back. After `NaN = 5` the dictionary
holds 5 under `NaN` and the line `NaN` gives the float NaN (`none`): the word is
a number token and is not substituted. -/
theorem round_trip_loses_digits :
    (ReadAssignmentInput fixedFragment asciiLatin (emptyDictionary fixedFragment)
        "x = 1 / 2048".toList).2 = .ok () ∧
      (ReadAssignmentInput fixedFragment asciiLatin (emptyDictionary fixedFragment)
        "x = 1 / 2048".toList).1 "x".toList = some (some 488281250) ∧
      (evaluateLine fixedFragment asciiLatin
        (ReadAssignmentInput fixedFragment asciiLatin (emptyDictionary fixedFragment)
          "x = 1 / 2048".toList).1 "x".toList).2 = .ok (some 0) ∧
      (ReadAssignmentInput intFragment asciiLatin (emptyDictionary intFragment)
        "NaN = 5".toList).2 = .ok () ∧
      (ReadAssignmentInput intFragment asciiLatin (emptyDictionary intFragment)
        "NaN = 5".toList).1 "NaN".toList = some (some 5) ∧
      (evaluateLine intFragment asciiLatin
        (ReadAssignmentInput intFragment asciiLatin (emptyDictionary intFragment)
          "NaN = 5".toList).1 "NaN".toList).2 = .ok none := by
  refine ⟨by decide, by decide, by decide, by decide, by decide, by decide⟩

/-! ## Whole expressions -/

theorem opLevel_precedence (c : Char) (hc : c = '+' ∨ c = '-' ∨ c = '*' ∨ c = '/') :
    getOperatorPrecedence [c] = Int.ofNat (opLevel c) := by
  rcases hc with rfl | rfl | rfl | rfl <;> decide

theorem opLevel_le_one (c : Char) : opLevel c ≤ 1 := by
  unfold opLevel
  split <;> omega

theorem Expr.wellFormed_bin (L : GoFloat) (op : Char) (l r : Expr)
    (h : (Expr.bin op l r).wellFormed L = true) :
    (op = '+' ∨ op = '-' ∨ op = '*' ∨ op = '/') ∧ opLevel op ≤ l.level ∧ opLevel op < r.level ∧
      l.wellFormed L = true ∧ r.wellFormed L = true := by
  simpa [Expr.wellFormed, and_assoc, or_assoc] using h

theorem IsPending.weaken {k j : Nat} {p : Str} (h : IsPending k p) (hjk : j ≤ k) : IsPending j p := by
  obtain ⟨c, hp, hc, hle⟩ := h
  exact ⟨c, hp, hc, le_trans hjk hle⟩

theorem Blocked.raise {k j : Nat} {stack : List Str} (h : Blocked k stack) (hkj : k ≤ j) :
    Blocked j stack := by
  intro top htop
  have h1 := h top htop
  have h2 : Int.ofNat k ≤ Int.ofNat j := Int.ofNat_le.mpr hkj
  omega

theorem popWhilePrecedence_pending (c : Char) (hc : c = '+' ∨ c = '-' ∨ c = '*' ∨ c = '/')
    (stack : List Str) (hS : Blocked (opLevel c) stack) :
    ∀ (pending out : List Str), (∀ p ∈ pending, IsPending (opLevel c) p) →
      popWhilePrecedence [c] (pending ++ stack) (joinTokens out) =
        (stack, joinTokens (out ++ pending)) := by
  intro pending
  induction pending with
  | nil =>
    intro out _
    simp only [List.nil_append, List.append_nil]
    cases stack with
    | nil => rfl
    | cons top rest =>
      have h1 := hS top rfl
      rw [popWhilePrecedence, if_neg]
      rw [opLevel_precedence c hc]
      omega
  | cons p pending ih =>
    intro out hP
    obtain ⟨d, hp, hd, hle⟩ := hP p (by simp)
    subst hp
    have hprec : getOperatorPrecedence [c] ≤ getOperatorPrecedence [d] := by
      rw [opLevel_precedence c hc, opLevel_precedence d hd]
      exact Int.ofNat_le.mpr hle
    rw [List.cons_append, popWhilePrecedence, if_pos hprec, joinTokens_append,
      ih (out ++ [[d]]) (fun q hq => hP q (by simp [hq]))]
    simp

theorem popToOpen_pending (stack : List Str) (k : Nat) :
    ∀ (pending out : List Str), (∀ p ∈ pending, IsPending k p) →
      popToOpen (pending ++ ['('] :: stack) (joinTokens out) =
        .ok (stack, joinTokens (out ++ pending)) := by
  intro pending
  induction pending with
  | nil =>
    intro out _
    simp [popToOpen]
  | cons p pending ih =>
    intro out hP
    obtain ⟨d, hp, hd, -⟩ := hP p (by simp)
    subst hp
    have hne : [d] ≠ ['('] := by
      rcases hd with rfl | rfl | rfl | rfl <;> decide
    rw [List.cons_append, popToOpen, if_neg hne, joinTokens_append,
      ih (out ++ [[d]]) (fun q hq => hP q (by simp [hq]))]
    simp

theorem popAll_pending : ∀ (pending out : List Str),
    popAll pending (joinTokens out) = joinTokens (out ++ pending) := by
  intro pending
  induction pending with
  | nil => intro out; simp [popAll]
  | cons p pending ih =>
    intro out
    rw [popAll, joinTokens_append, ih]
    simp

/-- The loop of `infixToPostfix` over the tokens of a well-formed expression:
it emits `emitted` and leaves `pending` on the stack, which together are the
postfix tokens of the expression. -/
theorem infixLoop_expr (L : GoFloat) (hL : L.Lawful) (e : Expr) :
    e.wellFormed L = true →
    ∃ emitted pending : List Str, emitted ++ pending = e.postfixTokens ∧
      (∀ p ∈ pending, IsPending e.level p) ∧
      ∀ (rest stack out : List Str), Blocked e.level stack →
        infixLoop (e.tokens ++ rest) ⟨stack⟩ (joinTokens out) =
          infixLoop rest ⟨pending ++ stack⟩ (joinTokens (out ++ emitted)) := by
  induction e with
  | num tok =>
    intro hwf
    have ht : NumTok L tok := hL.numTok hwf
    refine ⟨[tok], [], rfl, by simp, ?_⟩
    intro rest stack out _
    have h1 : (Expr.num tok).tokens ++ rest = tok :: rest := rfl
    rw [h1, infixLoop_cons, if_pos (by rw [ht.notSign]; rfl), joinTokens_append]
    rfl
  | paren inner ih =>
    intro hwf
    obtain ⟨emitted, pending, hEP, hP, hloop⟩ := ih hwf
    refine ⟨inner.postfixTokens, [], by simp [Expr.postfixTokens], by simp, ?_⟩
    intro rest stack out _
    have h1 : (Expr.paren inner).tokens ++ rest = ['('] :: (inner.tokens ++ [')'] :: rest) := by
      simp [Expr.tokens]
    have hb : Blocked inner.level (['('] :: stack) := by
      intro top htop
      simp only [List.head?_cons, Option.some.injEq] at htop
      subst htop
      have h2 : getOperatorPrecedence ['('] = -1 := by decide
      rw [h2]
      have h3 : (0 : Int) ≤ Int.ofNat inner.level := Int.ofNat_nonneg _
      omega
    rw [h1, infixLoop_cons, if_neg (by decide), if_pos rfl]
    have h4 : Stack.Push ⟨stack⟩ ['('] = ⟨['('] :: stack⟩ := rfl
    rw [h4, hloop _ _ _ hb, infixLoop_cons, if_neg (by decide), if_neg (by decide), if_pos rfl]
    simp only
    rw [popToOpen_pending stack inner.level pending _ hP]
    simp only [List.nil_append, List.append_assoc, hEP]
  | bin op l r ihl ihr =>
    intro hwf
    obtain ⟨hop, hl, hr, hwl, hwr⟩ := Expr.wellFormed_bin L op l r hwf
    obtain ⟨el, pl, hEPl, hPl, hloopl⟩ := ihl hwl
    obtain ⟨er, pr, hEPr, hPr, hloopr⟩ := ihr hwr
    refine ⟨l.postfixTokens ++ er, pr ++ [[op]], ?_, ?_, ?_⟩
    · simp only [Expr.postfixTokens, ← hEPr, List.append_assoc]
    · intro p hp
      rcases List.mem_append.mp hp with h | h
      · exact (hPr p h).weaken (Nat.le_of_lt hr)
      · simp only [List.mem_singleton] at h
        subst h
        exact ⟨op, rfl, hop, le_refl _⟩
    · intro rest stack out hb
      have hb0 : Blocked (opLevel op) stack := hb
      have h1 : (Expr.bin op l r).tokens ++ rest = l.tokens ++ ([op] :: (r.tokens ++ rest)) := by
        simp [Expr.tokens]
      have hsign : isSign [op] = true := by
        rcases hop with rfl | rfl | rfl | rfl <;> decide
      have hno : [op] ≠ ['('] := by
        rcases hop with rfl | rfl | rfl | rfl <;> decide
      have hnc : [op] ≠ [')'] := by
        rcases hop with rfl | rfl | rfl | rfl <;> decide
      have hb2 : Blocked r.level ([op] :: stack) := by
        intro top htop
        simp only [List.head?_cons, Option.some.injEq] at htop
        subst htop
        rw [opLevel_precedence op hop]
        exact Int.ofNat_lt.mpr hr
      rw [h1, hloopl _ _ _ (hb0.raise hl), infixLoop_cons, if_neg (by rw [hsign]; simp),
        if_neg hno, if_neg hnc,
        popWhilePrecedence_pending op hop stack hb0 pl _ (fun p hp => (hPl p hp).weaken hl)]
      have h4 : Stack.Push ⟨stack⟩ [op] = ⟨[op] :: stack⟩ := rfl
      simp only
      rw [h4, hloopr _ _ _ hb2]
      simp only [List.append_assoc, List.singleton_append, ← hEPl]


/-- The loop of `readPosfix` over the postfix tokens of a well-formed expression
pushes one word, which reads as the value of the expression. -/
theorem readPosfixLoop_expr (L : GoFloat) (hL : L.Lawful) (e : Expr) :
    e.wellFormed L = true →
    ∃ (word : Str) (v : L.F), L.parse64 word = .ok v ∧ e.value L = some v ∧
      ∀ (rest stack : List Str),
        readPosfixLoop L (e.postfixTokens ++ rest) ⟨stack⟩ =
          readPosfixLoop L rest ⟨word :: stack⟩ := by
  induction e with
  | num tok =>
    intro hwf
    have ht : NumTok L tok := hL.numTok hwf
    obtain ⟨v, hv⟩ := isNil_eq_true ht.num64
    refine ⟨tok, v, hv, by simp [Expr.value, hv], ?_⟩
    intro rest stack
    have h1 : (Expr.num tok).postfixTokens ++ rest = tok :: rest := rfl
    rw [h1, readPosfixLoop_cons, if_neg (by rw [ht.notSign]; simp)]
    rfl
  | paren inner ih =>
    intro hwf
    obtain ⟨word, v, hv, hval, hloop⟩ := ih hwf
    exact ⟨word, v, hv, hval, hloop⟩
  | bin op l r ihl ihr =>
    intro hwf
    obtain ⟨hop, -, -, hwl, hwr⟩ := Expr.wellFormed_bin L op l r hwf
    obtain ⟨wl, vl, hvl, hvall, hloopl⟩ := ihl hwl
    obtain ⟨wr, vr, hvr, hvalr, hloopr⟩ := ihr hwr
    obtain ⟨f, hf, hfx⟩ := getOperationOfSign_apply L op hop
    obtain ⟨hsign, -, -, -, -, -, hread⟩ := opRune_facts hL op hop
    refine ⟨L.format (applyOp L op vl vr), applyOp L op vl vr, hL.parse64_format _,
      by simp [Expr.value, hvall, hvalr], ?_⟩
    intro rest stack
    have h1 : (Expr.bin op l r).postfixTokens ++ rest =
        l.postfixTokens ++ (r.postfixTokens ++ ([op] :: rest)) := by
      simp [Expr.postfixTokens]
    rw [h1, hloopl, hloopr, readPosfixLoop_cons, if_pos hsign, hread]
    simp only [Stack.Pop, hvl, hvr, hf, hfx]
    rfl

/-- The loop of `isValidInput` over the tokens of a well-formed expression that
comes first or after `(` or an operator: it goes through, and `lastValue` ends
on a number token or on `)`. -/
theorem isValidLoop_expr (L : GoFloat) (hL : L.Lawful) (e : Expr) :
    e.wellFormed L = true →
    ∃ last : Str, (last = [')'] ∨ IsNumberToken L last) ∧
      ∀ (lastValue : Option Str) (rest : List Str), IsOpening lastValue →
        isValidLoop L lastValue (e.tokens ++ rest) = isValidLoop L (some last) rest := by
  induction e with
  | num tok =>
    intro hwf
    have ht : NumTok L tok := hL.numTok hwf
    refine ⟨tok, Or.inr hwf, ?_⟩
    intro lastValue rest hlast
    have h1 : (Expr.num tok).tokens ++ rest = tok :: rest := rfl
    have h2 : ¬ (tok = [' '] ∨ tok = []) := by
      rintro (h | h)
      · exact ht.noSpace ' ' (by rw [h]; simp) rfl
      · exact ht.ne h
    rw [h1, isValidLoop_cons, if_neg h2]
    rcases hlast with h | h | ⟨c, hc, h⟩
    · subst h; rfl
    · subst h
      simp
    · subst h
      obtain ⟨hsign, hnum, -, ho, hcl, -, -⟩ := opRune_facts hL c hc
      have h3 : ¬ ([c] = ['('] ∨ tok = ['('] ∨ [c] = [')'] ∨ tok = [')']) := by
        rintro (h | h | h | h)
        · exact ho (by simpa using h)
        · exact (ht.noParen '(' (by rw [h]; simp)).1 rfl
        · exact hcl (by simpa using h)
        · exact (ht.noParen ')' (by rw [h]; simp)).2 rfl
      simp only [if_neg h3, hnum, ht.notSign, ht.num32]
      simp
  | paren inner ih =>
    intro hwf
    obtain ⟨last, -, hloop⟩ := ih hwf
    refine ⟨[')'], Or.inl rfl, ?_⟩
    intro lastValue rest hlast
    have h1 : (Expr.paren inner).tokens ++ rest = ['('] :: (inner.tokens ++ [')'] :: rest) := by
      simp [Expr.tokens]
    have h2 : isValidLoop L lastValue (['('] :: (inner.tokens ++ [')'] :: rest)) =
        isValidLoop L (some ['(']) (inner.tokens ++ [')'] :: rest) := by
      rw [isValidLoop_cons, if_neg (by decide)]
      cases lastValue with
      | none => rfl
      | some x => simp
    rw [h1, h2, hloop _ _ (Or.inr (Or.inl rfl)), isValidLoop_cons, if_neg (by decide)]
    simp
  | bin op l r ihl ihr =>
    intro hwf
    obtain ⟨hop, -, -, hwl, hwr⟩ := Expr.wellFormed_bin L op l r hwf
    obtain ⟨lastl, hlastl, hloopl⟩ := ihl hwl
    obtain ⟨lastr, hlastr, hloopr⟩ := ihr hwr
    refine ⟨lastr, hlastr, ?_⟩
    intro lastValue rest hlast
    have h1 : (Expr.bin op l r).tokens ++ rest = l.tokens ++ ([op] :: (r.tokens ++ rest)) := by
      simp [Expr.tokens]
    obtain ⟨hsign, hnum, hsp, ho, hcl, -, -⟩ := opRune_facts hL op hop
    have h2 : isValidLoop L (some lastl) ([op] :: (r.tokens ++ rest)) =
        isValidLoop L (some [op]) (r.tokens ++ rest) := by
      rw [isValidLoop_cons, if_neg (by simpa using hsp)]
      rcases hlastl with h | h
      · subst h
        simp
      · have ht : NumTok L lastl := hL.numTok h
        have h3 : ¬ (lastl = ['('] ∨ [op] = ['('] ∨ lastl = [')'] ∨ [op] = [')']) := by
          rintro (h | h | h | h)
          · exact (ht.noParen '(' (by rw [h]; simp)).1 rfl
          · exact ho (by simpa using h)
          · exact (ht.noParen ')' (by rw [h]; simp)).2 rfl
          · exact hcl (by simpa using h)
        simp only [if_neg h3, hnum, ht.notSign, hsign]
        simp
    rw [h1, hloopl _ _ hlast, h2, hloopr _ _ (Or.inr (Or.inr ⟨op, hop, rfl⟩))]

theorem Expr.tokens_shape (L : GoFloat) (hL : L.Lawful) (e : Expr) :
    e.wellFormed L = true → ∀ t ∈ e.tokens, t ≠ [] ∧ ∀ c ∈ t, isSpace c = false := by
  induction e with
  | num tok =>
    intro hwf t ht
    have hn : NumTok L tok := hL.numTok hwf
    simp only [Expr.tokens, List.mem_singleton] at ht
    subst ht
    exact ⟨hn.ne, hn.noWhite⟩
  | paren inner ih =>
    intro hwf t ht
    simp only [Expr.tokens, List.mem_cons, List.mem_append, List.mem_singleton,
      List.not_mem_nil, or_false] at ht
    rcases ht with h | h | h
    · subst h; decide
    · exact ih hwf t h
    · subst h; decide
  | bin op l r ihl ihr =>
    intro hwf t ht
    obtain ⟨hop, -, -, hwl, hwr⟩ := Expr.wellFormed_bin L op l r hwf
    simp only [Expr.tokens, List.mem_cons, List.mem_append] at ht
    rcases ht with h | h | h
    · exact ihl hwl t h
    · subst h
      rcases hop with rfl | rfl | rfl | rfl <;> decide
    · exact ihr hwr t h

theorem Expr.postfixTokens_shape (L : GoFloat) (hL : L.Lawful) (e : Expr) :
    e.wellFormed L = true → ∀ t ∈ e.postfixTokens, t ≠ [] ∧ ∀ c ∈ t, isSpace c = false := by
  induction e with
  | num tok =>
    intro hwf t ht
    have hn : NumTok L tok := hL.numTok hwf
    simp only [Expr.postfixTokens, List.mem_singleton] at ht
    subst ht
    exact ⟨hn.ne, hn.noWhite⟩
  | paren inner ih =>
    intro hwf t ht
    exact ih hwf t ht
  | bin op l r ihl ihr =>
    intro hwf t ht
    obtain ⟨hop, -, -, hwl, hwr⟩ := Expr.wellFormed_bin L op l r hwf
    simp only [Expr.postfixTokens, List.mem_append, List.mem_singleton] at ht
    rcases ht with (h | h) | h
    · exact ihl hwl t h
    · exact ihr hwr t h
    · subst h
      rcases hop with rfl | rfl | rfl | rfl <;> decide

theorem Expr.tokens_ne_nil (e : Expr) : e.tokens ≠ [] := by
  induction e with
  | num tok => simp [Expr.tokens]
  | paren inner _ => simp [Expr.tokens]
  | bin op l r ihl _ => simp [Expr.tokens]

theorem fieldsLoop_joinSpace (ts : List Str)
    (hts : ∀ t ∈ ts, t ≠ [] ∧ ∀ c ∈ t, isSpace c = false) : fieldsLoop [] (joinSpace ts) = ts := by
  induction ts with
  | nil => rfl
  | cons t ts ih =>
    have ht := hts t (by simp)
    have hrest : ∀ u ∈ ts, u ≠ [] ∧ ∀ c ∈ u, isSpace c = false :=
      fun u hu => hts u (by simp [hu])
    cases ts with
    | nil => exact fieldsLoop_token_end t ht.1 ht.2
    | cons u us =>
      rw [joinSpace_cons t (u :: us) (by simp), fieldsLoop_token_space t _ ht.1 ht.2, ih hrest]

theorem splitLoop_joinSpace (ts : List Str) (hne : ts ≠ [])
    (hts : ∀ t ∈ ts, ∀ c ∈ t, c ≠ ' ') : splitLoop [] (joinSpace ts) = ts := by
  induction ts with
  | nil => exact absurd rfl hne
  | cons t ts ih =>
    have ht := hts t (by simp)
    have hrest : ∀ u ∈ ts, ∀ c ∈ u, c ≠ ' ' := fun u hu => hts u (by simp [hu])
    cases ts with
    | nil => exact splitLoop_token_end t ht
    | cons u us =>
      rw [joinSpace_cons t (u :: us) (by simp), splitLoop_token_space t _ ht,
        ih (by simp) hrest]

/-- Claim C19. For every well-formed infix expression `e` (number tokens, the
operators `+ - * /`, parentheses), written with one space between its tokens:
`isValidInput` accepts the line, `infixToPostfix` succeeds on it, and `readPosfix`
on that postfix string succeeds with a word that reads as the value of `e`, the
operators applied as the tree of `e` says (parentheses first, `*` and `/` before
`+` and `-`, one level left to right), each with the float32 operation of the
engine. -/
theorem expression_value (L : GoFloat) (hL : L.Lawful) (e : Expr)
    (hwf : e.wellFormed L = true) :
    isValidInput L (joinSpace e.tokens) = true ∧
      ∃ (posfix output : Str) (v : L.F),
        infixToPostfix (joinSpace e.tokens) = .ok posfix ∧
        readPosfix L posfix = .ok output ∧
        L.parse64 output = .ok v ∧ e.value L = some v := by
  have hshape := Expr.tokens_shape L hL e hwf
  have hpshape := Expr.postfixTokens_shape L hL e hwf
  have hnosp : ∀ t ∈ e.tokens, ∀ c ∈ t, c ≠ ' ' := by
    intro t ht c hc hsp
    have := (hshape t ht).2 c hc
    rw [hsp] at this
    exact absurd this (by decide)
  obtain ⟨last, -, hvalid⟩ := isValidLoop_expr L hL e hwf
  obtain ⟨emitted, pending, hEP, hP, hloop⟩ := infixLoop_expr L hL e hwf
  obtain ⟨word, v, hv, hval, hread⟩ := readPosfixLoop_expr L hL e hwf
  refine ⟨?_, joinTokens e.postfixTokens, word, v, ?_, ?_, hv, hval⟩
  · unfold isValidInput splitSpace
    rw [splitLoop_joinSpace _ e.tokens_ne_nil hnosp]
    have h := hvalid none [] (Or.inl rfl)
    rw [List.append_nil] at h
    rw [h]
    rfl
  · unfold infixToPostfix Fields
    rw [fieldsLoop_joinSpace _ hshape]
    have h := hloop [] [] [] (fun top htop => by simp at htop)
    simp only [List.append_nil, List.nil_append] at h
    have h0 : joinTokens [] = [] := rfl
    rw [h0] at h
    rw [h]
    have hany : pending.any (fun operand => operand = ['('] ∨ operand = [')']) = false := by
      rw [List.any_eq_false]
      intro p hp
      obtain ⟨c, hpc, hc, -⟩ := hP p hp
      subst hpc
      rcases hc with rfl | rfl | rfl | rfl <;> decide
    have h2 : infixLoop [] ⟨pending⟩ (joinTokens emitted) = .ok (⟨pending⟩, joinTokens emitted) :=
      rfl
    rw [h2]
    simp only [hany]
    rw [popAll_pending, hEP]
    rfl
  · unfold readPosfix
    rw [Fields_joinTokens _ hpshape]
    have h := hread [] []
    rw [List.append_nil] at h
    rw [h]
    rfl

/-- Witness of C19: `2 * ( 3 + 4 ) - 8 / 2` is accepted, becomes
`2 3 4 + * 8 2 / -`, and evaluates to 10. -/
theorem expression_value_witness :
    joinSpace (Expr.bin '-'
        (Expr.bin '*' (Expr.num ['2'])
          (Expr.paren (Expr.bin '+' (Expr.num ['3']) (Expr.num ['4']))))
        (Expr.bin '/' (Expr.num ['8']) (Expr.num ['2']))).tokens =
        "2 * ( 3 + 4 ) - 8 / 2".toList ∧
      (Expr.bin '-'
        (Expr.bin '*' (Expr.num ['2'])
          (Expr.paren (Expr.bin '+' (Expr.num ['3']) (Expr.num ['4']))))
        (Expr.bin '/' (Expr.num ['8']) (Expr.num ['2']))).value intFragment = some (some 10) ∧
      infixToPostfix "2 * ( 3 + 4 ) - 8 / 2".toList = .ok " 2 3 4 + * 8 2 / -".toList ∧
      readPosfix intFragment " 2 3 4 + * 8 2 / -".toList = .ok "10".toList ∧
      (isValidInput intFragment (joinSpace (Expr.bin '-'
          (Expr.bin '*' (Expr.num ['2'])
            (Expr.paren (Expr.bin '+' (Expr.num ['3']) (Expr.num ['4']))))
          (Expr.bin '/' (Expr.num ['8']) (Expr.num ['2']))).tokens) = true ∧
        ∃ (posfix output : Str) (v : intFragment.F),
          infixToPostfix (joinSpace (Expr.bin '-'
            (Expr.bin '*' (Expr.num ['2'])
              (Expr.paren (Expr.bin '+' (Expr.num ['3']) (Expr.num ['4']))))
            (Expr.bin '/' (Expr.num ['8']) (Expr.num ['2']))).tokens) = .ok posfix ∧
          readPosfix intFragment posfix = .ok output ∧
          intFragment.parse64 output = .ok v ∧
          (Expr.bin '-'
            (Expr.bin '*' (Expr.num ['2'])
              (Expr.paren (Expr.bin '+' (Expr.num ['3']) (Expr.num ['4']))))
            (Expr.bin '/' (Expr.num ['8']) (Expr.num ['2']))).value intFragment = some v) :=
  ⟨by decide, by decide, by decide, by decide,
    expression_value intFragment intFragment_lawful _ (by decide)⟩

/-! ## The dictionary as a state: which calls leave it as it is -/

theorem stateful_loop_cons (L : GoFloat) (latin : Char → Bool) (word : Str)
    (rest : List Str) (newString : Str) (dict : Dictionary L) :
    Stateful.parseVariablesLoop L latin (word :: rest) newString dict =
      if isNil (L.parse32 word) = true then
        Stateful.parseVariablesLoop L latin rest newString dict
      else if IsWord latin word = true then
        match mapLookup word dict with
        | (some value, dict1) =>
          Stateful.parseVariablesLoop L latin rest
            (replaceFirst newString word (L.format3 value)) dict1
        | (none, dict1) => (.error ("Unknown variable: " ++ String.mk word), dict1)
      else if (!isSign word && !isParenthesis word) = true then
        (.error ("Invalid Identifier: " ++ String.mk word), dict)
      else Stateful.parseVariablesLoop L latin rest newString dict := by
  rfl

/-- The loop of `parseVariablesInString`, run as a step on the dictionary, leaves
the dictionary as it found it and returns what the loop returns that reads the
dictionary it is given. -/
theorem stateful_loop_eq (L : GoFloat) (latin : Char → Bool) (dict : Dictionary L)
    (ws : List Str) :
    ∀ newString, Stateful.parseVariablesLoop L latin ws newString dict =
      (parseVariablesLoop L latin dict ws newString, dict) := by
  induction ws with
  | nil => intro newString; rfl
  | cons w ws ih =>
    intro newString
    rw [stateful_loop_cons, parseVariablesLoop_cons]
    by_cases h1 : isNil (L.parse32 w) = true
    · rw [if_pos h1, if_pos h1]
      exact ih newString
    · rw [if_neg h1, if_neg h1]
      by_cases h2 : IsWord latin w = true
      · rw [if_pos h2, if_pos h2]
        unfold mapLookup
        cases hd : dict w with
        | none => rfl
        | some value => exact ih _
      · rw [if_neg h2, if_neg h2]
        by_cases h3 : (!isSign w && !isParenthesis w) = true
        · rw [if_pos h3, if_pos h3]
        · rw [if_neg h3, if_neg h3]
          exact ih newString

theorem stateful_substitution_eq (L : GoFloat) (latin : Char → Bool) (dict : Dictionary L)
    (s : Str) :
    Stateful.parseVariablesInString L latin s dict = (parseVariablesInString L latin dict s, dict) :=
  stateful_loop_eq L latin dict (Fields s) s

theorem stateful_evaluation_eq (L : GoFloat) (latin : Char → Bool) (dict : Dictionary L)
    (line : Str) :
    Stateful.evaluateLine L latin line dict =
      ((evaluateLine L latin dict line).2, (evaluateLine L latin dict line).1) := by
  unfold Stateful.evaluateLine evaluateLine
  rw [stateful_substitution_eq]
  cases parseVariablesInString L latin dict (TrimSpace line) <;> rfl

theorem stateful_assignment_eq (L : GoFloat) (latin : Char → Bool) (dict : Dictionary L)
    (line : Str) :
    Stateful.ReadAssignmentInput L latin line dict =
      ((ReadAssignmentInput L latin dict line).2, (ReadAssignmentInput L latin dict line).1) := by
  unfold Stateful.ReadAssignmentInput ReadAssignmentInput
  cases splitEquals (TrimSpace line) with
  | nil => rfl
  | cons word0 words =>
    simp only
    by_cases hw : (!IsWord latin (TrimSpace word0)) = true
    · rw [if_pos hw, if_pos hw]
    · rw [if_neg hw, if_neg hw]
      cases words with
      | nil => rfl
      | cons word1 rest =>
        simp only
        rw [stateful_substitution_eq]
        cases parseVariablesInString L latin dict (TrimSpace word1) with
        | error e => rfl
        | ok replaced =>
          simp only
          cases ReadCalculationInput L replaced <;> rfl

/-- An assignment does change the state: after `x = 5` on the empty dictionary
`x` holds 5. -/
theorem stateful_assignment_writes :
    (emptyDictionary intFragment) "x".toList = none ∧
      (Stateful.ReadAssignmentInput intFragment asciiLatin "x = 5".toList
        (emptyDictionary intFragment)).2 "x".toList = some (some 5) := by
  decide

/-- Claim C17. Evaluating a bare expression (the expression branch of `main`:
`parseVariablesInString` on the trimmed line, then `ReadCalculationInput`), run
as a step on the state of the program, leaves `VariableDictionary` as it was;
and evaluating the same line a second time, on the state the first evaluation
left, returns the same result, the same error or the same abort, and again
leaves the dictionary as it was. -/
theorem evaluation_keeps_dictionary (L : GoFloat) (latin : Char → Bool) (dict : Dictionary L)
    (line : Str) :
    (Stateful.evaluateLine L latin line dict).2 = dict ∧
      (Stateful.evaluateLine L latin line (Stateful.evaluateLine L latin line dict).2).1 =
        (Stateful.evaluateLine L latin line dict).1 ∧
      (Stateful.evaluateLine L latin line (Stateful.evaluateLine L latin line dict).2).2 =
        dict := by
  have h : (Stateful.evaluateLine L latin line dict).2 = dict := by
    unfold Stateful.evaluateLine
    rw [stateful_substitution_eq]
    cases parseVariablesInString L latin dict (TrimSpace line) <;> rfl
  rw [h]
  exact ⟨rfl, rfl, h⟩

/-! ## Errors of the three entry points, with where they come from -/

theorem parseVariablesLoop_error_word (L : GoFloat) (latin : Char → Bool) (dict : Dictionary L)
    (ws : List Str) :
    ∀ (newString : Str) (e : String), parseVariablesLoop L latin dict ws newString = .error e →
      ∃ w ∈ ws, e = "Unknown variable: " ++ String.mk w ∨
        e = "Invalid Identifier: " ++ String.mk w := by
  induction ws with
  | nil => intro ns e h; cases h
  | cons w ws ih =>
    intro ns e h
    have hrest : ∀ ns2, parseVariablesLoop L latin dict ws ns2 = .error e →
        ∃ u ∈ w :: ws, e = "Unknown variable: " ++ String.mk u ∨
          e = "Invalid Identifier: " ++ String.mk u := by
      intro ns2 h2
      obtain ⟨u, hu, hue⟩ := ih ns2 e h2
      exact ⟨u, List.mem_cons_of_mem _ hu, hue⟩
    rw [parseVariablesLoop_cons] at h
    split at h
    · exact hrest _ h
    · split at h
      · split at h
        · exact hrest _ h
        · cases h; exact ⟨w, List.mem_cons_self _ _, Or.inl rfl⟩
      · split at h
        · cases h; exact ⟨w, List.mem_cons_self _ _, Or.inr rfl⟩
        · exact hrest _ h

theorem ReadCalculationInput_error_source (L : GoFloat) (line : Str) (e : String)
    (h : ReadCalculationInput L line = .err e) :
    e = "Invalid expression" ∨ e = "invalid postfix expression" ∨ e = "invalid operand" ∨
      ∃ posfix output, infixToPostfix (spaceParens line) = .ok posfix ∧
        readPosfix L posfix = .ok output ∧ L.parse32 output = .error e := by
  unfold ReadCalculationInput at h
  simp only at h
  split at h
  · cases h; exact Or.inl rfl
  · cases hp : infixToPostfix (spaceParens line) with
    | error e2 =>
      rw [hp] at h
      cases h
      exact Or.inl (infixToPostfix_error_text _ _ hp)
    | ok posfix =>
      rw [hp] at h
      simp only at h
      cases hr : readPosfix L posfix with
      | err e2 =>
        rw [hr] at h
        cases h
        rcases readPosfix_error_text L posfix _ hr with h1 | h1 | h1
        · exact Or.inl h1
        · exact Or.inr (Or.inl h1)
        · exact Or.inr (Or.inr (Or.inl h1))
      | crash => rw [hr] at h; cases h
      | ok output =>
        rw [hr] at h
        simp only at h
        cases hq : L.parse32 output with
        | error e2 =>
          rw [hq] at h
          cases h
          exact Or.inr (Or.inr (Or.inr ⟨posfix, output, rfl, hr, hq⟩))
        | ok v => rw [hq] at h; cases h

theorem ReadAssignmentInput_error_source (L : GoFloat) (latin : Char → Bool)
    (dict dict2 : Dictionary L) (line : Str) (e : String)
    (h : ReadAssignmentInput L latin dict line = (dict2, .err e)) :
    e = "Invalid identifier" ∨
      ∃ word0 word1 rest, splitEquals (TrimSpace line) = word0 :: word1 :: rest ∧
        (parseVariablesInString L latin dict (TrimSpace word1) = .error e ∨
          ∃ replaced, parseVariablesInString L latin dict (TrimSpace word1) = .ok replaced ∧
            ReadCalculationInput L replaced = .err e) := by
  unfold ReadAssignmentInput at h
  cases hs : splitEquals (TrimSpace line) with
  | nil => rw [hs] at h; cases h
  | cons w0 ws =>
    rw [hs] at h
    simp only at h
    split at h
    · cases h; exact Or.inl rfl
    · cases ws with
      | nil => cases h
      | cons w1 ws =>
        simp only at h
        refine Or.inr ⟨w0, w1, ws, rfl, ?_⟩
        cases hp : parseVariablesInString L latin dict (TrimSpace w1) with
        | error e2 =>
          rw [hp] at h
          cases h
          exact Or.inl rfl
        | ok replaced =>
          rw [hp] at h
          simp only at h
          cases hc : ReadCalculationInput L replaced with
          | err e2 =>
            rw [hc] at h
            cases h
            exact Or.inr ⟨replaced, rfl, hc⟩
          | crash => rw [hc] at h; cases h
          | ok v => rw [hc] at h; cases h

theorem substitution_error_ne_stack (L : GoFloat) (latin : Char → Bool) (dict : Dictionary L)
    (line : Str) (e : String) (h : parseVariablesInString L latin dict line = .error e) :
    e ≠ "Stack is empty" := by
  obtain ⟨w, -, hw | hw⟩ := parseVariablesLoop_error_word L latin dict _ _ _ h
  · rw [hw]; exact text_ne_of_rune _ _ _ 0 (by decide) (by decide)
  · rw [hw]; exact text_ne_of_rune _ _ _ 0 (by decide) (by decide)

theorem calculation_error_ne_stack (L : GoFloat) (hT : L.TextLawful) (line : Str) (e : String)
    (h : ReadCalculationInput L line = .err e) : e ≠ "Stack is empty" := by
  rcases ReadCalculationInput_error_source L line e h with h1 | h1 | h1 | ⟨_, output, -, -, hq⟩
  · rw [h1]; decide
  · rw [h1]; decide
  · rw [h1]; decide
  · obtain ⟨rest, hrest⟩ := hT.parse_error_text output e hq
    rw [hrest]
    exact text_ne_of_rune _ _ _ 0 (by decide) (by decide)

/-- Claim C18, amended. For every library whose `strconv.ParseFloat` errors
start with `strconv.ParseFloat: `, every line and every dictionary:

* an error of `parseVariablesInString` reads "Unknown variable: X" or
  "Invalid Identifier: X" for a word X of the line;
* an error of `ReadCalculationInput` reads "Invalid expression",
  "invalid postfix expression" or "invalid operand", or is the error that
  `strconv.ParseFloat(.., 32)` returns on the text `readPosfix` returned;
* an error of `ReadAssignmentInput` reads "Invalid identifier", or is an error of
  `parseVariablesInString` on the trimmed text after the first `=` (with X a word
  of that text), or an error of `ReadCalculationInput` on the text substituted;
* no error of the three reads "Stack is empty". -/
theorem entry_point_errors (L : GoFloat) (hT : L.TextLawful) (latin : Char → Bool)
    (dict : Dictionary L) (line : Str) :
    (∀ e, parseVariablesInString L latin dict line = .error e →
        ∃ w ∈ Fields line, e = "Unknown variable: " ++ String.mk w ∨
          e = "Invalid Identifier: " ++ String.mk w) ∧
      (∀ e, ReadCalculationInput L line = .err e →
        e = "Invalid expression" ∨ e = "invalid postfix expression" ∨ e = "invalid operand" ∨
          ∃ posfix output, infixToPostfix (spaceParens line) = .ok posfix ∧
            readPosfix L posfix = .ok output ∧ L.parse32 output = .error e) ∧
      (∀ dict2 e, ReadAssignmentInput L latin dict line = (dict2, .err e) →
        e = "Invalid identifier" ∨
          ∃ word0 word1 rest, splitEquals (TrimSpace line) = word0 :: word1 :: rest ∧
            ((∃ w ∈ Fields (TrimSpace word1), e = "Unknown variable: " ++ String.mk w ∨
                e = "Invalid Identifier: " ++ String.mk w) ∨
              ∃ replaced, parseVariablesInString L latin dict (TrimSpace word1) = .ok replaced ∧
                (e = "Invalid expression" ∨ e = "invalid postfix expression" ∨
                  e = "invalid operand" ∨
                  ∃ posfix output, infixToPostfix (spaceParens replaced) = .ok posfix ∧
                    readPosfix L posfix = .ok output ∧ L.parse32 output = .error e))) ∧
      (∀ e, (parseVariablesInString L latin dict line = .error e ∨
            ReadCalculationInput L line = .err e ∨
            ∃ dict2, ReadAssignmentInput L latin dict line = (dict2, .err e)) →
        e ≠ "Stack is empty") := by
  refine ⟨fun e h => parseVariablesLoop_error_word L latin dict _ _ e h,
    fun e h => ReadCalculationInput_error_source L line e h, ?_, ?_⟩
  · intro dict2 e h
    rcases ReadAssignmentInput_error_source L latin dict dict2 line e h with
      h1 | ⟨w0, w1, rest, hs, h1 | ⟨replaced, hp, hc⟩⟩
    · exact Or.inl h1
    · exact Or.inr ⟨w0, w1, rest, hs,
        Or.inl (parseVariablesLoop_error_word L latin dict _ _ e h1)⟩
    · exact Or.inr ⟨w0, w1, rest, hs,
        Or.inr ⟨replaced, hp, ReadCalculationInput_error_source L replaced e hc⟩⟩
  · rintro e (h | h | ⟨dict2, h⟩)
    · exact substitution_error_ne_stack L latin dict line e h
    · exact calculation_error_ne_stack L hT line e h
    · rcases ReadAssignmentInput_error_source L latin dict dict2 line e h with
        h1 | ⟨w0, w1, rest, -, h1 | ⟨replaced, -, hc⟩⟩
      · rw [h1]; decide
      · exact substitution_error_ne_stack L latin dict _ e h1
      · exact calculation_error_ne_stack L hT replaced e hc

/-- Witness of C18 as amended, on the line `y = 2x + 1`: each entry point returns
an error, and the theorem places each of them. -/
theorem entry_point_errors_witness :
    parseVariablesInString intFragment asciiLatin (emptyDictionary intFragment)
        "y = 2x + 1".toList = .error "Unknown variable: y" ∧
      ReadCalculationInput intFragment "y = 2x + 1".toList = .err "Invalid expression" ∧
      ReadAssignmentInput intFragment asciiLatin (emptyDictionary intFragment)
        "y = 2x + 1".toList = (emptyDictionary intFragment, .err "Invalid Identifier: 2x") ∧
      (∃ w ∈ Fields "y = 2x + 1".toList,
        "Unknown variable: y" = "Unknown variable: " ++ String.mk w ∨
          "Unknown variable: y" = "Invalid Identifier: " ++ String.mk w) ∧
      "Invalid Identifier: 2x" ≠ "Stack is empty" :=
  have h := entry_point_errors intFragment intFragment_textLawful asciiLatin
    (emptyDictionary intFragment) "y = 2x + 1".toList
  have h3 : ReadAssignmentInput intFragment asciiLatin (emptyDictionary intFragment)
      "y = 2x + 1".toList = (emptyDictionary intFragment, .err "Invalid Identifier: 2x") :=
    Prod.ext rfl (by decide)
  ⟨by decide, by decide, h3, h.1 _ (by decide), h.2.2.2 _ (Or.inr (Or.inr ⟨_, h3⟩))⟩

end SmartCalc
